import Mathlib

/-!
# OEIS sequence records: parser, serializer and validator

A shallow embedding of the Go package `sequence` (files `keyword.go`,
`sequence.go`, `sequence_marshal.go`, `validation.go`) and theorems about it.

Modelling conventions

* A Go `string` or `[]byte` is a sequence of bytes.  It is modelled as a
  `List Char`, one `Char` per byte (the `Char` with the byte's code).
* `big.Int` is modelled as `Int`; Go `int` is modelled as `Int` (the counts
  that are added up are bounded by a slice length, so 64-bit wrap-around does
  not occur).
* A method that mutates its receiver and returns an `error` is modelled as a
  function returning the new record together with `Option Error`.
* A slice has its capacity equal to its length.
-/

namespace Sequence

/-- A Go string: a list of bytes. -/
abbrev Bytes := List Char

/-! ## keyword.go -/

/-- The `Keyword` constants of `keyword.go`, in declaration order (`iota`).
The Go type is `uint64`; the model holds the 31 declared values only. -/
inductive Keyword
  | KeywordBase
  | KeywordBref
  | KeywordChanged
  | KeywordCofr
  | KeywordCons
  | KeywordCore
  | KeywordDead
  | KeywordDumb
  | KeywordDupe
  | KeywordEasy
  | KeywordEigen
  | KeywordFini
  | KeywordFrac
  | KeywordFull
  | KeywordHard
  | KeywordHear
  | KeywordLook
  | KeywordLess
  | KeywordMore
  | KeywordMult
  | KeywordNew
  | KeywordNice
  | KeywordNonn
  | KeywordObsc
  | KeywordProbation
  | KeywordSign
  | KeywordTabf
  | KeywordTabl
  | KeywordUned
  | KeywordWalk
  | KeywordWord
  deriving DecidableEq, Repr

open Keyword

/-- Modelled from the spec: the generated file `keyword_enumer.go` is not part
of the sources (`go:generate enumer -type=Keyword -transform=lower
-trimprefix=Keyword`).  `KeywordValues` is the ordered sequence of all
keywords, in declaration order. -/
def KeywordValues : List Keyword :=
  [KeywordBase, KeywordBref, KeywordChanged, KeywordCofr, KeywordCons, KeywordCore,
   KeywordDead, KeywordDumb, KeywordDupe, KeywordEasy, KeywordEigen, KeywordFini,
   KeywordFrac, KeywordFull, KeywordHard, KeywordHear, KeywordLook, KeywordLess,
   KeywordMore, KeywordMult, KeywordNew, KeywordNice, KeywordNonn, KeywordObsc,
   KeywordProbation, KeywordSign, KeywordTabf, KeywordTabl, KeywordUned, KeywordWalk,
   KeywordWord]

/-- Modelled from the spec: the generated file `keyword_enumer.go` is not part
of the sources.  `Keyword.String` is the canonical rendering of a keyword: the
constant's name without the `Keyword` prefix, in lower case. -/
def Keyword.String : Keyword → Bytes
  | KeywordBase => "base".toList
  | KeywordBref => "bref".toList
  | KeywordChanged => "changed".toList
  | KeywordCofr => "cofr".toList
  | KeywordCons => "cons".toList
  | KeywordCore => "core".toList
  | KeywordDead => "dead".toList
  | KeywordDumb => "dumb".toList
  | KeywordDupe => "dupe".toList
  | KeywordEasy => "easy".toList
  | KeywordEigen => "eigen".toList
  | KeywordFini => "fini".toList
  | KeywordFrac => "frac".toList
  | KeywordFull => "full".toList
  | KeywordHard => "hard".toList
  | KeywordHear => "hear".toList
  | KeywordLook => "look".toList
  | KeywordLess => "less".toList
  | KeywordMore => "more".toList
  | KeywordMult => "mult".toList
  | KeywordNew => "new".toList
  | KeywordNice => "nice".toList
  | KeywordNonn => "nonn".toList
  | KeywordObsc => "obsc".toList
  | KeywordProbation => "probation".toList
  | KeywordSign => "sign".toList
  | KeywordTabf => "tabf".toList
  | KeywordTabl => "tabl".toList
  | KeywordUned => "uned".toList
  | KeywordWalk => "walk".toList
  | KeywordWord => "word".toList

/-- Lower-case form of one byte: `A`..`Z` are moved to `a`..`z`, every other
byte is kept. -/
def toLowerByte (c : Char) : Char :=
  if 'A'.toNat ≤ c.toNat ∧ c.toNat ≤ 'Z'.toNat then Char.ofNat (c.toNat + 32) else c

/-- Modelled from the spec: the generated file `keyword_enumer.go` is not part
of the sources.  `KeywordString` parses a token into a keyword, ignoring letter
case: the token is normalised to lower case and looked up among the canonical
names; `none` stands for the unknown-keyword error. -/
def KeywordString (s : Bytes) : Option Keyword :=
  KeywordValues.find? (fun k => decide (k.String = s.map toLowerByte))

/-! ## math/big and strings -/

/-- The test `'0' <= ch && ch <= '9'` of the digit scanner. -/
def isDigit (ch : Char) : Bool :=
  decide ('0'.toNat ≤ ch.toNat) && decide (ch.toNat ≤ '9'.toNat)

/-- The value `ch - '0'` of a digit. -/
def digitVal (ch : Char) : Nat := ch.toNat - '0'.toNat

/-- The character of a decimal digit. -/
def digitChar (d : Nat) : Char := Char.ofNat ('0'.toNat + d)

/-- The digit scanner of `math/big` in base 10: consumes the longest run of
decimal digits and returns its value, the number of digits read and the rest
of the input. -/
def scanNat (s : Bytes) : Nat × Nat × Bytes :=
  let ds := s.takeWhile isDigit
  (ds.foldl (fun acc ch => acc * 10 + digitVal ch) 0, ds.length, s.dropWhile isDigit)

/-- `(*big.Int).SetString(s, 10)` on a receiver holding `z`: the new value of
the receiver and the `ok` flag.  An optional sign `+` or `-` is followed by at
least one decimal digit and nothing else.  On failure the receiver keeps what
the scanner stored before it gave up (Go documents it as undefined). -/
def SetString (z : Int) (s : Bytes) : Int × Bool :=
  match s with
  | [] => (z, false)
  | ch :: rest =>
    let neg := decide (ch = '-')
    let body := if ch = '-' ∨ ch = '+' then rest else s
    match scanNat body with
    | (n, count, remaining) =>
      if count = 0 then (0, false)
      else
        let v : Int := if neg then -(n : Int) else (n : Int)
        (v, remaining.isEmpty)

/-- Decimal digits of a natural number, most significant first; `fuel` bounds
the number of digits. -/
def natStringFuel : Nat → Nat → Bytes
  | 0, _ => []
  | fuel + 1, n =>
    if n < 10 then [digitChar n]
    else natStringFuel fuel (n / 10) ++ [digitChar (n % 10)]

/-- Decimal rendering of a natural number. -/
def natString (n : Nat) : Bytes := natStringFuel (n + 1) n

/-- `(*big.Int).String()`: the decimal rendering, with `-` for negatives. -/
def bigString (z : Int) : Bytes :=
  if z < 0 then '-' :: natString z.natAbs else natString z.natAbs

/-- `strings.Split(s, sep)` for a one-byte separator. -/
def Split (s : Bytes) (sep : Char) : List Bytes :=
  match s with
  | [] => [[]]
  | c :: cs =>
    if c = sep then [] :: Split cs sep
    else
      match Split cs sep with
      | [] => [[c]]
      | w :: ws => (c :: w) :: ws

/-- `strings.TrimRight(s, cutset)` for a one-byte cutset: every trailing
occurrence of the byte is removed. -/
def TrimRight (s : Bytes) (cut : Char) : Bytes :=
  s.rdropWhile (fun c => decide (c = cut))

/-! ## sequence.go -/

/-- SequenceOffset represents offset characteristics of a sequence. -/
structure SequenceOffset where
  InitialValue : Int := 0
  FirstGreaterThanOne : Int := 0
  deriving DecidableEq, Repr

/-- The array `[3]int` of the `STUCounts` field. -/
structure Counts3 where
  c0 : Int := 0
  c1 : Int := 0
  c2 : Int := 0
  deriving DecidableEq, Repr

/-- Read slot `i` (`i` is 0, 1 or 2). -/
def Counts3.get (c : Counts3) (i : Nat) : Int :=
  match i with
  | 0 => c.c0
  | 1 => c.c1
  | _ => c.c2

/-- Write slot `i` (`i` is 0, 1 or 2). -/
def Counts3.set (c : Counts3) (i : Nat) (v : Int) : Counts3 :=
  match i with
  | 0 => { c with c0 := v }
  | 1 => { c with c1 := v }
  | _ => { c with c2 := v }

/-- SequenceRecord represents the textual format of an OEIS sequence record.
The zero value has every field empty. -/
structure SequenceRecord where
  LineCounts : List (Char × Int) := []
  FieldOrder : List Char := []
  STUCounts : Counts3 := {}
  Identity : Bytes := []
  IdentityPlus : Bytes := []
  Name : Bytes := []
  Author : Bytes := []
  Offset : SequenceOffset := {}
  Sequence : List Int := []
  Keywords : List Keyword := []
  DetailedReferences : List Bytes := []
  Links : List Bytes := []
  Formulae : List Bytes := []
  CrossReferences : List Bytes := []
  Errata : List Bytes := []
  Examples : List Bytes := []
  MapleProgram : List Bytes := []
  MathematicaProgram : List Bytes := []
  OtherProgram : List Bytes := []
  Comments : List Bytes := []
  deriving DecidableEq, Repr

/-- The zero-value record `SequenceRecord{}`. -/
def SequenceRecord.zero : SequenceRecord := {}

/-- A pointer to one of the ten `[]string` fields of a record. -/
inductive StringListRef
  | DetailedReferences
  | Links
  | Formulae
  | CrossReferences
  | Errata
  | Examples
  | MapleProgram
  | MathematicaProgram
  | OtherProgram
  | Comments
  deriving DecidableEq, Repr

/-- Dereference a field pointer for reading. -/
def StringListRef.load (ref : StringListRef) (seq : SequenceRecord) : List Bytes :=
  match ref with
  | .DetailedReferences => seq.DetailedReferences
  | .Links => seq.Links
  | .Formulae => seq.Formulae
  | .CrossReferences => seq.CrossReferences
  | .Errata => seq.Errata
  | .Examples => seq.Examples
  | .MapleProgram => seq.MapleProgram
  | .MathematicaProgram => seq.MathematicaProgram
  | .OtherProgram => seq.OtherProgram
  | .Comments => seq.Comments

/-- Dereference a field pointer for writing. -/
def StringListRef.store (ref : StringListRef) (seq : SequenceRecord) (v : List Bytes) :
    SequenceRecord :=
  match ref with
  | .DetailedReferences => { seq with DetailedReferences := v }
  | .Links => { seq with Links := v }
  | .Formulae => { seq with Formulae := v }
  | .CrossReferences => { seq with CrossReferences := v }
  | .Errata => { seq with Errata := v }
  | .Examples => { seq with Examples := v }
  | .MapleProgram => { seq with MapleProgram := v }
  | .MathematicaProgram => { seq with MathematicaProgram := v }
  | .OtherProgram => { seq with OtherProgram := v }
  | .Comments => { seq with Comments := v }

/-- `GetStringListField`: the address of the `[]string` field for the given
code, `none` for the nil pointer. -/
def GetStringListField (code : Char) : Option StringListRef :=
  match code with
  | 'D' => some .DetailedReferences
  | 'H' => some .Links
  | 'F' => some .Formulae
  | 'Y' => some .CrossReferences
  | 'E' => some .Errata
  | 'e' => some .Examples
  | 'p' => some .MapleProgram
  | 't' => some .MathematicaProgram
  | 'o' => some .OtherProgram
  | 'C' => some .Comments
  | _ => none

/-- The loop of `KeywordsString`: each keyword but the last is followed by a
comma; `i` is the index of the head of `ks`, `n` is `len(seq.Keywords)`. -/
def keywordsLoop (n : Int) : Nat → List Keyword → Bytes
  | _, [] => []
  | i, k :: ks =>
    (if (i : Int) = n - 1 then k.String else k.String ++ [',']) ++ keywordsLoop n (i + 1) ks

/-- `KeywordsString`: the keywords, comma separated. -/
def KeywordsString (seq : SequenceRecord) : Bytes :=
  keywordsLoop seq.Keywords.length 0 seq.Keywords

/-! ## Errors -/

/-- The errors returned by the package, one constructor per `fmt.Errorf` call
site format, and the run-time panic of an out-of-range slice expression. -/
inductive Error
  | format (line : Bytes)
  | invalidOffset (content : Bytes)
  | invalidInitialValue (value : Bytes)
  | invalidFirstGreaterThanOne (value : Bytes)
  | invalidSequenceValue (value : Bytes)
  | invalidKeyword (value : Bytes)
  | invalidFieldCode (code : Char)
  | missingRequiredField (c : Char)
  | invalidIdentity (identity : Bytes)
  | missingName
  | missingAuthor
  | sliceBoundsOutOfRange
  deriving DecidableEq, Repr

/-- The message of an error, as formatted by `fmt.Errorf`. -/
def Error.message : Error → Bytes
  | .format line => "format: ".toList ++ line
  | .invalidOffset content => "invalid offset: ".toList ++ content
  | .invalidInitialValue value => "invalid initial value: ".toList ++ value
  | .invalidFirstGreaterThanOne value => "invalid first greater than one: ".toList ++ value
  | .invalidSequenceValue value => "invalid sequence value: ".toList ++ value
  | .invalidKeyword value => "invalid keyword: ".toList ++ value
  | .invalidFieldCode code => "invalid field code: ".toList ++ [code]
  | .missingRequiredField c => "missing required field: ".toList ++ [c]
  | .invalidIdentity identity => "invalid identity: ".toList ++ identity
  | .missingName => "missing name".toList
  | .missingAuthor => "missing author".toList
  | .sliceBoundsOutOfRange => "runtime error: slice bounds out of range".toList

/-! ## sequence_marshal.go: UnmarshalText -/

/-- The constant `pre`: the first byte of actual content comes after
`%C A000000 `. -/
def pre : Nat := 11

/-- Byte `i` of a line (only used below the length of the line). -/
def byteAt (line : Bytes) (i : Nat) : Char := line.getD i ' '

/-- The loop over `values` of the S, T, U case: every value is parsed with
`SetString`; the first value that fails is reported. -/
def parseBigs : List Bytes → Except Bytes (List Int)
  | [] => .ok []
  | v :: vs =>
    match SetString 0 v with
    | (_, false) => .error v
    | (z, true) =>
      match parseBigs vs with
      | .error w => .error w
      | .ok zs => .ok (z :: zs)

/-- The loop over `values` of the K case: every value is looked up with
`KeywordString`; the first value that fails is reported. -/
def parseKeywords : List Bytes → Except Bytes (List Keyword)
  | [] => .ok []
  | v :: vs =>
    match KeywordString v with
    | none => .error v
    | some k =>
      match parseKeywords vs with
      | .error w => .error w
      | .ok ks => .ok (k :: ks)

/-- The `switch code` of `UnmarshalText`: the fields of the record are
assigned from the line according to its code. -/
def assignFields (rec : SequenceRecord) (code : Char) (line : Bytes) :
    SequenceRecord × Option Error :=
  match code with
  | 'I' => ({ rec with Identity := (line.drop 3).take (pre - 1 - 3),
                       IdentityPlus := line.drop pre }, none)
  | 'N' => ({ rec with Name := line.drop pre }, none)
  | 'A' => ({ rec with Author := line.drop pre }, none)
  | 'O' =>
    let values := Split (line.drop pre) ','
    if values.length ≠ 2 then (rec, some (.invalidOffset (line.drop pre)))
    else
      let r0 := SetString rec.Offset.InitialValue (values.getD 0 [])
      let rec0 := { rec with Offset := { rec.Offset with InitialValue := r0.1 } }
      if !r0.2 then (rec0, some (.invalidInitialValue (values.getD 0 [])))
      else
        let r1 := SetString rec0.Offset.FirstGreaterThanOne (values.getD 1 [])
        let rec1 := { rec0 with Offset := { rec0.Offset with FirstGreaterThanOne := r1.1 } }
        if !r1.2 then (rec1, some (.invalidFirstGreaterThanOne (values.getD 1 [])))
        else (rec1, none)
  | 'S' | 'T' | 'U' =>
    let values := Split (TrimRight (line.drop pre) ',') ','
    match parseBigs values with
    | .error v => (rec, some (.invalidSequenceValue v))
    | .ok bigs =>
      let idx := code.toNat - 'S'.toNat
      ({ rec with Sequence := rec.Sequence ++ bigs,
                  STUCounts := rec.STUCounts.set idx bigs.length }, none)
  | 'K' =>
    let values := Split (line.drop pre) ','
    match parseKeywords values with
    | .error value => (rec, some (.invalidKeyword value))
    | .ok keywords => ({ rec with Keywords := rec.Keywords ++ keywords }, none)
  | 'D' | 'H' | 'F' | 'Y' | 'E' | 'e' | 'p' | 't' | 'o' | 'C' =>
    match GetStringListField code with
    | some field => (field.store rec (field.load rec ++ [line.drop pre]), none)
    | none => (rec, some (.invalidFieldCode code))
  | _ => (rec, none)

/-- The statement `rec.LineCounts[c]++` on the map, kept as a list of entries
(an absent key reads as 0). -/
def incr : List (Char × Int) → Char → List (Char × Int)
  | [], c => [(c, 1)]
  | (k, n) :: m, c => if k = c then (k, n + 1) :: m else (k, n) :: incr m c

/-- The map read `m[c]`. -/
def lookup : List (Char × Int) → Char → Int
  | [], _ => 0
  | (k, n) :: m, c => if k = c then n else lookup m c

/-- The bookkeeping at the end of the loop body: the code is appended to
`FieldOrder` unless it equals the last entry, and its line count goes up. -/
def bookkeeping (rec : SequenceRecord) (code : Char) : SequenceRecord :=
  let order :=
    if rec.FieldOrder.length = 0 then rec.FieldOrder ++ [code]
    else if rec.FieldOrder.getLast? ≠ some code then rec.FieldOrder ++ [code]
    else rec.FieldOrder
  { rec with FieldOrder := order, LineCounts := incr rec.LineCounts code }

/-- The condition of the `continue` statement: lines with no actual content
are skipped. -/
def skipped (line : Bytes) : Bool :=
  decide (line.length ≤ pre) || decide (byteAt line 0 ≠ '%')

/-- One iteration of the loop of `UnmarshalText`, on one line. -/
def processLine (rec : SequenceRecord) (line : Bytes) : SequenceRecord × Option Error :=
  if skipped line then (rec, none)
  else if byteAt line 2 ≠ ' ' ∨ byteAt line 10 ≠ ' ' then (rec, some (.format line))
  else
    let code := byteAt line 1
    match assignFields rec code line with
    | (rec1, some err) => (rec1, some err)
    | (rec1, none) => (bookkeeping rec1 code, none)

/-- The loop of `UnmarshalText` over the lines; it returns at the first
error. -/
def unmarshalLines (rec : SequenceRecord) : List Bytes → SequenceRecord × Option Error
  | [] => (rec, none)
  | line :: rest =>
    match processLine rec line with
    | (rec1, some err) => (rec1, some err)
    | (rec1, none) => unmarshalLines rec1 rest

/-- `UnmarshalText`: parse a .seq formatted text into the record. The result
is the record after the call and the returned error (`none` for nil). -/
def UnmarshalText (rec : SequenceRecord) (text : Bytes) : SequenceRecord × Option Error :=
  unmarshalLines rec (Split text '\n')

/-! ## sequence_marshal.go: MarshalText -/

/-- The loop computing `begin` and `end` of the S, T, U case. -/
def stuBounds (counts : Counts3) (line_offset : Nat) : Int × Int :=
  (List.range line_offset).foldl
    (fun be i => (be.1 + counts.get i, be.2 + counts.get i)) (0, counts.get line_offset)

/-- The slice expression `xs[b:e]`; `none` is the out-of-range panic. -/
def slice {α : Type} (xs : List α) (b e : Int) : Option (List α) :=
  if 0 ≤ b ∧ b ≤ e ∧ e ≤ (xs.length : Int) then some ((xs.drop b.toNat).take (e - b).toNat)
  else none

/-- The loop writing the terms of an S, T or U line: `i` is the index of the
head of the remaining terms, `count` is `rec.STUCounts[line_offset]`. -/
def termsLoop (code : Char) (count : Int) : Nat → List Int → Bytes
  | _, [] => []
  | i, value :: rest =>
    (if code = 'U' ∧ (i : Int) = count - 1 then bigString value
     else bigString value ++ [',']) ++ termsLoop code count (i + 1) rest

/-- The loop writing one line per entry of an annotation field. -/
def fieldLoop (code : Char) (identity : Bytes) : List Bytes → Bytes
  | [] => []
  | value :: rest =>
    ('%' :: code :: ' ' :: identity ++ ' ' :: value ++ ['\n']) ++ fieldLoop code identity rest

/-- The `switch code` of `MarshalText`: the bytes written for one entry of
`FieldOrder`, or the error returned. -/
def emitCode (rec : SequenceRecord) (code : Char) : Except Error Bytes :=
  match code with
  | 'I' =>
    .ok ("%I ".toList ++ rec.Identity
      ++ (if rec.IdentityPlus ≠ [] then ' ' :: rec.IdentityPlus else []) ++ ['\n'])
  | 'N' => .ok ("%N ".toList ++ rec.Identity ++ ' ' :: rec.Name ++ ['\n'])
  | 'A' => .ok ("%A ".toList ++ rec.Identity ++ ' ' :: rec.Author ++ ['\n'])
  | 'O' =>
    .ok ("%O ".toList ++ rec.Identity ++ ' ' :: bigString rec.Offset.InitialValue
      ++ ',' :: bigString rec.Offset.FirstGreaterThanOne ++ ['\n'])
  | 'S' | 'T' | 'U' =>
    let line_offset := code.toNat - 'S'.toNat
    let be := stuBounds rec.STUCounts line_offset
    match slice rec.Sequence be.1 be.2 with
    | none => .error .sliceBoundsOutOfRange
    | some terms =>
      .ok ('%' :: code :: ' ' :: rec.Identity ++ [' ']
        ++ termsLoop code (rec.STUCounts.get line_offset) 0 terms ++ ['\n'])
  | 'K' => .ok ("%K ".toList ++ rec.Identity ++ ' ' :: KeywordsString rec ++ ['\n'])
  | 'D' | 'H' | 'F' | 'Y' | 'E' | 'e' | 'p' | 't' | 'o' | 'C' =>
    match GetStringListField code with
    | some field => .ok (fieldLoop code rec.Identity (field.load rec))
    | none => .error (.invalidFieldCode code)
  | _ => .ok []

/-- The loop of `MarshalText` over `FieldOrder`; `out` is what has been
written so far. -/
def marshalCodes (rec : SequenceRecord) : List Char → Bytes → Except Error Bytes
  | [], out => .ok out
  | code :: rest, out =>
    match emitCode rec code with
    | .error err => .error err
    | .ok chunk => marshalCodes rec rest (out ++ chunk)

/-- `MarshalText`: compose the record text from the record. -/
def MarshalText (rec : SequenceRecord) : Except Error Bytes :=
  marshalCodes rec rec.FieldOrder []

/-! ## validation.go -/

/-- One element of a regular expression: a literal byte or the class `\d`. -/
inductive ReAtom
  | lit (c : Char)
  | digit
  deriving DecidableEq, Repr

/-- Whether one byte is accepted by one element. -/
def ReAtom.accepts : ReAtom → Char → Bool
  | .lit c, b => decide (b = c)
  | .digit, b => isDigit b

/-- Match of a sequence of elements anchored at both ends (`^` ... `$`): the
whole text is consumed, element by element. -/
def matchAnchored : List ReAtom → Bytes → Bool
  | [], [] => true
  | a :: atoms, b :: bs => a.accepts b && matchAnchored atoms bs
  | _, _ => false

/-- The regular expression `^A\d{6}$`. -/
def identityRe : List ReAtom := ReAtom.lit 'A' :: List.replicate 6 ReAtom.digit

/-- The constant `required`. -/
def required : Bytes := "INAOSTUK".toList

/-- The loop over `required`: the first code that `FieldOrder` does not
contain is reported. -/
def checkCodes (order : List Char) : List Char → Option Error
  | [] => none
  | c :: cs =>
    if !order.contains c then some (.missingRequiredField c) else checkCodes order cs

/-- `CheckRequiredFields`; `none` is the nil error. -/
def CheckRequiredFields (s : SequenceRecord) : Option Error :=
  match checkCodes s.FieldOrder required with
  | some err => some err
  | none =>
    if !matchAnchored identityRe s.Identity then some (.invalidIdentity s.Identity)
    else if s.Name = [] then some .missingName
    else if s.Author = [] then some .missingAuthor
    else none

/-- `Validate`; `none` is the nil error. -/
def Validate (s : SequenceRecord) : Option Error :=
  match CheckRequiredFields s with
  | some err => some err
  | none => none

/-! ## Specification vocabulary -/

deriving instance DecidableEq for Except

/-- The decimal digits. -/
def asciiDigits : Bytes := "0123456789".toList

/-- An identity of the required shape: the letter `A` followed by exactly six
ASCII decimal digits, nothing before and nothing after. -/
def IdentityShape (identity : Bytes) : Prop :=
  ∃ ds : Bytes, ds.length = 6 ∧ (∀ d ∈ ds, d ∈ asciiDigits) ∧ identity = 'A' :: ds

/-- The six-line example of the specification, every line ended by a newline. -/
def exampleSixLines : Bytes :=
  ("%I A000001\n%S A000001 1,1,2,5,14,42,\n%N A000001 Number of groups of order n.\n"
    ++ "%A A000001 N. Sloane\n%O A000001 0,1\n%K A000001 nonn,nice\n").toList

/-- The six-line example with some content after the identity on the I line. -/
def exampleSixLinesPlus : Bytes :=
  ("%I A000001 M0098\n%S A000001 1,1,2,5,14,42,\n%N A000001 Number of groups of order n.\n"
    ++ "%A A000001 N. Sloane\n%O A000001 0,1\n%K A000001 nonn,nice\n").toList

/-- The line with the given code, identity token and content, laid out as
`%{code} {identity} {content}`. -/
def mkLine (code : Char) (identity content : Bytes) : Bytes :=
  '%' :: code :: ' ' :: identity ++ ' ' :: content

/-- A valid base-10 integer token, as `SetString` reads it: an optional sign
`-` or `+` followed by at least one decimal digit and nothing else. -/
def IsBase10Integer (t : Bytes) : Prop :=
  ∃ sign digits : Bytes, t = sign ++ digits ∧ (sign = [] ∨ sign = ['-'] ∨ sign = ['+']) ∧
    digits ≠ [] ∧ ∀ d ∈ digits, d ∈ asciiDigits

/-- The natural number written by a string of decimal digits. -/
def decimalValue (digits : Bytes) : Nat :=
  Nat.ofDigits 10 (digits.reverse.map digitVal)

/-- The integer written by a base-10 integer token. -/
def integerValue (t : Bytes) : Int :=
  match t with
  | '-' :: digits => -(decimalValue digits : Int)
  | '+' :: digits => (decimalValue digits : Int)
  | digits => (decimalValue digits : Int)

/-- The counts of the three term lines fit the terms: none is negative and
their sum does not exceed the number of terms. -/
def CountsInRange (rec : SequenceRecord) : Prop :=
  0 ≤ rec.STUCounts.c0 ∧ 0 ≤ rec.STUCounts.c1 ∧ 0 ≤ rec.STUCounts.c2 ∧
    rec.STUCounts.c0 + rec.STUCounts.c1 + rec.STUCounts.c2 ≤ (rec.Sequence.length : Int)

/-- The bytes written for one code, with nothing for a code that fails. -/
def chunkOf (rec : SequenceRecord) (code : Char) : Bytes :=
  match emitCode rec code with
  | .ok chunk => chunk
  | .error _ => []

/-- Terms as decimal strings, every term followed by a comma. -/
def termsAllCommas (terms : List Int) : Bytes :=
  terms.flatMap (fun v => bigString v ++ [','])

/-- Terms as decimal strings, every term but the last followed by a comma. -/
def termsLastBare (terms : List Int) : Bytes :=
  List.intercalate [','] (terms.map bigString)

/-- A record with seven terms split 3, 3, 1 over the lines S, T and U. -/
def exampleSeven : SequenceRecord :=
  { FieldOrder := "ISTU".toList, Identity := "A000001".toList, IdentityPlus := "x".toList,
    STUCounts := { c0 := 3, c1 := 3, c2 := 1 }, Sequence := [1, 2, 3, 5, 8, 13, -21] }

/-- The code of a line: byte 1. -/
def lineCode (line : Bytes) : Char := byteAt line 1

/-- The identity token of a line: bytes 3 to 9. -/
def lineIdentity (line : Bytes) : Bytes := (line.drop 3).take 7

/-- The content of a line: what follows byte 10. -/
def lineContent (line : Bytes) : Bytes := line.drop 11

/-- The text made of the given lines, each terminated by a newline. -/
def joinLines (lines : List Bytes) : Bytes := lines.flatMap (fun l => l ++ ['\n'])

/-- The recognised field codes. -/
def fieldCodes : Bytes := "INAOSTUKDHFYEeptoC".toList

/-- The codes that occur on at most one line. -/
def singleLineCodes : Bytes := "NAOKSTU".toList

/-- The codes of the term lines. -/
def termCodes : Bytes := "STU".toList

/-- The annotation codes. -/
def annotationCodes : Bytes := "DHFYEeptoC".toList

/-- A list of codes with every run of consecutive equal codes collapsed to
one entry. -/
def runs : List Char → List Char
  | [] => []
  | [c] => [c]
  | c :: d :: cs => if c = d then runs (d :: cs) else c :: runs (d :: cs)

/-- A canonical decimal integer: an optional `-` and decimal digits, with no
leading zero, no `+` and no `-0`. -/
def IsCanonicalInteger (t : Bytes) : Prop :=
  ∃ digits : Bytes, digits ≠ [] ∧ (∀ d ∈ digits, d ∈ asciiDigits) ∧
    ((t = digits ∧ (digits = ['0'] ∨ digits.head? ≠ some '0')) ∨
     (t = '-' :: digits ∧ digits.head? ≠ some '0'))

/-- The content of a term line: a non-empty list of canonical integers, every
one followed by a comma, except that the last one of a U line is not. -/
def IsTermContent (code : Char) (content : Bytes) : Prop :=
  ∃ toks : List Bytes, toks ≠ [] ∧ (∀ t ∈ toks, IsCanonicalInteger t) ∧
    ((code = 'U' ∧ content = List.intercalate [','] toks) ∨
     (code ≠ 'U' ∧ content = toks.flatMap (fun t => t ++ [','])))

/-- The content of an O line: two canonical integers joined by one comma. -/
def IsOffsetContent (content : Bytes) : Prop :=
  ∃ t1 t2 : Bytes, IsCanonicalInteger t1 ∧ IsCanonicalInteger t2 ∧ content = t1 ++ ',' :: t2

/-- The content of a K line: lower-case keyword names joined by commas. -/
def IsKeywordContent (content : Bytes) : Prop :=
  ∃ ks : List Keyword, ks ≠ [] ∧ content = List.intercalate [','] (ks.map Keyword.String)

/-- A line in the fixed layout: free of newlines, longer than 11 bytes,
starting with `%`, with a space at byte 2 and at byte 10. -/
def HasLayout (line : Bytes) : Prop :=
  '\n' ∉ line ∧ 11 < line.length ∧ byteAt line 0 = '%' ∧ byteAt line 2 = ' ' ∧
    byteAt line 10 = ' '

/-- A well-formed line of a record with the given identity token. -/
def WellFormedLine (identity : Bytes) (line : Bytes) : Prop :=
  HasLayout line ∧ lineCode line ∈ fieldCodes ∧ lineIdentity line = identity ∧
    (lineCode line ∈ termCodes → IsTermContent (lineCode line) (lineContent line)) ∧
    (lineCode line = 'O' → IsOffsetContent (lineContent line)) ∧
    (lineCode line = 'K' → IsKeywordContent (lineContent line))

/-- The well-formed record texts, as lists of lines: every line is well
formed and carries the same identity token; there is exactly one I line; each
of N, A, O, K, S, T, U occurs on at most one line; each annotation code
occupies a single contiguous run of lines; the term lines present appear in
the order S, T, U. -/
def WellFormedRecord (identity : Bytes) (lines : List Bytes) : Prop :=
  (∀ l ∈ lines, WellFormedLine identity l) ∧
  (lines.map lineCode).count 'I' = 1 ∧
  (∀ c ∈ singleLineCodes, (lines.map lineCode).count c ≤ 1) ∧
  (∀ c ∈ annotationCodes, (runs (lines.map lineCode)).count c ≤ 1) ∧
  List.Sublist ((lines.map lineCode).filter (fun c => decide (c ∈ termCodes))) termCodes

/-- What the assignment of one well-formed line with the given code, identity
token and content does to the fields of a record. -/
structure LineEffect (code : Char) (identity content : Bytes) (rec rec1 : SequenceRecord) :
    Prop where
  order : rec1.FieldOrder = rec.FieldOrder
  counts : rec1.LineCounts = rec.LineCounts
  isI : code = 'I' → rec1.Identity = identity ∧ rec1.IdentityPlus = content
  notI : code ≠ 'I' → rec1.Identity = rec.Identity ∧ rec1.IdentityPlus = rec.IdentityPlus
  isN : code = 'N' → rec1.Name = content
  notN : code ≠ 'N' → rec1.Name = rec.Name
  isA : code = 'A' → rec1.Author = content
  notA : code ≠ 'A' → rec1.Author = rec.Author
  isO : code = 'O' → bigString rec1.Offset.InitialValue
      ++ ',' :: bigString rec1.Offset.FirstGreaterThanOne = content
  notO : code ≠ 'O' → rec1.Offset = rec.Offset
  isK : code = 'K' → ∃ ks : List Keyword, rec1.Keywords = rec.Keywords ++ ks ∧
      List.intercalate [','] (ks.map Keyword.String) = content
  notK : code ≠ 'K' → rec1.Keywords = rec.Keywords
  isField : ∀ field, GetStringListField code = some field →
      field.load rec1 = field.load rec ++ [content]
  notField : ∀ field, GetStringListField code ≠ some field → field.load rec1 = field.load rec
  isS : code = 'S' → ∃ bigs : List Int, rec1.Sequence = rec.Sequence ++ bigs ∧
      rec1.STUCounts = { rec.STUCounts with c0 := (bigs.length : Int) } ∧
      termsAllCommas bigs = content
  isT : code = 'T' → ∃ bigs : List Int, rec1.Sequence = rec.Sequence ++ bigs ∧
      rec1.STUCounts = { rec.STUCounts with c1 := (bigs.length : Int) } ∧
      termsAllCommas bigs = content
  isU : code = 'U' → ∃ bigs : List Int, rec1.Sequence = rec.Sequence ++ bigs ∧
      rec1.STUCounts = { rec.STUCounts with c2 := (bigs.length : Int) } ∧
      termsLastBare bigs = content
  notTerm : code ∉ termCodes → rec1.Sequence = rec.Sequence ∧ rec1.STUCounts = rec.STUCounts

/-- The record obtained by parsing the given well-formed lines, field by
field. -/
structure ParsedFrom (identity : Bytes) (lines : List Bytes) (rec : SequenceRecord) : Prop where
  order : rec.FieldOrder = runs (lines.map lineCode)
  ident : ∀ l ∈ lines, lineCode l = 'I' →
      rec.Identity = identity ∧ rec.IdentityPlus = lineContent l
  name : ∀ l ∈ lines, lineCode l = 'N' → rec.Name = lineContent l
  author : ∀ l ∈ lines, lineCode l = 'A' → rec.Author = lineContent l
  offset : ∀ l ∈ lines, lineCode l = 'O' →
      bigString rec.Offset.InitialValue ++ ',' :: bigString rec.Offset.FirstGreaterThanOne
        = lineContent l
  noKeywords : 'K' ∉ lines.map lineCode → rec.Keywords = []
  keywords : ∀ l ∈ lines, lineCode l = 'K' →
      List.intercalate [','] (rec.Keywords.map Keyword.String) = lineContent l
  fields : ∀ code field, GetStringListField code = some field →
      field.load rec = (lines.filter (fun l => decide (lineCode l = code))).map lineContent
  terms : ∃ sS sT sU : List Int, rec.Sequence = sS ++ sT ++ sU ∧
      rec.STUCounts = { c0 := (sS.length : Int), c1 := (sT.length : Int),
                        c2 := (sU.length : Int) } ∧
      ('S' ∉ lines.map lineCode → sS = []) ∧
      ('T' ∉ lines.map lineCode → sT = []) ∧
      ('U' ∉ lines.map lineCode → sU = []) ∧
      (∀ l ∈ lines, lineCode l = 'S' → termsAllCommas sS = lineContent l) ∧
      (∀ l ∈ lines, lineCode l = 'T' → termsAllCommas sT = lineContent l) ∧
      (∀ l ∈ lines, lineCode l = 'U' → termsLastBare sU = lineContent l)

/-- The conditions under which a line with code `d` may follow lines with the
given codes: `d` is new, or continues a run of an annotation code; a term line
comes before the term lines of the later codes. -/
structure StepOK (codes : List Char) (d : Char) : Prop where
  fresh : d ∉ codes ∨ (d ∈ annotationCodes ∧ codes.getLast? = some d)
  beforeT : d = 'S' → 'T' ∉ codes ∧ 'U' ∉ codes
  beforeU : d = 'T' → 'U' ∉ codes

/-- The codes that are not annotation codes. -/
def plainCodes : Bytes := "INAOKSTU".toList

/-- The conditions of a well-formed record on the sequence of line codes, in
the form that every leading part of the sequence satisfies too. -/
structure CodesOK (codes : List Char) : Prop where
  known : ∀ c ∈ codes, c ∈ fieldCodes
  plain : ∀ c ∈ plainCodes, codes.count c ≤ 1
  oneRun : ∀ c ∈ annotationCodes, (runs codes).count c ≤ 1
  termOrder : List.Sublist (codes.filter (fun c => decide (c ∈ termCodes))) termCodes

/-- A well-formed record of eleven lines with every kind of line. -/
def exampleLines : List Bytes :=
  ["%I A000001 M0098".toList, "%S A000001 1,-2,3,".toList, "%T A000001 40,5,".toList,
   "%U A000001 60".toList, "%N A000001 Groups".toList, "%D A000001 ref one".toList,
   "%D A000001 ref two".toList, "%H A000001 link".toList, "%O A000001 0,1".toList,
   "%K A000001 nonn,nice".toList, "%A A000001 N. Sloane".toList]

/-- An I line followed by annotation lines in which the code D comes back after
a run of H lines. -/
def exampleInterleaved : List Bytes :=
  ["%I A000001 x".toList, "%D A000001 a".toList, "%H A000001 b".toList,
   "%D A000001 c".toList]

/-- An I line followed by annotation lines, each code in one run, in an order
of their own. -/
def exampleAnnotations : List Bytes :=
  ["%I A000001 x".toList, "%H A000001 b".toList, "%D A000001 a".toList,
   "%D A000001 c".toList, "%C A000001 d".toList]

/-- A line that the parser processes: longer than 11 bytes and starting with
`%`. -/
def isProcessed (line : Bytes) : Bool :=
  decide (11 < line.length) && decide (byteAt line 0 = '%')

/-- The processed lines of a text, in order. -/
def processedLines (text : Bytes) : List Bytes :=
  (Split text '\n').filter isProcessed

/-- A text whose second line has an underscore where the space at byte index 2
should be. -/
def exampleBadLayout : Bytes :=
  "%I A000001 M0098\n%N_A000001 Groups\n%A A000001 N. Sloane\n".toList

/-- A text whose second line has an offset that is not a pair of integers. -/
def exampleBadOffset : Bytes :=
  "%I A000001 M0098\n%O A000001 0;1\n%A A000001 N. Sloane\n".toList

/-- An upper-case ASCII letter. -/
def isUpperLetter (c : Char) : Bool :=
  decide ('A'.toNat ≤ c.toNat) && decide (c.toNat ≤ 'Z'.toNat)

/-- A lower-case ASCII letter. -/
def isLowerLetter (c : Char) : Bool :=
  decide ('a'.toNat ≤ c.toNat) && decide (c.toNat ≤ 'z'.toNat)

/-- Two bytes that are equal up to ASCII letter case: they are the same byte,
or one is an upper-case letter and the other is its lower-case form. -/
def SameLetter (a b : Char) : Prop :=
  a = b ∨ (isUpperLetter a = true ∧ b = Char.ofNat (a.toNat + 32)) ∨
    (isUpperLetter b = true ∧ a = Char.ofNat (b.toNat + 32))

/-- Two strings that are equal up to ASCII letter case, byte by byte. -/
def EqualUpToCase (s t : Bytes) : Prop := List.Forall₂ SameLetter s t

/-- The name and the author are present whenever their codes are recorded. -/
def NameAuthorPresent (rec : SequenceRecord) : Prop :=
  ('N' ∈ rec.FieldOrder → rec.Name ≠ []) ∧ ('A' ∈ rec.FieldOrder → rec.Author ≠ [])

/-- A record with all required codes, a valid identity and a name, but no
author. -/
def exampleNoAuthor : SequenceRecord :=
  { FieldOrder := "INAOSTUK".toList, Identity := "A000001".toList, Name := "Groups".toList }

/-- A text with two S lines. -/
def exampleTwoS : Bytes := "%S A000001 1,2,\n%S A000001 3,\n".toList

/-- The counts of the term lines add up to the number of terms, and the slot
of a term code that has not occurred is zero. -/
def TermsExact (codes : List Char) (rec : SequenceRecord) : Prop :=
  rec.STUCounts.c0 + rec.STUCounts.c1 + rec.STUCounts.c2 = (rec.Sequence.length : Int) ∧
  ('S' ∉ codes → rec.STUCounts.c0 = 0) ∧ ('T' ∉ codes → rec.STUCounts.c1 = 0) ∧
  ('U' ∉ codes → rec.STUCounts.c2 = 0)

/-- A content with one trailing comma removed, if there is one. -/
def trimOneComma (c : Bytes) : Bytes :=
  if c.getLast? = some ',' then c.dropLast else c

/-- A record whose S slot holds 5. -/
def exampleFiveS : SequenceRecord :=
  { FieldOrder := ['S'], LineCounts := [('S', 1)], STUCounts := { c0 := 5 },
    Sequence := [1, 2, 3, 4, 5] }

/-! ## Theorems: the validator -/

theorem isDigit_iff_mem (c : Char) : isDigit c = true ↔ c ∈ asciiDigits := by
  constructor
  · intro h
    simp only [isDigit, Bool.and_eq_true, decide_eq_true_eq] at h
    have hc : c = Char.ofNat c.toNat := (Char.ofNat_toNat c).symm
    obtain ⟨h1, h2⟩ := h
    have h1' : 48 ≤ c.toNat := h1
    have h2' : c.toNat ≤ 57 := h2
    rw [hc]
    interval_cases c.toNat <;> decide
  · intro h
    simp only [asciiDigits, String.toList, List.mem_cons, List.mem_singleton] at h
    rcases h with h | h | h | h | h | h | h | h | h | h | h
    all_goals first | (subst h; decide) | simp at h

theorem checkCodes_first_absent (order : List Char) :
    ∀ cs : List Char, (∃ c ∈ cs, c ∉ order) →
      ∃ before c after, cs = before ++ c :: after ∧ (∀ d ∈ before, d ∈ order) ∧ c ∉ order ∧
        checkCodes order cs = some (.missingRequiredField c) := by
  intro cs
  induction cs with
  | nil => rintro ⟨c, hc, _⟩; simp at hc
  | cons x xs ih =>
    intro h
    by_cases hx : x ∈ order
    · have h' : ∃ c ∈ xs, c ∉ order := by
        obtain ⟨c, hc, hno⟩ := h
        rcases List.mem_cons.mp hc with rfl | hc
        · exact absurd hx hno
        · exact ⟨c, hc, hno⟩
      obtain ⟨before, c, after, he, hb, hc, hr⟩ := ih h'
      refine ⟨x :: before, c, after, by simp [he], ?_, hc, ?_⟩
      · intro d hd
        rcases List.mem_cons.mp hd with rfl | hd
        · exact hx
        · exact hb d hd
      · simp [checkCodes, hx, hr]
    · exact ⟨[], x, xs, rfl, by simp, hx, by simp [checkCodes, hx]⟩

theorem checkCodes_none (order : List Char) :
    ∀ cs : List Char, (∀ c ∈ cs, c ∈ order) → checkCodes order cs = none := by
  intro cs
  induction cs with
  | nil => intro _; rfl
  | cons x xs ih =>
    intro h
    have hx : x ∈ order := h x (List.mem_cons_self _ _)
    simp [checkCodes, hx, ih (fun c hc => h c (List.mem_cons_of_mem _ hc))]

theorem matchAnchored_identityRe (identity : Bytes) :
    matchAnchored identityRe identity = true ↔ IdentityShape identity := by
  unfold IdentityShape
  constructor
  · intro h
    match identity, h with
    | [a, d1, d2, d3, d4, d5, d6], h =>
      simp only [identityRe, List.replicate, matchAnchored, ReAtom.accepts, Bool.and_eq_true,
        decide_eq_true_eq, Bool.and_true] at h
      obtain ⟨rfl, h1, h2, h3, h4, h5, h6⟩ := h
      refine ⟨[d1, d2, d3, d4, d5, d6], rfl, ?_, rfl⟩
      intro d hd
      simp only [List.mem_cons, List.mem_singleton, List.not_mem_nil, or_false] at hd
      rcases hd with rfl | rfl | rfl | rfl | rfl | rfl <;>
        first | exact (isDigit_iff_mem _).mp ‹_›
    | [], h => simp [identityRe, matchAnchored] at h
    | [_], h => simp [identityRe, List.replicate, matchAnchored] at h
    | [_, _], h => simp [identityRe, List.replicate, matchAnchored] at h
    | [_, _, _], h => simp [identityRe, List.replicate, matchAnchored] at h
    | [_, _, _, _], h => simp [identityRe, List.replicate, matchAnchored] at h
    | [_, _, _, _, _], h => simp [identityRe, List.replicate, matchAnchored] at h
    | [_, _, _, _, _, _], h => simp [identityRe, List.replicate, matchAnchored] at h
    | _ :: _ :: _ :: _ :: _ :: _ :: _ :: _ :: _, h =>
      simp [identityRe, List.replicate, matchAnchored] at h
  · rintro ⟨ds, hlen, hd, rfl⟩
    match ds, hlen, hd with
    | [d1, d2, d3, d4, d5, d6], _, hd =>
      simp only [identityRe, List.replicate, matchAnchored, ReAtom.accepts, Bool.and_eq_true,
        decide_eq_true_eq, Bool.and_true, true_and]
      refine ⟨?_, ?_, ?_, ?_, ?_, ?_⟩ <;> exact (isDigit_iff_mem _).mpr (hd _ (by simp))

/-- C4: a record whose `FieldOrder` lacks a required code fails `Validate`
with the missing-required-field error naming the first absent code in the
order I, N, A, O, S, T, U, K (every code before it in that order is present),
whatever the values of `Identity`, `Name` and `Author`. -/
theorem validate_missing_required_field (s : SequenceRecord)
    (h : ∃ c ∈ required, c ∉ s.FieldOrder) :
    ∃ before c after, "INAOSTUK".toList = before ++ c :: after ∧
      (∀ d ∈ before, d ∈ s.FieldOrder) ∧ c ∉ s.FieldOrder ∧
      Validate s = some (.missingRequiredField c) := by
  obtain ⟨before, c, after, he, hb, hc, hr⟩ := checkCodes_first_absent s.FieldOrder required h
  exact ⟨before, c, after, he, hb, hc, by simp [Validate, CheckRequiredFields, hr]⟩

/-- Witness for C4: a record that only has the codes I, N, A, O, S reports the
missing code T. -/
theorem validate_missing_required_field_witness :
    ∃ before c after, "INAOSTUK".toList = before ++ c :: after ∧
      (∀ d ∈ before, d ∈ ({ FieldOrder := "INAOS".toList } : SequenceRecord).FieldOrder) ∧
      c ∉ ({ FieldOrder := "INAOS".toList } : SequenceRecord).FieldOrder ∧
      Validate { FieldOrder := "INAOS".toList } = some (.missingRequiredField c) :=
  validate_missing_required_field { FieldOrder := "INAOS".toList } ⟨'T', by decide, by decide⟩

/-- C5: when all eight required codes are present, `Validate` returns the
invalid-identity error exactly when `Identity` is not the letter `A` followed
by exactly six ASCII decimal digits; the error then carries the identity and is
returned whatever `Name` and `Author` are.  The identity "A000001" passes the
check; "B000001", "A00001" and "A0000001" produce the error. -/
theorem validate_identity_pattern (s : SequenceRecord)
    (hs : ∀ c ∈ "INAOSTUK".toList, c ∈ s.FieldOrder) :
    ((∃ x, Validate s = some (.invalidIdentity x)) ↔ ¬ IdentityShape s.Identity) ∧
    (¬ IdentityShape s.Identity → Validate s = some (.invalidIdentity s.Identity)) ∧
    (s.Identity = "A000001".toList → ∀ x, Validate s ≠ some (.invalidIdentity x)) ∧
    (s.Identity = "B000001".toList → Validate s = some (.invalidIdentity "B000001".toList)) ∧
    (s.Identity = "A00001".toList → Validate s = some (.invalidIdentity "A00001".toList)) ∧
    (s.Identity = "A0000001".toList →
      Validate s = some (.invalidIdentity "A0000001".toList)) := by
  have key : Validate s = if matchAnchored identityRe s.Identity then
        (if s.Name = [] then some .missingName
         else if s.Author = [] then some .missingAuthor else none)
        else some (.invalidIdentity s.Identity) := by
    have hn := checkCodes_none s.FieldOrder required hs
    simp only [Validate, CheckRequiredFields, hn]
    by_cases hm : matchAnchored identityRe s.Identity = true
    · simp only [hm, Bool.not_true, Bool.false_eq_true, if_false, if_true]
      by_cases h1 : s.Name = [] <;> by_cases h2 : s.Author = [] <;> simp [h1, h2]
    · simp [hm]
  refine ⟨⟨?_, ?_⟩, ?_, ?_, ?_, ?_, ?_⟩
  · rintro ⟨x, hx⟩ hshape
    rw [key, (matchAnchored_identityRe _).mpr hshape] at hx
    simp only [if_true] at hx
    by_cases h1 : s.Name = [] <;> by_cases h2 : s.Author = [] <;> simp [h1, h2] at hx
  · intro hshape
    have hm : ¬ matchAnchored identityRe s.Identity = true :=
      fun h => hshape ((matchAnchored_identityRe _).mp h)
    exact ⟨s.Identity, by rw [key]; simp [hm]⟩
  · intro hshape
    have hm : ¬ matchAnchored identityRe s.Identity = true :=
      fun h => hshape ((matchAnchored_identityRe _).mp h)
    rw [key]; simp [hm]
  · intro hid x hx
    have hm : matchAnchored identityRe "A000001".toList = true := by decide
    rw [key, hid, hm] at hx
    simp only [if_true] at hx
    by_cases h1 : s.Name = [] <;> by_cases h2 : s.Author = [] <;> simp [h1, h2] at hx
  · intro hid
    have hm : matchAnchored identityRe "B000001".toList = false := by decide
    rw [key, hid, hm]
    rfl
  · intro hid
    have hm : matchAnchored identityRe "A00001".toList = false := by decide
    rw [key, hid, hm]
    rfl
  · intro hid
    have hm : matchAnchored identityRe "A0000001".toList = false := by decide
    rw [key, hid, hm]
    rfl

/-- Witness for C5: with all required codes present, the identity "B000001"
is rejected while the name and the author are empty. -/
theorem validate_identity_pattern_witness :
    (∀ c ∈ "INAOSTUK".toList,
      c ∈ ({ FieldOrder := "INAOSTUK".toList, Identity := "B000001".toList } :
        SequenceRecord).FieldOrder) ∧
    Validate { FieldOrder := "INAOSTUK".toList, Identity := "B000001".toList } =
      some (.invalidIdentity "B000001".toList) :=
  ⟨by decide,
   (validate_identity_pattern { FieldOrder := "INAOSTUK".toList, Identity := "B000001".toList }
      (by decide)).2.2.2.1 rfl⟩

/-! ## Theorems: strings and integers -/

theorem Split_ne_nil (s : Bytes) (sep : Char) : Split s sep ≠ [] := by
  induction s with
  | nil => simp [Split]
  | cons c cs ih =>
    unfold Split
    by_cases h : c = sep
    · simp [h]
    · simp only [h, if_false]
      split <;> simp

theorem Split_not_mem (s : Bytes) (sep : Char) (h : sep ∉ s) : Split s sep = [s] := by
  induction s with
  | nil => simp [Split]
  | cons c cs ih =>
    have hc : c ≠ sep := fun e => h (by simp [e])
    have hcs : sep ∉ cs := fun e => h (List.mem_cons_of_mem _ e)
    unfold Split
    simp [hc, ih hcs]

theorem Split_append_sep (a b : Bytes) (sep : Char) (h : sep ∉ a) :
    Split (a ++ sep :: b) sep = a :: Split b sep := by
  induction a with
  | nil => simp [Split]
  | cons c cs ih =>
    have hc : c ≠ sep := fun e => h (by simp [e])
    have hcs : sep ∉ cs := fun e => h (List.mem_cons_of_mem _ e)
    rw [List.cons_append, Split]
    simp [hc, ih hcs]

theorem Split_length (s : Bytes) (sep : Char) : (Split s sep).length = s.count sep + 1 := by
  induction s with
  | nil => simp [Split]
  | cons c cs ih =>
    unfold Split
    by_cases h : c = sep
    · subst h
      simp [ih]
    · simp only [h, if_false]
      have hne := Split_ne_nil cs sep
      rcases hsp : Split cs sep with _ | ⟨w, ws⟩
      · exact absurd hsp hne
      · rw [hsp] at ih
        simp only [List.length_cons] at ih ⊢
        rw [List.count_cons_of_ne (Ne.symm h)]
        omega

theorem intercalate_single (sep : Char) (a : Bytes) : List.intercalate [sep] [a] = a := by
  simp [List.intercalate, List.intersperse, List.flatten]

theorem intercalate_cons_cons (sep : Char) (a b : Bytes) (rest : List Bytes) :
    List.intercalate [sep] (a :: b :: rest) = a ++ sep :: List.intercalate [sep] (b :: rest) := by
  simp [List.intercalate, List.intersperse, List.flatten]

theorem Split_intercalate (s : Bytes) (sep : Char) :
    List.intercalate [sep] (Split s sep) = s := by
  induction s with
  | nil => simp [Split, List.intercalate]
  | cons c cs ih =>
    unfold Split
    have hne := Split_ne_nil cs sep
    rcases hsp : Split cs sep with _ | ⟨w, ws⟩
    · exact absurd hsp hne
    · rw [hsp] at ih
      by_cases h : c = sep
      · simp only [h, if_true]
        rw [intercalate_cons_cons, ih]
        rfl
      · simp only [h, if_false]
        cases ws with
        | nil =>
          rw [intercalate_single] at ih ⊢
          rw [ih]
        | cons w2 ws2 =>
          rw [intercalate_cons_cons] at ih ⊢
          rw [← ih]
          rfl

theorem Split_mem_not_sep (s : Bytes) (sep : Char) : ∀ t ∈ Split s sep, sep ∉ t := by
  induction s with
  | nil => simp [Split]
  | cons c cs ih =>
    unfold Split
    by_cases h : c = sep
    · subst h
      intro t ht
      simp only [if_true, List.mem_cons] at ht
      rcases ht with rfl | ht
      · simp
      · exact ih t ht
    · simp only [h, if_false]
      have hne := Split_ne_nil cs sep
      rcases hsp : Split cs sep with _ | ⟨w, ws⟩
      · exact absurd hsp hne
      · rw [hsp] at ih
        intro t ht
        simp only [List.mem_cons] at ht
        rcases ht with rfl | ht
        · intro hm
          rcases List.mem_cons.mp hm with e | hm
          · exact h e.symm
          · exact ih w (by simp) hm
        · exact ih t (by simp [ht])

theorem foldl_eq_decimalValue (ds : Bytes) :
    ds.foldl (fun acc ch => acc * 10 + digitVal ch) 0 = decimalValue ds := by
  induction ds using List.reverseRecOn with
  | nil => simp [decimalValue]
  | append_singleton ds d ih =>
    rw [List.foldl_append, ih]
    simp only [List.foldl_cons, List.foldl_nil, decimalValue, List.reverse_append,
      List.reverse_cons, List.reverse_nil, List.nil_append, List.singleton_append,
      List.map_cons, Nat.ofDigits_cons]
    ring

theorem scanNat_ok_iff (body : Bytes) :
    ((scanNat body).2.1 ≠ 0 ∧ (scanNat body).2.2 = []) ↔
      (body ≠ [] ∧ ∀ d ∈ body, d ∈ asciiDigits) := by
  simp only [scanNat]
  constructor
  · rintro ⟨h1, h2⟩
    have hall : ∀ d ∈ body, isDigit d = true := by
      simpa [List.dropWhile_eq_nil_iff] using h2
    refine ⟨?_, fun d hd => (isDigit_iff_mem d).mp (hall d hd)⟩
    rintro rfl
    simp at h1
  · rintro ⟨h1, h2⟩
    have hall : ∀ d ∈ body, isDigit d = true := fun d hd => (isDigit_iff_mem d).mpr (h2 d hd)
    have ht : body.takeWhile isDigit = body := List.takeWhile_eq_self_iff.mpr hall
    refine ⟨?_, by simpa [List.dropWhile_eq_nil_iff] using hall⟩
    rw [ht]
    simpa using h1

theorem scanNat_value (body : Bytes) (h : ∀ d ∈ body, d ∈ asciiDigits) :
    (scanNat body).1 = decimalValue body := by
  have hall : ∀ d ∈ body, isDigit d = true := fun d hd => (isDigit_iff_mem d).mpr (h d hd)
  have ht : body.takeWhile isDigit = body := List.takeWhile_eq_self_iff.mpr hall
  simp only [scanNat, ht]
  exact foldl_eq_decimalValue body

theorem minus_not_digit : '-' ∉ asciiDigits := by decide

theorem plus_not_digit : '+' ∉ asciiDigits := by decide

theorem comma_not_digit : ',' ∉ asciiDigits := by decide

/-- The body of a token: what follows the optional sign. -/
theorem isBase10Integer_cons (ch : Char) (rest : Bytes) :
    IsBase10Integer (ch :: rest) ↔
      (let body := if ch = '-' ∨ ch = '+' then rest else ch :: rest
       body ≠ [] ∧ ∀ d ∈ body, d ∈ asciiDigits) := by
  simp only [IsBase10Integer]
  constructor
  · rintro ⟨sign, digits, he, hs, hne, hd⟩
    rcases hs with rfl | rfl | rfl
    · simp only [List.nil_append] at he
      subst he
      have h0 := hd ch (by simp)
      have h1 : ¬ (ch = '-' ∨ ch = '+') := by
        rintro (rfl | rfl)
        · exact minus_not_digit h0
        · exact plus_not_digit h0
      simp only [h1, if_false]
      exact ⟨by simp, hd⟩
    · simp only [List.singleton_append, List.cons.injEq] at he
      obtain ⟨rfl, rfl⟩ := he
      simp only [true_or, if_true]
      exact ⟨hne, hd⟩
    · simp only [List.singleton_append, List.cons.injEq] at he
      obtain ⟨rfl, rfl⟩ := he
      simp only [or_true, if_true]
      exact ⟨hne, hd⟩
  · intro h
    by_cases hc : ch = '-' ∨ ch = '+'
    · simp only [hc, if_true] at h
      rcases hc with rfl | rfl
      · exact ⟨['-'], rest, rfl, Or.inr (Or.inl rfl), h.1, h.2⟩
      · exact ⟨['+'], rest, rfl, Or.inr (Or.inr rfl), h.1, h.2⟩
    · simp only [hc, if_false] at h
      exact ⟨[], ch :: rest, rfl, Or.inl rfl, h.1, h.2⟩

theorem not_isBase10Integer_nil : ¬ IsBase10Integer [] := by
  rintro ⟨sign, digits, he, _, hne, _⟩
  have : digits = [] := by
    have := congrArg List.length he
    simp only [List.length_nil, List.length_append] at this
    exact List.length_eq_zero.mp (by omega)
  exact hne this

theorem SetString_ok_iff (z : Int) (t : Bytes) :
    (SetString z t).2 = true ↔ IsBase10Integer t := by
  cases t with
  | nil => simp [SetString, not_isBase10Integer_nil]
  | cons ch rest =>
    rw [isBase10Integer_cons]
    simp only [SetString]
    rw [← scanNat_ok_iff]
    by_cases hcount : (scanNat (if ch = '-' ∨ ch = '+' then rest else ch :: rest)).2.1 = 0
    · simp [hcount]
    · simp [hcount, List.isEmpty_iff]

theorem SetString_value (z : Int) (t : Bytes) (h : IsBase10Integer t) :
    (SetString z t).1 = integerValue t := by
  cases t with
  | nil => exact absurd h not_isBase10Integer_nil
  | cons ch rest =>
    have hb := (isBase10Integer_cons ch rest).mp h
    have hok := (scanNat_ok_iff _).mpr hb
    have hv := scanNat_value _ hb.2
    simp only [SetString]
    simp only [hok.1, if_false]
    rw [hv]
    by_cases h1 : ch = '-'
    · subst h1
      simp [integerValue]
    · by_cases h2 : ch = '+'
      · subst h2
        simp [integerValue]
      · simp only [h1, h2, or_self, if_false, decide_False, Bool.false_eq_true]
        unfold integerValue
        split
        · rename_i heq
          simp only [List.cons.injEq] at heq
          exact absurd heq.1 h1
        · rename_i heq
          simp only [List.cons.injEq] at heq
          exact absurd heq.1 h2
        · rfl

theorem isBase10Integer_no_comma (t : Bytes) (h : IsBase10Integer t) : ',' ∉ t := by
  obtain ⟨sign, digits, rfl, hs, _, hd⟩ := h
  intro hm
  rcases List.mem_append.mp hm with hm | hm
  · rcases hs with rfl | rfl | rfl <;> simp at hm
  · exact comma_not_digit (hd _ hm)

/-! ## Theorems: runs of codes -/

theorem runs_append_singleton (cs : List Char) (c : Char) :
    runs (cs ++ [c]) = if cs.getLast? = some c then runs cs else runs cs ++ [c] := by
  induction cs with
  | nil => simp [runs]
  | cons a rest ih =>
    cases rest with
    | nil =>
      by_cases h : a = c
      · simp [runs, h]
      · simp [runs, h]
    | cons b rest2 =>
      have hl : (a :: b :: rest2).getLast? = (b :: rest2).getLast? := by
        simp [List.getLast?_cons_cons]
      rw [hl]
      have e : a :: b :: rest2 ++ [c] = a :: b :: (rest2 ++ [c]) := rfl
      have e2 : b :: rest2 ++ [c] = b :: (rest2 ++ [c]) := rfl
      rw [e, runs]
      rw [e2] at ih
      rw [ih]
      by_cases hab : a = b
      · simp only [hab, if_true, runs]
      · simp only [hab, if_false, runs]
        by_cases hlast : (b :: rest2).getLast? = some c
        · simp only [hlast, if_true]
        · simp only [hlast, if_false, List.cons_append]

theorem mem_runs (cs : List Char) (c : Char) : c ∈ runs cs ↔ c ∈ cs := by
  induction cs using List.reverseRecOn with
  | nil => simp [runs]
  | append_singleton cs d ih =>
    rw [runs_append_singleton]
    by_cases h : cs.getLast? = some d
    · simp only [h, if_true, ih, List.mem_append, List.mem_singleton]
      constructor
      · exact Or.inl
      · rintro (h1 | rfl)
        · exact h1
        · exact List.mem_of_getLast?_eq_some h
    · simp only [h, if_false, List.mem_append, ih]

theorem runs_getLast (cs : List Char) : (runs cs).getLast? = cs.getLast? := by
  induction cs using List.reverseRecOn with
  | nil => simp [runs]
  | append_singleton cs d ih =>
    rw [runs_append_singleton]
    by_cases h : cs.getLast? = some d
    · simp only [h, if_true, ih, List.getLast?_concat]
    · simp only [h, if_false, List.getLast?_concat]

theorem runs_eq_nil (cs : List Char) : runs cs = [] ↔ cs = [] := by
  constructor
  · intro h
    by_contra hne
    obtain ⟨c, hc⟩ := List.exists_mem_of_ne_nil cs hne
    have := (mem_runs cs c).mpr hc
    rw [h] at this
    simp at this
  · rintro rfl
    rfl

theorem runs_cons (c : Char) (cs : List Char) :
    runs (c :: cs) = if cs.head? = some c then runs cs else c :: runs cs := by
  cases cs with
  | nil => simp [runs]
  | cons d rest =>
    by_cases h : c = d
    · simp [runs, h]
    · have h' : ¬ d = c := fun e => h e.symm
      simp [runs, h, h']

theorem runs_head (cs : List Char) : (runs cs).head? = cs.head? := by
  induction cs with
  | nil => rfl
  | cons c rest ih =>
    rw [runs_cons]
    by_cases h : rest.head? = some c
    · simp only [h, if_true, ih, List.head?_cons]
    · simp only [h, if_false, List.head?_cons]

theorem runs_sublist (cs : List Char) : List.Sublist (runs cs) cs := by
  induction cs with
  | nil => exact List.Sublist.slnil
  | cons c rest ih =>
    rw [runs_cons]
    by_cases h : rest.head? = some c
    · simp only [h, if_true]
      exact List.Sublist.cons c ih
    · simp only [h, if_false]
      exact List.Sublist.cons₂ c ih

/-! ## Theorems: canonical integers -/

theorem digitChar_digitVal (c : Char) (h : c ∈ asciiDigits) : digitChar (digitVal c) = c := by
  simp only [asciiDigits, String.toList, List.mem_cons, List.mem_singleton] at h
  rcases h with h | h | h | h | h | h | h | h | h | h | h
  all_goals first | (subst h; decide) | simp at h

theorem digitVal_lt (c : Char) (h : c ∈ asciiDigits) : digitVal c < 10 := by
  simp only [asciiDigits, String.toList, List.mem_cons, List.mem_singleton] at h
  rcases h with h | h | h | h | h | h | h | h | h | h | h
  all_goals first | (subst h; decide) | simp at h

theorem digitVal_eq_zero (c : Char) (h : c ∈ asciiDigits) (h0 : digitVal c = 0) : c = '0' := by
  simp only [asciiDigits, String.toList, List.mem_cons, List.mem_singleton] at h
  rcases h with h | h | h | h | h | h | h | h | h | h | h
  all_goals first | (subst h; revert h0; decide) | simp at h

theorem natStringFuel_irrel :
    ∀ (f1 f2 n : Nat), n < f1 → n < f2 → natStringFuel f1 n = natStringFuel f2 n := by
  intro f1
  induction f1 with
  | zero => intro f2 n h; omega
  | succ k ih =>
    intro f2 n h1 h2
    cases f2 with
    | zero => omega
    | succ m =>
      simp only [natStringFuel]
      by_cases hn : n < 10
      · simp only [hn, if_true]
      · simp only [hn, if_false]
        rw [ih m (n / 10) (by omega) (by omega)]

theorem natString_unfold (n : Nat) :
    natString n = if n < 10 then [digitChar n]
      else natString (n / 10) ++ [digitChar (n % 10)] := by
  have h : natString n = if n < 10 then [digitChar n]
      else natStringFuel n (n / 10) ++ [digitChar (n % 10)] := rfl
  rw [h]
  by_cases hn : n < 10
  · simp only [hn, if_true]
  · simp only [hn, if_false]
    rw [natStringFuel_irrel n (n / 10 + 1) (n / 10) (by omega) (by omega)]
    rfl

theorem decimalValue_append (ds : Bytes) (d : Char) :
    decimalValue (ds ++ [d]) = decimalValue ds * 10 + digitVal d := by
  simp only [decimalValue, List.reverse_append, List.reverse_cons, List.reverse_nil,
    List.nil_append, List.singleton_append, List.map_cons, Nat.ofDigits_cons]
  ring

theorem natString_decimalValue (digits : Bytes) :
    digits ≠ [] → (∀ d ∈ digits, d ∈ asciiDigits) →
      (digits = ['0'] ∨ digits.head? ≠ some '0') → natString (decimalValue digits) = digits := by
  induction digits using List.reverseRecOn with
  | nil => intro h; exact absurd rfl h
  | append_singleton ds d ih =>
    intro _ hall hlead
    have hd : d ∈ asciiDigits := hall d (by simp)
    have hds : ∀ x ∈ ds, x ∈ asciiDigits := fun x hx => hall x (by simp [hx])
    rw [decimalValue_append, natString_unfold]
    cases ds with
    | nil =>
      have hlt := digitVal_lt d hd
      have h0 : decimalValue [] = 0 := by simp [decimalValue]
      simp only [h0, zero_mul, zero_add, hlt, if_true, List.nil_append,
        digitChar_digitVal d hd]
    | cons a rest =>
      have hhead : (a :: rest).head? ≠ some '0' := by
        rcases hlead with h | h
        · have := congrArg List.length h
          simp at this
        · simpa using h
      have hrec := ih (by simp) hds (Or.inr hhead)
      have hpos : 0 < decimalValue (a :: rest) := by
        by_contra hz
        have hz0 : decimalValue (a :: rest) = 0 := by omega
        rw [hz0, natString_unfold] at hrec
        simp only [Nat.lt_irrefl, Nat.zero_lt_succ, if_true] at hrec
        have : a = '0' := by
          have h1 := congrArg List.head? hrec
          simp only [List.head?_cons, Option.some.injEq] at h1
          rw [← h1]
          decide
        exact hhead (by simp [this])
      have hlt := digitVal_lt d hd
      have hge : ¬ decimalValue (a :: rest) * 10 + digitVal d < 10 := by omega
      have hdiv : (decimalValue (a :: rest) * 10 + digitVal d) / 10 = decimalValue (a :: rest) := by
        omega
      have hmod : (decimalValue (a :: rest) * 10 + digitVal d) % 10 = digitVal d := by omega
      simp only [hge, if_false, hdiv, hmod, hrec, digitChar_digitVal d hd]

theorem decimalValue_pos (digits : Bytes) (hne : digits ≠ [])
    (hall : ∀ d ∈ digits, d ∈ asciiDigits) (hlead : digits.head? ≠ some '0') :
    0 < decimalValue digits := by
  by_contra hz
  have hz0 : decimalValue digits = 0 := by omega
  have hrec := natString_decimalValue digits hne hall (Or.inr hlead)
  rw [hz0, natString_unfold] at hrec
  simp only [Nat.zero_lt_succ, if_true] at hrec
  rw [← hrec] at hlead
  exact hlead (by decide)

theorem isBase10Integer_of_canonical (t : Bytes) (h : IsCanonicalInteger t) :
    IsBase10Integer t := by
  obtain ⟨digits, hne, hall, h | h⟩ := h
  · exact ⟨[], digits, by simp [h.1], Or.inl rfl, hne, hall⟩
  · exact ⟨['-'], digits, by simp [h.1], Or.inr (Or.inl rfl), hne, hall⟩

theorem integerValue_digits (digits : Bytes) (hne : digits ≠ [])
    (hall : ∀ d ∈ digits, d ∈ asciiDigits) : integerValue digits = (decimalValue digits : Int) := by
  cases digits with
  | nil => exact absurd rfl hne
  | cons a rest =>
    have ha : a ∈ asciiDigits := hall a (by simp)
    unfold integerValue
    split
    · rename_i heq
      simp only [List.cons.injEq] at heq
      rw [heq.1] at ha
      exact absurd ha minus_not_digit
    · rename_i heq
      simp only [List.cons.injEq] at heq
      rw [heq.1] at ha
      exact absurd ha plus_not_digit
    · rfl

theorem bigString_integerValue (t : Bytes) (h : IsCanonicalInteger t) :
    bigString (integerValue t) = t := by
  obtain ⟨digits, hne, hall, ⟨rfl, hlead⟩ | ⟨rfl, hlead⟩⟩ := h
  · rw [integerValue_digits t hne hall]
    have hnn : ¬ ((decimalValue t : Int) < 0) := by omega
    simp only [bigString, hnn, if_false, Int.natAbs_ofNat]
    exact natString_decimalValue t hne hall hlead
  · have hpos := decimalValue_pos digits hne hall hlead
    have hv : integerValue ('-' :: digits) = -(decimalValue digits : Int) := rfl
    have hneg : -(decimalValue digits : Int) < 0 := by omega
    simp only [hv, bigString, hneg, if_true, Int.natAbs_neg, Int.natAbs_ofNat]
    rw [natString_decimalValue digits hne hall (Or.inr hlead)]

theorem canonical_ne_nil (t : Bytes) (h : IsCanonicalInteger t) : t ≠ [] := by
  intro e
  subst e
  exact not_isBase10Integer_nil (isBase10Integer_of_canonical _ h)

theorem canonical_no_comma (t : Bytes) (h : IsCanonicalInteger t) : ',' ∉ t :=
  isBase10Integer_no_comma t (isBase10Integer_of_canonical t h)

/-! ## Theorems: comma separated tokens -/

theorem Split_intercalate_tokens (sep : Char) :
    ∀ toks : List Bytes, toks ≠ [] → (∀ t ∈ toks, sep ∉ t) →
      Split (List.intercalate [sep] toks) sep = toks := by
  intro toks
  induction toks with
  | nil => intro h; exact absurd rfl h
  | cons t rest ih =>
    intro _ hall
    cases rest with
    | nil =>
      rw [intercalate_single, Split_not_mem _ _ (hall t (by simp))]
    | cons u rest2 =>
      rw [intercalate_cons_cons, Split_append_sep _ _ _ (hall t (by simp)),
        ih (by simp) (fun x hx => hall x (List.mem_cons_of_mem _ hx))]

theorem flatMap_sep_eq (sep : Char) :
    ∀ toks : List Bytes, toks ≠ [] →
      toks.flatMap (fun t => t ++ [sep]) = List.intercalate [sep] toks ++ [sep] := by
  intro toks
  induction toks with
  | nil => intro h; exact absurd rfl h
  | cons t rest ih =>
    intro _
    cases rest with
    | nil => simp [intercalate_single]
    | cons u rest2 =>
      rw [List.flatMap_cons, ih (by simp), intercalate_cons_cons]
      simp

theorem intercalate_ends (sep : Char) :
    ∀ toks : List Bytes, toks ≠ [] → (∀ t ∈ toks, t ≠ [] ∧ sep ∉ t) →
      ∃ s y, List.intercalate [sep] toks = s ++ [y] ∧ y ≠ sep := by
  intro toks
  induction toks with
  | nil => intro h; exact absurd rfl h
  | cons t rest ih =>
    intro _ hall
    cases rest with
    | nil =>
      obtain ⟨hne, hsep⟩ := hall t (by simp)
      rcases List.eq_nil_or_concat t with h | ⟨s, y, h⟩
      · exact absurd h hne
      · rw [List.concat_eq_append] at h
        refine ⟨s, y, by rw [intercalate_single, h], ?_⟩
        rintro rfl
        exact hsep (by rw [h]; simp)
    | cons u rest2 =>
      obtain ⟨s, y, hs, hy⟩ := ih (by simp) (fun x hx => hall x (List.mem_cons_of_mem _ hx))
      exact ⟨t ++ sep :: s, y, by rw [intercalate_cons_cons, hs]; simp, hy⟩

theorem TrimRight_intercalate (toks : List Bytes) (hne : toks ≠ [])
    (hall : ∀ t ∈ toks, t ≠ [] ∧ ',' ∉ t) :
    TrimRight (List.intercalate [','] toks) ',' = List.intercalate [','] toks := by
  obtain ⟨s, y, hs, hy⟩ := intercalate_ends ',' toks hne hall
  rw [hs, TrimRight, List.rdropWhile_concat_neg]
  simpa using hy

theorem TrimRight_intercalate_comma (toks : List Bytes) (hne : toks ≠ [])
    (hall : ∀ t ∈ toks, t ≠ [] ∧ ',' ∉ t) :
    TrimRight (List.intercalate [','] toks ++ [',']) ',' = List.intercalate [','] toks := by
  have h := TrimRight_intercalate toks hne hall
  rw [TrimRight] at h ⊢
  rw [List.rdropWhile_concat_pos _ _ _ (by simp), h]

theorem parseBigs_canonical :
    ∀ toks : List Bytes, (∀ t ∈ toks, IsCanonicalInteger t) →
      parseBigs toks = .ok (toks.map integerValue) := by
  intro toks
  induction toks with
  | nil => intro _; rfl
  | cons t rest ih =>
    intro hall
    have ht := isBase10Integer_of_canonical t (hall t (by simp))
    have hok := (SetString_ok_iff 0 t).mpr ht
    have hv := SetString_value 0 t ht
    have hrest := ih (fun x hx => hall x (List.mem_cons_of_mem _ hx))
    rw [parseBigs]
    rcases hs : SetString 0 t with ⟨z, ok⟩
    rw [hs] at hok hv
    simp only at hok hv
    subst hok hv
    simp only [hrest, List.map_cons]

theorem termsAllCommas_values :
    ∀ toks : List Bytes, (∀ t ∈ toks, IsCanonicalInteger t) →
      termsAllCommas (toks.map integerValue) = toks.flatMap (fun t => t ++ [',']) := by
  intro toks
  induction toks with
  | nil => intro _; rfl
  | cons t rest ih =>
    intro hall
    have hrest := ih (fun x hx => hall x (List.mem_cons_of_mem _ hx))
    simp only [termsAllCommas, List.map_cons, List.flatMap_cons] at hrest ⊢
    rw [hrest, bigString_integerValue t (hall t (by simp))]

theorem termsLastBare_values (toks : List Bytes) (hall : ∀ t ∈ toks, IsCanonicalInteger t) :
    termsLastBare (toks.map integerValue) = List.intercalate [','] toks := by
  have hmap : (toks.map integerValue).map bigString = toks := by
    rw [List.map_map]
    conv_rhs => rw [← List.map_id toks]
    apply List.map_congr_left
    intro t ht
    exact bigString_integerValue t (hall t ht)
  rw [termsLastBare, hmap]

/-! ### Keywords -/

theorem KeywordString_String (k : Keyword) : KeywordString k.String = some k := by
  cases k <;> decide

theorem Keyword_String_no_comma (k : Keyword) : ',' ∉ k.String := by
  cases k <;> decide

theorem parseKeywords_names :
    ∀ ks : List Keyword, parseKeywords (ks.map Keyword.String) = .ok ks := by
  intro ks
  induction ks with
  | nil => rfl
  | cons k rest ih =>
    simp only [List.map_cons, parseKeywords, KeywordString_String, ih]

theorem keywordsLoop_eq :
    ∀ (ks : List Keyword) (i : Nat) (n : Int), n = (i : Int) + ks.length →
      keywordsLoop n i ks = List.intercalate [','] (ks.map Keyword.String) := by
  intro ks
  induction ks with
  | nil => intro i n _; rfl
  | cons k rest ih =>
    intro i n hn
    cases rest with
    | nil =>
      have hi : (i : Int) = n - 1 := by
        simp only [List.length_cons, List.length_nil] at hn
        omega
      simp only [keywordsLoop, hi, if_true, List.append_nil, List.map_cons, List.map_nil,
        intercalate_single]
    | cons k2 rest2 =>
      have hi : ¬ (i : Int) = n - 1 := by
        simp only [List.length_cons] at hn
        omega
      have hrec := ih (i + 1) n (by simp only [List.length_cons] at hn ⊢; omega)
      rw [keywordsLoop]
      simp only [hi, if_false, hrec, List.map_cons, intercalate_cons_cons, List.append_assoc,
        List.singleton_append]

theorem KeywordsString_eq (rec : SequenceRecord) :
    KeywordsString rec = List.intercalate [','] (rec.Keywords.map Keyword.String) := by
  rw [KeywordsString, keywordsLoop_eq _ 0 _ (by simp)]

/-! ## Theorems: the line scanner -/

theorem lookup_incr_self (m : List (Char × Int)) (c : Char) :
    lookup (incr m c) c = lookup m c + 1 := by
  induction m with
  | nil => simp [incr, lookup]
  | cons kv m ih =>
    obtain ⟨k, n⟩ := kv
    by_cases h : k = c
    · simp [incr, lookup, h]
    · simp [incr, lookup, h, ih]

theorem incr_ne_self (m : List (Char × Int)) (c : Char) : incr m c ≠ m := by
  intro h
  have := lookup_incr_self m c
  rw [h] at this
  omega

theorem store_LineCounts (field : StringListRef) (rec : SequenceRecord) (v : List Bytes) :
    (field.store rec v).LineCounts = rec.LineCounts := by
  cases field <;> rfl

theorem store_FieldOrder (field : StringListRef) (rec : SequenceRecord) (v : List Bytes) :
    (field.store rec v).FieldOrder = rec.FieldOrder := by
  cases field <;> rfl

theorem assignFields_LineCounts (rec : SequenceRecord) (code : Char) (line : Bytes) :
    (assignFields rec code line).1.LineCounts = rec.LineCounts := by
  unfold assignFields
  split <;> (try rfl) <;> (try (simp only []; split <;> (try rfl) <;> (try split) <;>
    (try rfl) <;> (try split) <;> (try rfl)))

theorem assignFields_FieldOrder (rec : SequenceRecord) (code : Char) (line : Bytes) :
    (assignFields rec code line).1.FieldOrder = rec.FieldOrder := by
  unfold assignFields
  split <;> (try rfl) <;> (try (simp only []; split <;> (try rfl) <;> (try split) <;>
    (try rfl) <;> (try split) <;> (try rfl)))

theorem bookkeeping_getLast (rec : SequenceRecord) (code : Char) :
    (bookkeeping rec code).FieldOrder.getLast? = some code := by
  unfold bookkeeping
  simp only []
  by_cases h0 : rec.FieldOrder.length = 0
  · simp [h0]
  · by_cases h1 : rec.FieldOrder.getLast? = some code
    · simp [h0, h1]
    · simp [h0, h1]


/-- C8 (as amended): the loop body skips a line (no error, record unchanged)
exactly when the line is at most 11 bytes long or does not start with `%`.
Every line longer than 11 bytes that starts with `%` is processed: a byte other
than a space at index 2 or 10 gives the format error; otherwise the fields are
assigned by the code of the line, an error of that assignment is returned, and
without such an error the code becomes the last entry of `FieldOrder` and its
entry of `LineCounts` goes up by one. -/
theorem processLine_skips_iff (rec : SequenceRecord) (line : Bytes) :
    (processLine rec line = (rec, none) ↔ (line.length ≤ 11 ∨ byteAt line 0 ≠ '%')) ∧
    (11 < line.length → byteAt line 0 = '%' →
      ((byteAt line 2 ≠ ' ' ∨ byteAt line 10 ≠ ' ') →
        processLine rec line = (rec, some (.format line))) ∧
      (byteAt line 2 = ' ' → byteAt line 10 = ' ' →
        (∀ rec1 err, assignFields rec (byteAt line 1) line = (rec1, some err) →
          processLine rec line = (rec1, some err)) ∧
        (∀ rec1, assignFields rec (byteAt line 1) line = (rec1, none) →
          processLine rec line = (bookkeeping rec1 (byteAt line 1), none) ∧
          (bookkeeping rec1 (byteAt line 1)).FieldOrder.getLast? = some (byteAt line 1) ∧
          lookup (bookkeeping rec1 (byteAt line 1)).LineCounts (byteAt line 1)
            = lookup rec.LineCounts (byteAt line 1) + 1))) := by
  have hproc : 11 < line.length → byteAt line 0 = '%' → skipped line = false := by
    intro h1 h2
    simp [skipped, pre, h2]
    omega
  have hbook : ∀ rec1, assignFields rec (byteAt line 1) line = (rec1, none) →
      lookup (bookkeeping rec1 (byteAt line 1)).LineCounts (byteAt line 1)
        = lookup rec.LineCounts (byteAt line 1) + 1 := by
    intro rec1 h1
    have hlc := assignFields_LineCounts rec (byteAt line 1) line
    rw [h1] at hlc
    simp only [bookkeeping]
    rw [lookup_incr_self, hlc]
  refine ⟨⟨?_, ?_⟩, ?_⟩
  · intro h
    by_contra hno
    simp only [not_or, not_le, not_not] at hno
    have hs := hproc hno.1 hno.2
    simp only [processLine, hs, Bool.false_eq_true, if_false] at h
    by_cases hsp : byteAt line 2 ≠ ' ' ∨ byteAt line 10 ≠ ' '
    · simp [hsp] at h
    · simp only [hsp, if_false] at h
      rcases hres : assignFields rec (byteAt line 1) line with ⟨rec1, _ | err⟩
      · rw [hres] at h
        simp only [Prod.mk.injEq, and_true] at h
        have h2 := hbook rec1 hres
        rw [h] at h2
        omega
      · rw [hres] at h
        simp at h
  · intro h
    have hs : skipped line = true := by
      simp only [skipped, pre, Bool.or_eq_true, decide_eq_true_eq]
      exact h
    simp [processLine, hs]
  · intro hlen hpct
    have hs := hproc hlen hpct
    refine ⟨?_, ?_⟩
    · intro hsp
      simp [processLine, hs, hsp]
    · intro h2 h10
      refine ⟨?_, ?_⟩
      · intro rec1 err hres
        simp [processLine, hs, h2, h10, hres]
      · intro rec1 hres
        exact ⟨by simp [processLine, hs, h2, h10, hres], bookkeeping_getLast _ _,
          hbook rec1 hres⟩

/-- C8, counterexample: the 11-byte line `%N A000001 ` starts with `%` and is
not shorter than 11 bytes, yet it is skipped: no error, and the record is left
as it was, with nothing recorded in `FieldOrder` or `LineCounts`. -/
theorem eleven_byte_line_is_skipped :
    "%N A000001 ".toList.length = 11 ∧ byteAt "%N A000001 ".toList 0 = '%' ∧
    ¬ ("%N A000001 ".toList.length < 11 ∨ byteAt "%N A000001 ".toList 0 ≠ '%') ∧
    processLine .zero "%N A000001 ".toList = (.zero, none) ∧
    UnmarshalText .zero "%N A000001 ".toList = (.zero, none) := by
  decide

/-- C9, counterexample: on the six-line example the I line `%I A000001` is 10
bytes long and is skipped, so `Identity` is not "A000001" and the error of
`Validate` does not name T. -/
theorem example_identity_not_parsed :
    (UnmarshalText .zero exampleSixLines).1.Identity ≠ "A000001".toList ∧
    Validate (UnmarshalText .zero exampleSixLines).1 ≠ some (.missingRequiredField 'T') := by
  decide

/-- C9 (as amended): parsing the six-line example succeeds and yields
`Sequence = [1,1,2,5,14,42]`, `Keywords = [nonn, nice]`, `Offset = (0, 1)` and an
empty `Identity` (the 10-byte I line is skipped); `Validate` then fails with the
missing-required-field error naming I.  When the I line carries content after
the identity, `Identity` is "A000001" and the error names T. -/
theorem example_six_lines :
    (UnmarshalText .zero exampleSixLines).2 = none ∧
    (UnmarshalText .zero exampleSixLines).1.Identity = [] ∧
    (UnmarshalText .zero exampleSixLines).1.Sequence = [1, 1, 2, 5, 14, 42] ∧
    (UnmarshalText .zero exampleSixLines).1.Keywords = [KeywordNonn, KeywordNice] ∧
    (UnmarshalText .zero exampleSixLines).1.Offset =
      { InitialValue := 0, FirstGreaterThanOne := 1 } ∧
    Validate (UnmarshalText .zero exampleSixLines).1 = some (.missingRequiredField 'I') ∧
    (UnmarshalText .zero exampleSixLinesPlus).2 = none ∧
    (UnmarshalText .zero exampleSixLinesPlus).1.Identity = "A000001".toList ∧
    (UnmarshalText .zero exampleSixLinesPlus).1.Sequence = [1, 1, 2, 5, 14, 42] ∧
    (UnmarshalText .zero exampleSixLinesPlus).1.Keywords = [KeywordNonn, KeywordNice] ∧
    (UnmarshalText .zero exampleSixLinesPlus).1.Offset =
      { InitialValue := 0, FirstGreaterThanOne := 1 } ∧
    Validate (UnmarshalText .zero exampleSixLinesPlus).1 = some (.missingRequiredField 'T') := by
  decide

/-! ### Lines in the fixed layout -/

theorem mkLine_length (code : Char) (identity content : Bytes) :
    (mkLine code identity content).length = identity.length + content.length + 4 := by
  simp [mkLine]
  omega

theorem mkLine_byte0 (code : Char) (identity content : Bytes) :
    byteAt (mkLine code identity content) 0 = '%' := rfl

theorem mkLine_byte1 (code : Char) (identity content : Bytes) :
    byteAt (mkLine code identity content) 1 = code := rfl

theorem mkLine_byte2 (code : Char) (identity content : Bytes) :
    byteAt (mkLine code identity content) 2 = ' ' := rfl

theorem mkLine_byte10 (code : Char) (identity content : Bytes) (h : identity.length = 7) :
    byteAt (mkLine code identity content) 10 = ' ' := by
  match identity, h with
  | [_, _, _, _, _, _, _], _ => rfl

theorem mkLine_drop (code : Char) (identity content : Bytes) (h : identity.length = 7) :
    (mkLine code identity content).drop pre = content := by
  match identity, h with
  | [_, _, _, _, _, _, _], _ => rfl

theorem mkLine_identity (code : Char) (identity content : Bytes) (h : identity.length = 7) :
    ((mkLine code identity content).drop 3).take (pre - 1 - 3) = identity := by
  match identity, h with
  | [_, _, _, _, _, _, _], _ => rfl

theorem mkLine_not_skipped (code : Char) (identity content : Bytes) (h : identity.length = 7)
    (hc : content ≠ []) : skipped (mkLine code identity content) = false := by
  have hl := mkLine_length code identity content
  have hpos : 0 < content.length := List.length_pos.mpr hc
  simp only [skipped, mkLine_byte0, pre, ne_eq, not_true_eq_false, decide_False, Bool.or_false,
    decide_eq_false_iff_not, not_le]
  omega

theorem processLine_mkLine (rec : SequenceRecord) (code : Char) (identity content : Bytes)
    (h : identity.length = 7) (hc : content ≠ []) :
    processLine rec (mkLine code identity content) =
      match assignFields rec code (mkLine code identity content) with
      | (rec1, some err) => (rec1, some err)
      | (rec1, none) => (bookkeeping rec1 code, none) := by
  simp only [processLine, mkLine_not_skipped code identity content h hc, mkLine_byte2,
    mkLine_byte10 code identity content h, mkLine_byte1, Bool.false_eq_true, if_false, ne_eq,
    not_true_eq_false, or_self]

theorem eq_mkLine (line : Bytes) (hlen : 11 < line.length) (h0 : byteAt line 0 = '%')
    (h2 : byteAt line 2 = ' ') (h10 : byteAt line 10 = ' ') :
    line = mkLine (byteAt line 1) ((line.drop 3).take 7) (line.drop 11) ∧
      ((line.drop 3).take 7).length = 7 ∧ line.drop 11 ≠ [] := by
  match line, hlen with
  | b0 :: b1 :: b2 :: b3 :: b4 :: b5 :: b6 :: b7 :: b8 :: b9 :: b10 :: b11 :: rest, _ =>
    simp only [byteAt, List.getD_cons_zero, List.getD_cons_succ] at h0 h2 h10
    subst h0 h2 h10
    simp [mkLine, byteAt]

/-! ### The offset line -/

theorem assignFields_O (rec : SequenceRecord) (line : Bytes) :
    assignFields rec 'O' line =
      (let values := Split (line.drop pre) ','
       if values.length ≠ 2 then (rec, some (.invalidOffset (line.drop pre)))
       else
        let r0 := SetString rec.Offset.InitialValue (values.getD 0 [])
        let rec0 := { rec with Offset := { rec.Offset with InitialValue := r0.1 } }
        if !r0.2 then (rec0, some (.invalidInitialValue (values.getD 0 [])))
        else
          let r1 := SetString rec0.Offset.FirstGreaterThanOne (values.getD 1 [])
          let rec1 := { rec0 with Offset := { rec0.Offset with FirstGreaterThanOne := r1.1 } }
          if !r1.2 then (rec1, some (.invalidFirstGreaterThanOne (values.getD 1 [])))
          else (rec1, none)) := rfl

theorem two_tokens_iff (c t1 t2 : Bytes) (h1 : ',' ∉ t1) (h2 : ',' ∉ t2) :
    Split c ',' = [t1, t2] ↔ c = t1 ++ ',' :: t2 := by
  constructor
  · intro h
    have := Split_intercalate c ','
    rw [h, intercalate_cons_cons, intercalate_single] at this
    exact this.symm
  · rintro rfl
    rw [Split_append_sep _ _ _ h1, Split_not_mem _ _ h2]

theorem unmarshalLines_single (rec : SequenceRecord) (line : Bytes) :
    unmarshalLines rec [line] = processLine rec line := by
  simp only [unmarshalLines]
  rcases h : processLine rec line with ⟨rec1, _ | err⟩ <;> rfl

theorem UnmarshalText_single_line (rec : SequenceRecord) (line : Bytes) (h : '\n' ∉ line) :
    UnmarshalText rec line = processLine rec line := by
  rw [UnmarshalText, Split_not_mem _ _ h, unmarshalLines_single]

theorem SetString_not_ok (z : Int) (t : Bytes) (h : ¬ IsBase10Integer t) :
    (SetString z t).2 = false := by
  rcases hb : (SetString z t).2 with _ | _
  · rfl
  · exact absurd ((SetString_ok_iff _ t).mp hb) h

theorem offset_assign_bad1 (rec : SequenceRecord) (line : Bytes) (t1 t2 : Bytes)
    (hs : Split (line.drop pre) ',' = [t1, t2]) (h1 : ¬ IsBase10Integer t1) :
    (assignFields rec 'O' line).2 = some (.invalidInitialValue t1) := by
  rw [assignFields_O]
  simp only [hs, List.length_cons, List.length_nil, ne_eq, not_true_eq_false, if_false,
    List.getD_cons_zero, Nat.reduceAdd, SetString_not_ok _ t1 h1, Bool.not_false, if_true]

theorem offset_assign_bad2 (rec : SequenceRecord) (line : Bytes) (t1 t2 : Bytes)
    (hs : Split (line.drop pre) ',' = [t1, t2]) (h1 : IsBase10Integer t1)
    (h2 : ¬ IsBase10Integer t2) :
    (assignFields rec 'O' line).2 = some (.invalidFirstGreaterThanOne t2) := by
  rw [assignFields_O]
  simp only [hs, List.length_cons, List.length_nil, ne_eq, not_true_eq_false, if_false,
    List.getD_cons_zero, List.getD_cons_succ, Nat.reduceAdd,
    (SetString_ok_iff rec.Offset.InitialValue t1).mpr h1, SetString_not_ok _ t2 h2,
    Bool.not_false, Bool.not_true, Bool.false_eq_true, if_true]

theorem offset_assign_ok (rec : SequenceRecord) (line : Bytes) (t1 t2 : Bytes)
    (hs : Split (line.drop pre) ',' = [t1, t2]) (h1 : IsBase10Integer t1)
    (h2 : IsBase10Integer t2) :
    assignFields rec 'O' line =
      ({ rec with Offset := { InitialValue := integerValue t1,
                              FirstGreaterThanOne := integerValue t2 } }, none) := by
  rw [assignFields_O]
  simp only [hs, List.length_cons, List.length_nil, ne_eq, not_true_eq_false, if_false,
    List.getD_cons_zero, List.getD_cons_succ, Nat.reduceAdd,
    (SetString_ok_iff rec.Offset.InitialValue t1).mpr h1,
    (SetString_ok_iff rec.Offset.FirstGreaterThanOne t2).mpr h2,
    SetString_value _ t1 h1, SetString_value _ t2 h2,
    Bool.not_true, Bool.false_eq_true]

/-- C10: a processed O line with content `c` is accepted exactly when splitting
`c` on `,` yields exactly two tokens and each token is a valid base-10 integer,
that is, when `c` is two such integers joined by one comma; on acceptance the
two offset fields are the first and the second integer.  A content whose number
of tokens is not two (one token, three or more) gives the invalid-offset error,
and a token that is not an integer gives the error of its field.  A line
without a newline is the whole text of an `UnmarshalText` call with the same
outcome. -/
theorem offset_line_accepted_iff (rec : SequenceRecord) (identity c : Bytes)
    (hid : identity.length = 7) (hc : c ≠ []) :
    ((processLine rec (mkLine 'O' identity c)).2 = none ↔
      ∃ t1 t2, Split c ',' = [t1, t2] ∧ IsBase10Integer t1 ∧ IsBase10Integer t2) ∧
    ((processLine rec (mkLine 'O' identity c)).2 = none ↔
      ∃ t1 t2, c = t1 ++ ',' :: t2 ∧ IsBase10Integer t1 ∧ IsBase10Integer t2) ∧
    (∀ t1 t2, Split c ',' = [t1, t2] → IsBase10Integer t1 → IsBase10Integer t2 →
      (processLine rec (mkLine 'O' identity c)).1.Offset =
        { InitialValue := integerValue t1, FirstGreaterThanOne := integerValue t2 }) ∧
    ((Split c ',').length ≠ 2 →
      (processLine rec (mkLine 'O' identity c)).2 = some (.invalidOffset c)) ∧
    (∀ t1 t2, Split c ',' = [t1, t2] → ¬ IsBase10Integer t1 →
      (processLine rec (mkLine 'O' identity c)).2 = some (.invalidInitialValue t1)) ∧
    (∀ t1 t2, Split c ',' = [t1, t2] → IsBase10Integer t1 → ¬ IsBase10Integer t2 →
      (processLine rec (mkLine 'O' identity c)).2 = some (.invalidFirstGreaterThanOne t2)) ∧
    ('\n' ∉ mkLine 'O' identity c →
      UnmarshalText rec (mkLine 'O' identity c) = processLine rec (mkLine 'O' identity c)) := by
  have hp := processLine_mkLine rec 'O' identity c hid hc
  have hdrop := mkLine_drop 'O' identity c hid
  have hbad : (Split c ',').length ≠ 2 →
      (processLine rec (mkLine 'O' identity c)).2 = some (.invalidOffset c) := by
    intro hl
    rw [hp, assignFields_O]
    simp only [hdrop, hl, ne_eq, not_false_eq_true, if_true]
  have hsome : ∀ e, (assignFields rec 'O' (mkLine 'O' identity c)).2 = some e →
      (processLine rec (mkLine 'O' identity c)).2 = some e := by
    intro e he
    rw [hp]
    rcases hres : assignFields rec 'O' (mkLine 'O' identity c) with ⟨rec1, _ | err⟩
    · rw [hres] at he
      simp at he
    · rw [hres] at he
      simpa using he
  have hdrop2 : ∀ t1 t2, Split c ',' = [t1, t2] →
      Split ((mkLine 'O' identity c).drop pre) ',' = [t1, t2] := by
    intro t1 t2 hs
    rw [hdrop]
    exact hs
  have hok : ∀ t1 t2, Split c ',' = [t1, t2] → IsBase10Integer t1 → IsBase10Integer t2 →
      processLine rec (mkLine 'O' identity c) =
        (bookkeeping { rec with Offset := { InitialValue := integerValue t1,
                                            FirstGreaterThanOne := integerValue t2 } } 'O',
          none) := by
    intro t1 t2 hs h1 h2
    rw [hp, offset_assign_ok rec _ t1 t2 (hdrop2 t1 t2 hs) h1 h2]
  have hbad1 : ∀ t1 t2, Split c ',' = [t1, t2] → ¬ IsBase10Integer t1 →
      (processLine rec (mkLine 'O' identity c)).2 = some (.invalidInitialValue t1) :=
    fun t1 t2 hs h1 => hsome _ (offset_assign_bad1 rec _ t1 t2 (hdrop2 t1 t2 hs) h1)
  have hbad2 : ∀ t1 t2, Split c ',' = [t1, t2] → IsBase10Integer t1 → ¬ IsBase10Integer t2 →
      (processLine rec (mkLine 'O' identity c)).2 = some (.invalidFirstGreaterThanOne t2) :=
    fun t1 t2 hs h1 h2 => hsome _ (offset_assign_bad2 rec _ t1 t2 (hdrop2 t1 t2 hs) h1 h2)
  have hiff : (processLine rec (mkLine 'O' identity c)).2 = none ↔
      ∃ t1 t2, Split c ',' = [t1, t2] ∧ IsBase10Integer t1 ∧ IsBase10Integer t2 := by
    constructor
    · intro h
      by_cases hl : (Split c ',').length = 2
      · obtain ⟨t1, t2, hs⟩ := List.length_eq_two.mp hl
        refine ⟨t1, t2, hs, ?_⟩
        by_cases h1 : IsBase10Integer t1
        · by_cases h2 : IsBase10Integer t2
          · exact ⟨h1, h2⟩
          · rw [hbad2 t1 t2 hs h1 h2] at h
            simp at h
        · rw [hbad1 t1 t2 hs h1] at h
          simp at h
      · rw [hbad hl] at h
        simp at h
    · rintro ⟨t1, t2, hs, h1, h2⟩
      rw [hok t1 t2 hs h1 h2]
  refine ⟨hiff, ?_, ?_, hbad, hbad1, hbad2, ?_⟩
  · rw [hiff]
    constructor
    · rintro ⟨t1, t2, hs, h1, h2⟩
      exact ⟨t1, t2, (two_tokens_iff c t1 t2 (isBase10Integer_no_comma _ h1)
        (isBase10Integer_no_comma _ h2)).mp hs, h1, h2⟩
    · rintro ⟨t1, t2, hs, h1, h2⟩
      exact ⟨t1, t2, (two_tokens_iff c t1 t2 (isBase10Integer_no_comma _ h1)
        (isBase10Integer_no_comma _ h2)).mpr hs, h1, h2⟩
  · intro t1 t2 hs h1 h2
    rw [hok t1 t2 hs h1 h2]
    rfl
  · intro hnl
    exact UnmarshalText_single_line rec _ hnl

theorem isBase10Integer_zero : IsBase10Integer "0".toList :=
  ⟨[], "0".toList, rfl, Or.inl rfl, by decide, by decide⟩

theorem isBase10Integer_one : IsBase10Integer "1".toList :=
  ⟨[], "1".toList, rfl, Or.inl rfl, by decide, by decide⟩

/-- Witness for C10: the line `%O A000001 0,1` on the zero-value record gives
the offset (0, 1). -/
theorem offset_line_accepted_iff_witness :
    "A000001".toList.length = 7 ∧ "0,1".toList ≠ [] ∧
    (processLine .zero (mkLine 'O' "A000001".toList "0,1".toList)).1.Offset =
      { InitialValue := integerValue "0".toList,
        FirstGreaterThanOne := integerValue "1".toList } :=
  ⟨by decide, by decide,
   (offset_line_accepted_iff .zero "A000001".toList "0,1".toList (by decide) (by decide)).2.2.1
     "0".toList "1".toList (by decide) isBase10Integer_zero isBase10Integer_one⟩

/-! ## Theorems: the serializer -/

theorem termsLoop_all_commas (code : Char) (count : Int) (h : code ≠ 'U') :
    ∀ (terms : List Int) (i : Nat), termsLoop code count i terms = termsAllCommas terms := by
  intro terms
  induction terms with
  | nil => intro i; rfl
  | cons v rest ih =>
    intro i
    simp only [termsLoop, h, false_and, if_false, ih (i + 1), termsAllCommas, List.flatMap_cons]

theorem termsLoop_last_bare :
    ∀ (terms : List Int) (i : Nat) (count : Int), count = (i : Int) + terms.length →
      termsLoop 'U' count i terms = termsLastBare terms := by
  intro terms
  induction terms with
  | nil => intro i count _; rfl
  | cons v rest ih =>
    intro i count hcount
    cases rest with
    | nil =>
      have hi : (i : Int) = count - 1 := by
        simp only [List.length_cons, List.length_nil] at hcount
        omega
      simp only [termsLoop, hi, and_self, if_true, List.append_nil, termsLastBare, List.map_cons,
        List.map_nil, intercalate_single]
    | cons w rest2 =>
      have hi : ¬ (i : Int) = count - 1 := by
        simp only [List.length_cons] at hcount
        omega
      have hrec := ih (i + 1) count (by simp only [List.length_cons] at hcount ⊢; omega)
      rw [termsLoop]
      simp only [hi, and_false, if_false, hrec, termsLastBare, List.map_cons,
        intercalate_cons_cons, List.append_assoc, List.singleton_append]

theorem stuBounds_zero (counts : Counts3) : stuBounds counts 0 = (0, counts.c0) := rfl

theorem stuBounds_one (counts : Counts3) :
    stuBounds counts 1 = (0 + counts.c0, counts.c1 + counts.c0) := rfl

theorem stuBounds_two (counts : Counts3) :
    stuBounds counts 2 = (0 + counts.c0 + counts.c1, counts.c2 + counts.c0 + counts.c1) := rfl

theorem slice_nat {α : Type} (xs : List α) (b n : Nat) (h : b + n ≤ xs.length) (lo hi : Int)
    (hlo : lo = (b : Int)) (hhi : hi = (b : Int) + (n : Int)) :
    slice xs lo hi = some ((xs.drop b).take n) := by
  subst hlo hhi
  have h1 : (0 : Int) ≤ (b : Int) ∧ (b : Int) ≤ (b : Int) + (n : Int)
      ∧ (b : Int) + (n : Int) ≤ (xs.length : Int) := by omega
  simp only [slice, h1, and_self, if_true, Int.toNat_ofNat, add_sub_cancel_left]

theorem emitCode_S (rec : SequenceRecord) :
    emitCode rec 'S' =
      match slice rec.Sequence (stuBounds rec.STUCounts 0).1 (stuBounds rec.STUCounts 0).2 with
      | none => .error .sliceBoundsOutOfRange
      | some terms =>
        .ok ('%' :: 'S' :: ' ' :: rec.Identity ++ [' ']
          ++ termsLoop 'S' rec.STUCounts.c0 0 terms ++ ['\n']) := rfl

theorem emitCode_T (rec : SequenceRecord) :
    emitCode rec 'T' =
      match slice rec.Sequence (stuBounds rec.STUCounts 1).1 (stuBounds rec.STUCounts 1).2 with
      | none => .error .sliceBoundsOutOfRange
      | some terms =>
        .ok ('%' :: 'T' :: ' ' :: rec.Identity ++ [' ']
          ++ termsLoop 'T' rec.STUCounts.c1 0 terms ++ ['\n']) := rfl

theorem emitCode_U (rec : SequenceRecord) :
    emitCode rec 'U' =
      match slice rec.Sequence (stuBounds rec.STUCounts 2).1 (stuBounds rec.STUCounts 2).2 with
      | none => .error .sliceBoundsOutOfRange
      | some terms =>
        .ok ('%' :: 'U' :: ' ' :: rec.Identity ++ [' ']
          ++ termsLoop 'U' rec.STUCounts.c2 0 terms ++ ['\n']) := rfl

theorem mkLine_eq (code : Char) (identity content : Bytes) :
    '%' :: code :: ' ' :: identity ++ [' '] ++ content ++ ['\n']
      = mkLine code identity content ++ ['\n'] := by
  simp [mkLine]

/-- The lines written for S, T and U when the counts are `a`, `b`, `c`. -/
theorem emitCode_terms (rec : SequenceRecord) (a b c : Nat)
    (hcounts : rec.STUCounts = { c0 := a, c1 := b, c2 := c })
    (hsum : a + b + c ≤ rec.Sequence.length) :
    emitCode rec 'S'
      = .ok (mkLine 'S' rec.Identity (termsAllCommas (rec.Sequence.take a)) ++ ['\n']) ∧
    emitCode rec 'T'
      = .ok (mkLine 'T' rec.Identity (termsAllCommas ((rec.Sequence.drop a).take b))
          ++ ['\n']) ∧
    emitCode rec 'U'
      = .ok (mkLine 'U' rec.Identity (termsLastBare ((rec.Sequence.drop (a + b)).take c))
          ++ ['\n']) := by
  refine ⟨?_, ?_, ?_⟩
  · rw [emitCode_S, stuBounds_zero, hcounts]
    simp only []
    rw [slice_nat rec.Sequence 0 a (by omega) 0 a rfl (by norm_num)]
    simp only [List.drop_zero]
    rw [termsLoop_all_commas 'S' _ (by decide), mkLine_eq]
  · rw [emitCode_T, stuBounds_one, hcounts]
    simp only []
    rw [slice_nat rec.Sequence a b (by omega) _ _ (by omega) (by omega)]
    simp only []
    rw [termsLoop_all_commas 'T' _ (by decide), mkLine_eq]
  · rw [emitCode_U, stuBounds_two, hcounts]
    simp only []
    rw [slice_nat rec.Sequence (a + b) c (by omega) _ _ (by omega) (by omega)]
    simp only []
    rw [termsLoop_last_bare _ 0 (c : Int), mkLine_eq]
    simp only [List.length_take, List.length_drop, Nat.cast_zero, zero_add, Nat.cast_inj]
    omega

theorem countsInRange_nat (rec : SequenceRecord) (h : CountsInRange rec) :
    ∃ a b c : Nat, rec.STUCounts = { c0 := a, c1 := b, c2 := c } ∧
      a + b + c ≤ rec.Sequence.length := by
  obtain ⟨h0, h1, h2, hs⟩ := h
  refine ⟨rec.STUCounts.c0.toNat, rec.STUCounts.c1.toNat, rec.STUCounts.c2.toNat, ?_, ?_⟩
  · rw [Int.toNat_of_nonneg h0, Int.toNat_of_nonneg h1, Int.toNat_of_nonneg h2]
  · omega

theorem emitCode_isOk (rec : SequenceRecord) (h : CountsInRange rec) (code : Char) :
    emitCode rec code = .ok (chunkOf rec code) := by
  obtain ⟨a, b, c, hc, hs⟩ := countsInRange_nat rec h
  obtain ⟨hS, hT, hU⟩ := emitCode_terms rec a b c hc hs
  by_cases h1 : code = 'S'
  · subst h1; simp only [chunkOf, hS]
  by_cases h2 : code = 'T'
  · subst h2; simp only [chunkOf, hT]
  by_cases h3 : code = 'U'
  · subst h3; simp only [chunkOf, hU]
  unfold chunkOf
  unfold emitCode
  split <;> first | rfl | contradiction

theorem marshalCodes_ok (rec : SequenceRecord) (h : CountsInRange rec) :
    ∀ (codes : List Char) (out : Bytes),
      marshalCodes rec codes out = .ok (out ++ codes.flatMap (chunkOf rec)) := by
  intro codes
  induction codes with
  | nil => intro out; simp [marshalCodes]
  | cons code rest ih =>
    intro out
    rw [marshalCodes, emitCode_isOk rec h code]
    simp only [ih, List.flatMap_cons, List.append_assoc]

theorem MarshalText_ok (rec : SequenceRecord) (h : CountsInRange rec) :
    MarshalText rec = .ok (rec.FieldOrder.flatMap (chunkOf rec)) := by
  rw [MarshalText, marshalCodes_ok rec h]
  rfl

/-- C6: with counts `(a, b, c)` that add up to the number of terms,
`MarshalText` succeeds and writes, for every entry of `FieldOrder`, the bytes of
that code; the S line holds the first `a` terms, the T line the next `b` terms
and the U line the last `c` terms, each as a decimal string, every term followed
by a comma except the last term of the U line. -/
theorem marshal_term_groups (rec : SequenceRecord) (a b c : Nat)
    (hS : 'S' ∈ rec.FieldOrder) (hT : 'T' ∈ rec.FieldOrder) (hU : 'U' ∈ rec.FieldOrder)
    (hcounts : rec.STUCounts = { c0 := a, c1 := b, c2 := c })
    (hsum : a + b + c = rec.Sequence.length) :
    (∃ before after, rec.FieldOrder = before ++ 'S' :: after) ∧
    (∃ before after, rec.FieldOrder = before ++ 'T' :: after) ∧
    (∃ before after, rec.FieldOrder = before ++ 'U' :: after) ∧
    MarshalText rec = .ok (rec.FieldOrder.flatMap (chunkOf rec)) ∧
    emitCode rec 'S'
      = .ok (mkLine 'S' rec.Identity (termsAllCommas (rec.Sequence.take a)) ++ ['\n']) ∧
    emitCode rec 'T'
      = .ok (mkLine 'T' rec.Identity (termsAllCommas ((rec.Sequence.drop a).take b))
          ++ ['\n']) ∧
    emitCode rec 'U'
      = .ok (mkLine 'U' rec.Identity (termsLastBare (rec.Sequence.drop (a + b))) ++ ['\n']) ∧
    (rec.Sequence.drop (a + b)).length = c := by
  have hr : CountsInRange rec := by
    simp only [CountsInRange, hcounts]
    omega
  obtain ⟨h1, h2, h3⟩ := emitCode_terms rec a b c hcounts (by omega)
  have hlen : (rec.Sequence.drop (a + b)).length = c := by
    simp only [List.length_drop]
    omega
  have htake : (rec.Sequence.drop (a + b)).take c = rec.Sequence.drop (a + b) :=
    List.take_of_length_le (by omega)
  rw [htake] at h3
  exact ⟨List.append_of_mem hS, List.append_of_mem hT, List.append_of_mem hU,
    MarshalText_ok rec hr, h1, h2, h3, hlen⟩

/-- Witness for C6: seven terms with counts 3, 3 and 1 give three term lines
of 3, 3 and 1 terms, only the seventh term without a comma. -/
theorem marshal_term_groups_witness :
    ('S' ∈ exampleSeven.FieldOrder ∧ 'T' ∈ exampleSeven.FieldOrder ∧
      'U' ∈ exampleSeven.FieldOrder ∧ (3 : Nat) + 3 + 1 = exampleSeven.Sequence.length) ∧
    emitCode exampleSeven 'U'
      = .ok (mkLine 'U' exampleSeven.Identity
          (termsLastBare (exampleSeven.Sequence.drop (3 + 3))) ++ ['\n']) ∧
    MarshalText exampleSeven = .ok
      "%I A000001 x\n%S A000001 1,2,3,\n%T A000001 5,8,13,\n%U A000001 -21\n".toList :=
  ⟨by decide,
   (marshal_term_groups exampleSeven 3 3 1 (by decide) (by decide) (by decide) rfl
      (by decide)).2.2.2.2.2.2.1,
   by decide⟩

/-- C7, the code at the failing input: a record whose `FieldOrder` holds the
unrecognised code `X` (as the parser leaves it after the line
`%X A000001 foo`) is serialized to the empty text with no error. -/
theorem marshal_unrecognised_code_no_error :
    UnmarshalText .zero "%X A000001 foo\n".toList
      = ({ FieldOrder := ['X'], LineCounts := [('X', 1)] }, none) ∧
    MarshalText { FieldOrder := ['X'], LineCounts := [('X', 1)] } = .ok [] := by
  decide

/-! ## Theorems: the effect of one well-formed line -/

theorem effect_simple (rec : SequenceRecord) (code : Char) (line : Bytes)
    (hcode : code ∈ "INADHFYEeptoC".toList) :
    ∃ rec1, assignFields rec code line = (rec1, none) ∧
      LineEffect code ((line.drop 3).take (pre - 1 - 3)) (line.drop pre) rec rec1 := by
  simp only [String.toList, List.mem_cons, List.mem_singleton, List.not_mem_nil, or_false]
    at hcode
  rcases hcode with rfl | rfl | rfl | rfl | rfl | rfl | rfl | rfl | rfl | rfl | rfl | rfl | rfl
  all_goals
    refine ⟨_, rfl, ?_⟩
    constructor
    all_goals first
      | rfl
      | (intro h; exact absurd h (by decide))
      | (intro _; exact ⟨rfl, rfl⟩)
      | (intro _; rfl)
      | (intro field h; cases field <;> first | rfl | exact absurd h (by decide))

theorem term_tokens (code : Char) (content : Bytes) (h : IsTermContent code content) :
    ∃ toks : List Bytes, (∀ t ∈ toks, IsCanonicalInteger t) ∧
      Split (TrimRight content ',') ',' = toks ∧
      ((code = 'U' ∧ content = List.intercalate [','] toks) ∨
       (code ≠ 'U' ∧ content = toks.flatMap (fun t => t ++ [',']))) := by
  obtain ⟨toks, hne, hall, hc⟩ := h
  have hall2 : ∀ t ∈ toks, t ≠ [] ∧ ',' ∉ t :=
    fun t ht => ⟨canonical_ne_nil t (hall t ht), canonical_no_comma t (hall t ht)⟩
  have hsplit := Split_intercalate_tokens ',' toks hne (fun t ht => (hall2 t ht).2)
  refine ⟨toks, hall, ?_, hc⟩
  rcases hc with ⟨_, rfl⟩ | ⟨_, rfl⟩
  · rw [TrimRight_intercalate toks hne hall2, hsplit]
  · rw [flatMap_sep_eq ',' toks hne, TrimRight_intercalate_comma toks hne hall2, hsplit]

theorem assignFields_term_eq (rec : SequenceRecord) (code : Char) (line : Bytes)
    (hcode : code ∈ termCodes) :
    assignFields rec code line =
      match parseBigs (Split (TrimRight (line.drop pre) ',') ',') with
      | .error v => (rec, some (.invalidSequenceValue v))
      | .ok bigs =>
        ({ rec with Sequence := rec.Sequence ++ bigs,
                    STUCounts := rec.STUCounts.set (code.toNat - 'S'.toNat) bigs.length },
          none) := by
  simp only [termCodes, String.toList, List.mem_cons, List.mem_singleton, List.not_mem_nil,
    or_false] at hcode
  rcases hcode with rfl | rfl | rfl <;> rfl

theorem effect_term (rec : SequenceRecord) (code : Char) (line : Bytes)
    (hcode : code ∈ termCodes) (hterm : IsTermContent code (line.drop pre)) :
    ∃ rec1, assignFields rec code line = (rec1, none) ∧
      LineEffect code ((line.drop 3).take (pre - 1 - 3)) (line.drop pre) rec rec1 := by
  obtain ⟨toks, hall, hsplit, hc⟩ := term_tokens code _ hterm
  have hparse := parseBigs_canonical toks hall
  have hassign := assignFields_term_eq rec code line hcode
  rw [hsplit, hparse] at hassign
  simp only at hassign
  have hAll := termsAllCommas_values toks hall
  have hBare := termsLastBare_values toks hall
  simp only [termCodes, String.toList, List.mem_cons, List.mem_singleton, List.not_mem_nil,
    or_false] at hcode
  rcases hcode with rfl | rfl | rfl
  all_goals
    refine ⟨_, hassign, ?_⟩
    rcases hc with ⟨hU, hcont⟩ | ⟨hU, hcont⟩
    all_goals first
      | exact absurd hU (by decide)
      | exact absurd rfl hU
      | skip
    constructor
    all_goals first
      | rfl
      | (intro h; exact absurd h (by decide))
      | (intro _; exact ⟨rfl, rfl⟩)
      | (intro _; rfl)
      | (intro field h; cases field <;> first | rfl | exact absurd h (by decide))
      | (intro _; exact ⟨_, rfl, rfl, by rw [hcont]; first | exact hAll | exact hBare⟩)

theorem canonical_two_tokens (content t1 t2 : Bytes) (h1 : IsCanonicalInteger t1)
    (h2 : IsCanonicalInteger t2) (hc : content = t1 ++ ',' :: t2) :
    Split content ',' = [t1, t2] :=
  (two_tokens_iff content t1 t2 (canonical_no_comma t1 h1) (canonical_no_comma t2 h2)).mpr hc

theorem effect_offset (rec : SequenceRecord) (line : Bytes)
    (hoff : IsOffsetContent (line.drop pre)) :
    ∃ rec1, assignFields rec 'O' line = (rec1, none) ∧
      LineEffect 'O' ((line.drop 3).take (pre - 1 - 3)) (line.drop pre) rec rec1 := by
  obtain ⟨t1, t2, h1, h2, hc⟩ := hoff
  have hsplit := canonical_two_tokens _ t1 t2 h1 h2 hc
  have hassign := offset_assign_ok rec line t1 t2 hsplit (isBase10Integer_of_canonical t1 h1)
    (isBase10Integer_of_canonical t2 h2)
  refine ⟨_, hassign, ?_⟩
  constructor
  all_goals first
    | rfl
    | (intro h; exact absurd h (by decide))
    | (intro _; exact ⟨rfl, rfl⟩)
    | (intro _; rfl)
    | (intro field h; cases field <;> first | rfl | exact absurd h (by decide))
    | (intro _
       show bigString (integerValue t1) ++ ',' :: bigString (integerValue t2) = _
       rw [bigString_integerValue t1 h1, bigString_integerValue t2 h2, hc])

theorem assignFields_K (rec : SequenceRecord) (line : Bytes) :
    assignFields rec 'K' line =
      match parseKeywords (Split (line.drop pre) ',') with
      | .error value => (rec, some (.invalidKeyword value))
      | .ok keywords => ({ rec with Keywords := rec.Keywords ++ keywords }, none) := rfl

theorem effect_keywords (rec : SequenceRecord) (line : Bytes)
    (hkw : IsKeywordContent (line.drop pre)) :
    ∃ rec1, assignFields rec 'K' line = (rec1, none) ∧
      LineEffect 'K' ((line.drop 3).take (pre - 1 - 3)) (line.drop pre) rec rec1 := by
  obtain ⟨ks, hne, hc⟩ := hkw
  have hsplit : Split (line.drop pre) ',' = ks.map Keyword.String := by
    rw [hc]
    apply Split_intercalate_tokens
    · simpa using hne
    · intro t ht
      obtain ⟨k, _, rfl⟩ := List.mem_map.mp ht
      exact Keyword_String_no_comma k
  have hassign := assignFields_K rec line
  rw [hsplit, parseKeywords_names] at hassign
  simp only at hassign
  refine ⟨_, hassign, ?_⟩
  constructor
  all_goals first
    | rfl
    | (intro h; exact absurd h (by decide))
    | (intro _; exact ⟨rfl, rfl⟩)
    | (intro _; rfl)
    | (intro field h; cases field <;> first | rfl | exact absurd h (by decide))
    | (intro _; exact ⟨ks, rfl, hc.symm⟩)

/-- Every well-formed line is assigned without error, with the effect of its
code. -/
theorem assignFields_effect (rec : SequenceRecord) (code : Char) (line : Bytes)
    (hcode : code ∈ fieldCodes)
    (hterm : code ∈ termCodes → IsTermContent code (line.drop pre))
    (hoff : code = 'O' → IsOffsetContent (line.drop pre))
    (hkw : code = 'K' → IsKeywordContent (line.drop pre)) :
    ∃ rec1, assignFields rec code line = (rec1, none) ∧
      LineEffect code ((line.drop 3).take (pre - 1 - 3)) (line.drop pre) rec rec1 := by
  simp only [fieldCodes, String.toList, List.mem_cons, List.mem_singleton, List.not_mem_nil,
    or_false] at hcode
  rcases hcode with rfl | rfl | rfl | rfl | rfl | rfl | rfl | rfl | rfl | rfl | rfl | rfl | rfl
    | rfl | rfl | rfl | rfl | rfl
  all_goals first
    | exact effect_simple rec _ line (by decide)
    | exact effect_term rec _ line (by decide) (hterm (by decide))
    | exact effect_offset rec line (hoff rfl)
    | exact effect_keywords rec line (hkw rfl)

/-! ## Theorems: the record parsed from well-formed lines -/

theorem processLine_layout (rec : SequenceRecord) (line : Bytes) (h : HasLayout line) :
    processLine rec line =
      match assignFields rec (lineCode line) line with
      | (rec1, some err) => (rec1, some err)
      | (rec1, none) => (bookkeeping rec1 (lineCode line), none) := by
  obtain ⟨_, hlen, h0, h2, h10⟩ := h
  have hs : skipped line = false := by
    simp [skipped, pre, h0]
    omega
  simp only [processLine, hs, h2, h10, Bool.false_eq_true, if_false, ne_eq, not_true_eq_false,
    or_self, lineCode]

theorem bookkeeping_load (field : StringListRef) (rec : SequenceRecord) (code : Char) :
    field.load (bookkeeping rec code) = field.load rec := by
  cases field <;> rfl

theorem bookkeeping_order (rec : SequenceRecord) (codes : List Char) (d : Char)
    (h : rec.FieldOrder = runs codes) :
    (bookkeeping rec d).FieldOrder = runs (codes ++ [d]) := by
  rw [runs_append_singleton]
  simp only [bookkeeping, h]
  by_cases h0 : (runs codes).length = 0
  · have hnil : runs codes = [] := List.length_eq_zero.mp h0
    have hc : codes = [] := (runs_eq_nil codes).mp hnil
    simp [hc, runs]
  · simp only [h0, if_false, runs_getLast, ne_eq]
    by_cases hl : codes.getLast? = some d
    · simp [hl]
    · simp [hl]

theorem single_step (c d : Char) (ls : List Bytes) (l : Bytes) (P Q : Bytes → Prop)
    (hold : ∀ x ∈ ls, lineCode x = c → P x)
    (hkeep : d ≠ c → ∀ x, P x → Q x)
    (hnew : d = c → Q l)
    (hfresh : d = c → c ∉ ls.map lineCode)
    (hd : lineCode l = d) :
    ∀ x ∈ ls ++ [l], lineCode x = c → Q x := by
  intro x hx hc
  rcases List.mem_append.mp hx with h | h
  · by_cases hdc : d = c
    · exact absurd (List.mem_map.mpr ⟨x, h, hc⟩) (hfresh hdc)
    · exact hkeep hdc x (hold x h hc)
  · rw [List.mem_singleton] at h
    subst h
    exact hnew (hd.symm.trans hc)

theorem fresh_of_not_annotation (codes : List Char) (d : Char) (h : StepOK codes d)
    (hd : d ∉ annotationCodes) : d ∉ codes := by
  rcases h.fresh with h1 | h1
  · exact h1
  · exact absurd h1.1 hd

theorem not_mem_append_code (codes : List Char) (c d : Char) (h : d ≠ c) :
    c ∉ codes ++ [d] ↔ c ∉ codes := by
  simp only [List.mem_append, List.mem_singleton, not_or]
  constructor
  · exact fun h1 => h1.1
  · exact fun h1 => ⟨h1, fun e => h e.symm⟩

theorem GetStringListField_inj (c d : Char) (field : StringListRef)
    (hc : GetStringListField c = some field) (hd : GetStringListField d = some field) :
    c = d := by
  have key : ∀ x f, GetStringListField x = some f →
      x = (match f with
        | .DetailedReferences => 'D'
        | .Links => 'H'
        | .Formulae => 'F'
        | .CrossReferences => 'Y'
        | .Errata => 'E'
        | .Examples => 'e'
        | .MapleProgram => 'p'
        | .MathematicaProgram => 't'
        | .OtherProgram => 'o'
        | .Comments => 'C') := by
    intro x f hx
    unfold GetStringListField at hx
    split at hx <;> first | (cases hx; rfl) | exact absurd hx (by simp)
  rw [key c field hc, key d field hd]

theorem terms_step (ls : List Bytes) (l : Bytes) (rec rec1 : SequenceRecord) (identity : Bytes)
    (inv : ParsedFrom identity ls rec)
    (eff : LineEffect (lineCode l) identity (lineContent l) rec rec1)
    (ok : StepOK (ls.map lineCode) (lineCode l)) :
    ∃ sS sT sU : List Int, rec1.Sequence = sS ++ sT ++ sU ∧
      rec1.STUCounts = { c0 := (sS.length : Int), c1 := (sT.length : Int),
                         c2 := (sU.length : Int) } ∧
      ('S' ∉ (ls ++ [l]).map lineCode → sS = []) ∧
      ('T' ∉ (ls ++ [l]).map lineCode → sT = []) ∧
      ('U' ∉ (ls ++ [l]).map lineCode → sU = []) ∧
      (∀ x ∈ ls ++ [l], lineCode x = 'S' → termsAllCommas sS = lineContent x) ∧
      (∀ x ∈ ls ++ [l], lineCode x = 'T' → termsAllCommas sT = lineContent x) ∧
      (∀ x ∈ ls ++ [l], lineCode x = 'U' → termsLastBare sU = lineContent x) := by
  obtain ⟨sS, sT, sU, hseq, hcnt, hS0, hT0, hU0, hSl, hTl, hUl⟩ := inv.terms
  have hmap : (ls ++ [l]).map lineCode = ls.map lineCode ++ [lineCode l] := by simp
  rw [hmap]
  have hmem : ∀ c x, x ∈ ls → lineCode x = c → c ∈ ls.map lineCode :=
    fun c x hx hc => List.mem_map.mpr ⟨x, hx, hc⟩
  by_cases dS : lineCode l = 'S'
  · have fS : 'S' ∉ ls.map lineCode := by
      have := fresh_of_not_annotation _ _ ok (by rw [dS]; decide)
      rwa [dS] at this
    obtain ⟨fT, fU⟩ := ok.beforeT dS
    obtain ⟨bigs, hb1, hb2, hb3⟩ := eff.isS dS
    have eS := hS0 fS
    have eT := hT0 fT
    have eU := hU0 fU
    subst eS eT eU
    refine ⟨bigs, [], [], by rw [hb1, hseq]; simp, by rw [hb2, hcnt], ?_, fun _ => rfl,
      fun _ => rfl, ?_, ?_, ?_⟩
    · intro h
      exact absurd (by simp [dS]) h
    · exact single_step 'S' _ ls l _ _ hSl (fun h => absurd dS h) (fun _ => hb3)
        (fun _ => fS) rfl
    · intro x hx hc
      rcases List.mem_append.mp hx with h | h
      · exact absurd (hmem _ x h hc) fT
      · rw [List.mem_singleton] at h
        subst h
        rw [dS] at hc
        exact absurd hc (by decide)
    · intro x hx hc
      rcases List.mem_append.mp hx with h | h
      · exact absurd (hmem _ x h hc) fU
      · rw [List.mem_singleton] at h
        subst h
        rw [dS] at hc
        exact absurd hc (by decide)
  by_cases dT : lineCode l = 'T'
  · have fT : 'T' ∉ ls.map lineCode := by
      have := fresh_of_not_annotation _ _ ok (by rw [dT]; decide)
      rwa [dT] at this
    have fU := ok.beforeU dT
    obtain ⟨bigs, hb1, hb2, hb3⟩ := eff.isT dT
    have eT := hT0 fT
    have eU := hU0 fU
    subst eT eU
    refine ⟨sS, bigs, [], by rw [hb1, hseq]; simp, by rw [hb2, hcnt], ?_, ?_,
      fun _ => rfl, ?_, ?_, ?_⟩
    · intro h
      exact hS0 ((not_mem_append_code _ 'S' _ dS).mp h)
    · intro h
      exact absurd (by simp [dT]) h
    · exact single_step 'S' _ ls l _ _ hSl (fun _ x hx => hx) (fun h => absurd h dS)
        (fun h => absurd h dS) rfl
    · exact single_step 'T' _ ls l _ _ hTl (fun h => absurd dT h) (fun _ => hb3)
        (fun _ => fT) rfl
    · intro x hx hc
      rcases List.mem_append.mp hx with h | h
      · exact absurd (hmem _ x h hc) fU
      · rw [List.mem_singleton] at h
        subst h
        rw [dT] at hc
        exact absurd hc (by decide)
  by_cases dU : lineCode l = 'U'
  · have fU : 'U' ∉ ls.map lineCode := by
      have := fresh_of_not_annotation _ _ ok (by rw [dU]; decide)
      rwa [dU] at this
    obtain ⟨bigs, hb1, hb2, hb3⟩ := eff.isU dU
    have eU := hU0 fU
    subst eU
    refine ⟨sS, sT, bigs, by rw [hb1, hseq]; simp, by rw [hb2, hcnt], ?_, ?_, ?_, ?_, ?_, ?_⟩
    · intro h
      exact hS0 ((not_mem_append_code _ 'S' _ dS).mp h)
    · intro h
      exact hT0 ((not_mem_append_code _ 'T' _ dT).mp h)
    · intro h
      exact absurd (by simp [dU]) h
    · exact single_step 'S' _ ls l _ _ hSl (fun _ x hx => hx) (fun h => absurd h dS)
        (fun h => absurd h dS) rfl
    · exact single_step 'T' _ ls l _ _ hTl (fun _ x hx => hx) (fun h => absurd h dT)
        (fun h => absurd h dT) rfl
    · exact single_step 'U' _ ls l _ _ hUl (fun h => absurd dU h) (fun _ => hb3)
        (fun _ => fU) rfl
  · have hnt : lineCode l ∉ termCodes := by
      simp only [termCodes, String.toList, List.mem_cons, List.mem_singleton, List.not_mem_nil,
        or_false, not_or]
      exact ⟨dS, dT, dU⟩
    obtain ⟨h1, h2⟩ := eff.notTerm hnt
    refine ⟨sS, sT, sU, by rw [h1, hseq], by rw [h2, hcnt], ?_, ?_, ?_, ?_, ?_, ?_⟩
    · intro h
      exact hS0 ((not_mem_append_code _ 'S' _ dS).mp h)
    · intro h
      exact hT0 ((not_mem_append_code _ 'T' _ dT).mp h)
    · intro h
      exact hU0 ((not_mem_append_code _ 'U' _ dU).mp h)
    · exact single_step 'S' _ ls l _ _ hSl (fun _ x hx => hx) (fun h => absurd h dS)
        (fun h => absurd h dS) rfl
    · exact single_step 'T' _ ls l _ _ hTl (fun _ x hx => hx) (fun h => absurd h dT)
        (fun h => absurd h dT) rfl
    · exact single_step 'U' _ ls l _ _ hUl (fun _ x hx => hx) (fun h => absurd h dU)
        (fun h => absurd h dU) rfl

theorem parsedFrom_step (identity : Bytes) (ls : List Bytes) (l : Bytes)
    (rec rec1 : SequenceRecord) (inv : ParsedFrom identity ls rec)
    (eff : LineEffect (lineCode l) identity (lineContent l) rec rec1)
    (ok : StepOK (ls.map lineCode) (lineCode l)) :
    ParsedFrom identity (ls ++ [l]) (bookkeeping rec1 (lineCode l)) := by
  have hfresh : ∀ c : Char, c ∉ annotationCodes → lineCode l = c → c ∉ ls.map lineCode := by
    intro c hc h
    have := fresh_of_not_annotation _ _ ok (by rw [h]; exact hc)
    rwa [h] at this
  constructor
  · rw [List.map_append, List.map_singleton]
    exact bookkeeping_order rec1 _ _ (eff.order.trans inv.order)
  · refine single_step 'I' _ ls l _ _ inv.ident ?_ (fun h => eff.isI h)
      (hfresh 'I' (by decide)) rfl
    intro h x hp
    obtain ⟨h1, h2⟩ := eff.notI h
    show rec1.Identity = identity ∧ rec1.IdentityPlus = lineContent x
    rw [h1, h2]
    exact hp
  · refine single_step 'N' _ ls l _ _ inv.name ?_ (fun h => eff.isN h)
      (hfresh 'N' (by decide)) rfl
    intro h x hp
    show rec1.Name = lineContent x
    rw [eff.notN h]
    exact hp
  · refine single_step 'A' _ ls l _ _ inv.author ?_ (fun h => eff.isA h)
      (hfresh 'A' (by decide)) rfl
    intro h x hp
    show rec1.Author = lineContent x
    rw [eff.notA h]
    exact hp
  · refine single_step 'O' _ ls l _ _ inv.offset ?_ (fun h => eff.isO h)
      (hfresh 'O' (by decide)) rfl
    intro h x hp
    show bigString rec1.Offset.InitialValue ++ ',' :: bigString rec1.Offset.FirstGreaterThanOne
      = lineContent x
    rw [eff.notO h]
    exact hp
  · intro h
    have hmap : (ls ++ [l]).map lineCode = ls.map lineCode ++ [lineCode l] := by simp
    rw [hmap] at h
    have hd : lineCode l ≠ 'K' := fun e => h (by simp [e])
    show rec1.Keywords = []
    rw [eff.notK hd]
    exact inv.noKeywords ((not_mem_append_code _ 'K' _ hd).mp h)
  · refine single_step 'K' _ ls l _ _ inv.keywords ?_ ?_ (hfresh 'K' (by decide)) rfl
    · intro h x hp
      show List.intercalate [','] (rec1.Keywords.map Keyword.String) = lineContent x
      rw [eff.notK h]
      exact hp
    · intro h
      obtain ⟨ks, hk1, hk2⟩ := eff.isK h
      show List.intercalate [','] (rec1.Keywords.map Keyword.String) = lineContent l
      rw [hk1, inv.noKeywords (hfresh 'K' (by decide) h), List.nil_append]
      exact hk2
  · intro code field hf
    rw [bookkeeping_load, List.filter_append, List.map_append]
    by_cases hd : GetStringListField (lineCode l) = some field
    · have hcd : code = lineCode l := GetStringListField_inj _ _ field hf hd
      rw [eff.isField field hd, inv.fields code field hf]
      simp [hcd]
    · have hcd : lineCode l ≠ code := by
        intro e
        rw [e] at hd
        exact hd hf
      rw [eff.notField field hd, inv.fields code field hf]
      simp [hcd]
  · exact terms_step ls l rec rec1 identity inv eff ok

theorem parsedFrom_zero (identity : Bytes) : ParsedFrom identity [] .zero := by
  constructor
  · rfl
  · intro l hl; simp at hl
  · intro l hl; simp at hl
  · intro l hl; simp at hl
  · intro l hl; simp at hl
  · intro _; rfl
  · intro l hl; simp at hl
  · intro code field _
    cases field <;> rfl
  · exact ⟨[], [], [], rfl, rfl, fun _ => rfl, fun _ => rfl, fun _ => rfl,
      by intro l hl; simp at hl, by intro l hl; simp at hl, by intro l hl; simp at hl⟩

/-! ## Theorems: the order of the line codes -/

theorem codesOK_of_wellFormed (identity : Bytes) (lines : List Bytes)
    (h : WellFormedRecord identity lines) : CodesOK (lines.map lineCode) := by
  obtain ⟨hl, hI, hsingle, hrun, hord⟩ := h
  constructor
  · intro c hc
    obtain ⟨l, hl1, rfl⟩ := List.mem_map.mp hc
    exact (hl l hl1).2.1
  · intro c hc
    simp only [plainCodes, String.toList, List.mem_cons, List.mem_singleton, List.not_mem_nil,
      or_false] at hc
    rcases hc with rfl | rfl | rfl | rfl | rfl | rfl | rfl | rfl
    · exact le_of_eq hI
    all_goals exact hsingle _ (by decide)
  · exact hrun
  · exact hord

theorem runs_prefix (cs : List Char) (d : Char) : ∃ t, runs (cs ++ [d]) = runs cs ++ t := by
  rw [runs_append_singleton]
  by_cases h : cs.getLast? = some d
  · exact ⟨[], by simp [h]⟩
  · exact ⟨[d], by simp [h]⟩

theorem codesOK_init (cs : List Char) (d : Char) (h : CodesOK (cs ++ [d])) : CodesOK cs := by
  constructor
  · intro c hc
    exact h.known c (by simp [hc])
  · intro c hc
    have := h.plain c hc
    rw [List.count_append] at this
    omega
  · intro c hc
    have := h.oneRun c hc
    obtain ⟨t, ht⟩ := runs_prefix cs d
    rw [ht, List.count_append] at this
    omega
  · have := h.termOrder
    rw [List.filter_append] at this
    exact (List.sublist_append_left _ _).trans this

theorem codes_split (d : Char) (h : d ∈ fieldCodes) : d ∈ plainCodes ∨ d ∈ annotationCodes := by
  simp only [fieldCodes, plainCodes, annotationCodes, String.toList, List.mem_cons,
    List.mem_singleton, List.not_mem_nil, or_false] at h ⊢
  tauto

theorem term_order_excludes (cs : List Char) (d e : Char) (hd : d ∈ termCodes)
    (he : e ∈ termCodes) (hno : ¬ List.Sublist [e, d] termCodes)
    (h : List.Sublist ((cs ++ [d]).filter (fun c => decide (c ∈ termCodes))) termCodes) :
    e ∉ cs := by
  intro hmem
  apply hno
  have h1 : e ∈ cs.filter (fun c => decide (c ∈ termCodes)) :=
    List.mem_filter.mpr ⟨hmem, by simpa using he⟩
  have h2 : List.Sublist [e] (cs.filter (fun c => decide (c ∈ termCodes))) :=
    List.singleton_sublist.mpr h1
  have h3 : (cs ++ [d]).filter (fun c => decide (c ∈ termCodes))
      = cs.filter (fun c => decide (c ∈ termCodes)) ++ [d] := by
    rw [List.filter_append]
    simp [hd]
  rw [h3] at h
  exact (List.Sublist.append h2 (List.Sublist.refl [d])).trans h

theorem stepOK_of_codesOK (cs : List Char) (d : Char) (h : CodesOK (cs ++ [d])) :
    StepOK cs d := by
  have hd : d ∈ fieldCodes := h.known d (by simp)
  constructor
  · rcases codes_split d hd with hp | ha
    · left
      have := h.plain d hp
      rw [List.count_append] at this
      simp only [List.count_singleton_self] at this
      exact List.count_eq_zero.mp (by omega)
    · by_cases hl : cs.getLast? = some d
      · exact Or.inr ⟨ha, hl⟩
      · left
        have := h.oneRun d ha
        rw [runs_append_singleton] at this
        simp only [hl, if_false, List.count_append, List.count_singleton_self] at this
        have h0 : d ∉ runs cs := List.count_eq_zero.mp (by omega)
        exact fun hm => h0 ((mem_runs cs d).mpr hm)
  · rintro rfl
    exact ⟨term_order_excludes cs 'S' 'T' (by decide) (by decide) (by decide) h.termOrder,
      term_order_excludes cs 'S' 'U' (by decide) (by decide) (by decide) h.termOrder⟩
  · rintro rfl
    exact term_order_excludes cs 'T' 'U' (by decide) (by decide) (by decide) h.termOrder

theorem unmarshalLines_append (rec : SequenceRecord) (a b : List Bytes) :
    unmarshalLines rec (a ++ b) =
      match unmarshalLines rec a with
      | (rec1, some err) => (rec1, some err)
      | (rec1, none) => unmarshalLines rec1 b := by
  induction a generalizing rec with
  | nil => rfl
  | cons l rest ih =>
    simp only [List.cons_append, unmarshalLines]
    rcases h : processLine rec l with ⟨rec1, _ | err⟩
    · exact ih rec1
    · rfl

/-- Parsing well-formed lines succeeds and yields the record described field
by field. -/
theorem unmarshalLines_wellFormed (identity : Bytes) :
    ∀ lines : List Bytes, (∀ l ∈ lines, WellFormedLine identity l) →
      CodesOK (lines.map lineCode) →
      ∃ rec, unmarshalLines .zero lines = (rec, none) ∧ ParsedFrom identity lines rec := by
  intro lines
  induction lines using List.reverseRecOn with
  | nil => intro _ _; exact ⟨.zero, rfl, parsedFrom_zero identity⟩
  | append_singleton ls l ih =>
    intro hwf hcodes
    have hmap : (ls ++ [l]).map lineCode = ls.map lineCode ++ [lineCode l] := by simp
    rw [hmap] at hcodes
    obtain ⟨rec, hrec, inv⟩ := ih (fun x hx => hwf x (by simp [hx])) (codesOK_init _ _ hcodes)
    obtain ⟨hlay, hcode, hid, hterm, hoff, hkw⟩ := hwf l (by simp)
    obtain ⟨rec1, hassign, eff⟩ := assignFields_effect rec (lineCode l) l hcode hterm hoff hkw
    have eff2 : LineEffect (lineCode l) identity (lineContent l) rec rec1 := by
      rw [← hid]
      exact eff
    refine ⟨bookkeeping rec1 (lineCode l), ?_,
      parsedFrom_step identity ls l rec rec1 inv eff2 (stepOK_of_codesOK _ _ hcodes)⟩
    rw [unmarshalLines_append, hrec]
    simp only [unmarshalLines_single]
    rw [processLine_layout rec l hlay, hassign]

/-! ## Theorems: the round trip -/

theorem wellFormedLine_eq (identity l : Bytes) (h : WellFormedLine identity l) :
    l = mkLine (lineCode l) identity (lineContent l) ∧ lineContent l ≠ [] := by
  obtain ⟨⟨_, hlen, h0, h2, h10⟩, _, hid, _⟩ := h
  obtain ⟨h1, _, h3⟩ := eq_mkLine l hlen h0 h2 h10
  rw [← hid]
  exact ⟨h1, h3⟩

theorem filter_none (lines : List Bytes) (c : Char) (h : c ∉ lines.map lineCode) :
    lines.filter (fun l => decide (lineCode l = c)) = [] := by
  rw [List.filter_eq_nil_iff]
  intro l hl
  simp only [decide_eq_true_eq]
  intro e
  exact h (List.mem_map.mpr ⟨l, hl, e⟩)

theorem filter_unique (c : Char) :
    ∀ (lines : List Bytes) (l : Bytes), (lines.map lineCode).count c ≤ 1 → l ∈ lines →
      lineCode l = c → lines.filter (fun x => decide (lineCode x = c)) = [l] := by
  intro lines
  induction lines with
  | nil => intro l _ hl; simp at hl
  | cons x rest ih =>
    intro l hcount hl hc
    rw [List.map_cons, List.count_cons] at hcount
    by_cases hx : lineCode x = c
    · have h0 : (rest.map lineCode).count c = 0 := by
        simp only [hx, beq_self_eq_true, if_true] at hcount
        omega
      have hnot : c ∉ rest.map lineCode := List.count_eq_zero.mp h0
      have hlx : l = x := by
        rcases List.mem_cons.mp hl with e | hin
        · exact e
        · exact absurd (List.mem_map.mpr ⟨l, hin, hc⟩) hnot
      rw [List.filter_cons, filter_none rest c hnot, hlx]
      simp [hx]
    · have hin : l ∈ rest := by
        rcases List.mem_cons.mp hl with e | hin
        · rw [e] at hc
          exact absurd hc hx
        · exact hin
      have hcount2 : (rest.map lineCode).count c ≤ 1 := by
        have hne : ¬ (lineCode x == c) = true := by simpa using hx
        simp only [hne, if_false] at hcount
        omega
      rw [List.filter_cons, ih l hcount2 hin hc]
      simp [hx]

theorem fieldLoop_eq (code : Char) (identity : Bytes) :
    ∀ xs : List Bytes, (∀ x ∈ xs, x = mkLine code identity (lineContent x)) →
      fieldLoop code identity (xs.map lineContent) = joinLines xs := by
  intro xs
  induction xs with
  | nil => intro _; rfl
  | cons x rest ih =>
    intro h
    have hx := h x (by simp)
    have hrest := ih (fun y hy => h y (List.mem_cons_of_mem _ hy))
    simp only [List.map_cons, fieldLoop, joinLines, List.flatMap_cons] at hrest ⊢
    rw [hrest]
    conv_rhs => rw [hx]
    simp [mkLine]

theorem chunk_I (rec : SequenceRecord) (h : rec.IdentityPlus ≠ []) :
    chunkOf rec 'I' = mkLine 'I' rec.Identity rec.IdentityPlus ++ ['\n'] := by
  have e : chunkOf rec 'I' = "%I ".toList ++ rec.Identity
      ++ (if rec.IdentityPlus ≠ [] then ' ' :: rec.IdentityPlus else []) ++ ['\n'] := rfl
  rw [e]
  simp [h, mkLine]

theorem chunk_N (rec : SequenceRecord) :
    chunkOf rec 'N' = mkLine 'N' rec.Identity rec.Name ++ ['\n'] := by
  have e : chunkOf rec 'N' = "%N ".toList ++ rec.Identity ++ ' ' :: rec.Name ++ ['\n'] := rfl
  rw [e]
  simp [mkLine]

theorem chunk_A (rec : SequenceRecord) :
    chunkOf rec 'A' = mkLine 'A' rec.Identity rec.Author ++ ['\n'] := by
  have e : chunkOf rec 'A' = "%A ".toList ++ rec.Identity ++ ' ' :: rec.Author ++ ['\n'] := rfl
  rw [e]
  simp [mkLine]

theorem chunk_O (rec : SequenceRecord) :
    chunkOf rec 'O' = mkLine 'O' rec.Identity
      (bigString rec.Offset.InitialValue ++ ',' :: bigString rec.Offset.FirstGreaterThanOne)
      ++ ['\n'] := by
  have e : chunkOf rec 'O' = "%O ".toList ++ rec.Identity
      ++ ' ' :: bigString rec.Offset.InitialValue
      ++ ',' :: bigString rec.Offset.FirstGreaterThanOne ++ ['\n'] := rfl
  rw [e]
  simp [mkLine]

theorem chunk_K (rec : SequenceRecord) :
    chunkOf rec 'K' = mkLine 'K' rec.Identity (KeywordsString rec) ++ ['\n'] := by
  have e : chunkOf rec 'K' = "%K ".toList ++ rec.Identity ++ ' ' :: KeywordsString rec
      ++ ['\n'] := rfl
  rw [e]
  simp [mkLine]

theorem chunk_field (rec : SequenceRecord) (code : Char) (field : StringListRef)
    (h : GetStringListField code = some field) :
    chunkOf rec code = fieldLoop code rec.Identity (field.load rec) := by
  unfold GetStringListField at h
  split at h <;> first | (cases h; rfl) | exact absurd h (by simp)

theorem flatMap_congr_mem {α β : Type} (f g : α → List β) :
    ∀ xs : List α, (∀ x ∈ xs, f x = g x) → xs.flatMap f = xs.flatMap g := by
  intro xs
  induction xs with
  | nil => intro _; rfl
  | cons x rest ih =>
    intro h
    rw [List.flatMap_cons, List.flatMap_cons, h x (by simp),
      ih (fun y hy => h y (List.mem_cons_of_mem _ hy))]

theorem filter_cons_other (l : Bytes) (rest : List Bytes) (c : Char) (h : lineCode l ≠ c) :
    (l :: rest).filter (fun x => decide (lineCode x = c))
      = rest.filter (fun x => decide (lineCode x = c)) := by
  rw [List.filter_cons]
  simp [h]

theorem filter_cons_same (l : Bytes) (rest : List Bytes) :
    (l :: rest).filter (fun x => decide (lineCode x = lineCode l))
      = l :: rest.filter (fun x => decide (lineCode x = lineCode l)) := by
  rw [List.filter_cons]
  simp

/-- Writing, for every run of codes in turn, all the lines that carry the
code of the run gives back the lines, when no code has two runs. -/
theorem runs_flatMap_filter :
    ∀ lines : List Bytes, (runs (lines.map lineCode)).Nodup →
      (runs (lines.map lineCode)).flatMap
          (fun c => joinLines (lines.filter (fun l => decide (lineCode l = c))))
        = joinLines lines := by
  intro lines
  induction lines with
  | nil => intro _; rfl
  | cons l rest ih =>
    intro hnd
    rw [List.map_cons, runs_cons] at hnd ⊢
    have hjoin : joinLines (l :: rest) = (l ++ ['\n']) ++ joinLines rest := by
      simp [joinLines]
    by_cases h : (rest.map lineCode).head? = some (lineCode l)
    · simp only [h, if_true] at hnd ⊢
      have hhead := runs_head (rest.map lineCode)
      rw [h] at hhead
      rcases hR : runs (rest.map lineCode) with _ | ⟨c0, R⟩
      · rw [hR] at hhead
        simp at hhead
      · rw [hR] at hhead hnd
        simp only [List.head?_cons, Option.some.injEq] at hhead
        subst hhead
        have ih2 := ih (by rw [hR]; exact hnd)
        rw [hR] at ih2
        rw [List.flatMap_cons] at ih2 ⊢
        have hother : ∀ c ∈ R, joinLines ((l :: rest).filter (fun x => decide (lineCode x = c)))
            = joinLines (rest.filter (fun x => decide (lineCode x = c))) := by
          intro c hc
          have hne : lineCode l ≠ c := by
            rintro rfl
            exact (List.nodup_cons.mp hnd).1 hc
          rw [filter_cons_other l rest c hne]
        rw [flatMap_congr_mem _ _ R hother, filter_cons_same, hjoin, ← ih2]
        simp [joinLines]
    · simp only [h, if_false] at hnd ⊢
      have hnotin : lineCode l ∉ rest.map lineCode := by
        intro hm
        exact (List.nodup_cons.mp hnd).1 ((mem_runs _ _).mpr hm)
      have hother : ∀ c ∈ runs (rest.map lineCode),
          joinLines ((l :: rest).filter (fun x => decide (lineCode x = c)))
            = joinLines (rest.filter (fun x => decide (lineCode x = c))) := by
        intro c hc
        have hne : lineCode l ≠ c := by
          rintro rfl
          exact (List.nodup_cons.mp hnd).1 hc
        rw [filter_cons_other l rest c hne]
      rw [List.flatMap_cons, flatMap_congr_mem _ _ _ hother, ih (List.nodup_cons.mp hnd).2,
        filter_cons_same, filter_none rest _ hnotin, hjoin]
      simp [joinLines]

theorem nodup_runs (codes : List Char) (h : CodesOK codes) : (runs codes).Nodup := by
  rw [List.nodup_iff_count_le_one]
  intro c
  by_cases hc : c ∈ codes
  · rcases codes_split c (h.known c hc) with hp | ha
    · exact ((runs_sublist codes).count_le c).trans (h.plain c hp)
    · exact h.oneRun c ha
  · have : c ∉ runs codes := fun hm => hc ((mem_runs codes c).mp hm)
    rw [List.count_eq_zero.mpr this]
    omega

theorem GetStringListField_annotation (c : Char) (h : c ∈ annotationCodes) :
    ∃ field, GetStringListField c = some field := by
  simp only [annotationCodes, String.toList, List.mem_cons, List.mem_singleton,
    List.not_mem_nil, or_false] at h
  rcases h with rfl | rfl | rfl | rfl | rfl | rfl | rfl | rfl | rfl | rfl <;> exact ⟨_, rfl⟩

theorem parsedFrom_countsInRange (identity : Bytes) (lines : List Bytes) (rec : SequenceRecord)
    (inv : ParsedFrom identity lines rec) : CountsInRange rec := by
  obtain ⟨sS, sT, sU, hseq, hcnt, _⟩ := inv.terms
  simp only [CountsInRange, hcnt, hseq, List.length_append]
  omega

theorem chunk_terms (identity : Bytes) (lines : List Bytes) (rec : SequenceRecord)
    (inv : ParsedFrom identity lines rec) :
    ∃ sS sT sU : List Int,
      chunkOf rec 'S' = mkLine 'S' rec.Identity (termsAllCommas sS) ++ ['\n'] ∧
      chunkOf rec 'T' = mkLine 'T' rec.Identity (termsAllCommas sT) ++ ['\n'] ∧
      chunkOf rec 'U' = mkLine 'U' rec.Identity (termsLastBare sU) ++ ['\n'] ∧
      (∀ l ∈ lines, lineCode l = 'S' → termsAllCommas sS = lineContent l) ∧
      (∀ l ∈ lines, lineCode l = 'T' → termsAllCommas sT = lineContent l) ∧
      (∀ l ∈ lines, lineCode l = 'U' → termsLastBare sU = lineContent l) := by
  obtain ⟨sS, sT, sU, hseq, hcnt, _, _, _, hSl, hTl, hUl⟩ := inv.terms
  obtain ⟨e1, e2, e3⟩ := emitCode_terms rec sS.length sT.length sU.length hcnt
    (by rw [hseq]; simp only [List.length_append]; omega)
  refine ⟨sS, sT, sU, ?_, ?_, ?_, hSl, hTl, hUl⟩
  · simp only [chunkOf, e1, hseq, List.append_assoc, List.take_left']
  · simp only [chunkOf, e2, hseq, List.append_assoc, List.drop_left', List.take_left']
  · have hd : (sS ++ sT ++ sU).drop (sS.length + sT.length) = sU := by
      rw [← List.length_append]
      exact List.drop_left' rfl
    simp only [chunkOf, e3, hseq, hd, List.take_length]

theorem chunk_lines (identity : Bytes) (lines : List Bytes) (rec : SequenceRecord)
    (inv : ParsedFrom identity lines rec) (hwf : ∀ l ∈ lines, WellFormedLine identity l)
    (hcodes : CodesOK (lines.map lineCode)) (hI : 'I' ∈ lines.map lineCode) :
    ∀ c ∈ lines.map lineCode,
      chunkOf rec c = joinLines (lines.filter (fun l => decide (lineCode l = c))) := by
  have hid : rec.Identity = identity := by
    obtain ⟨l, hl, hc⟩ := List.mem_map.mp hI
    exact (inv.ident l hl hc).1
  intro c hc
  obtain ⟨l, hl, hlc⟩ := List.mem_map.mp hc
  obtain ⟨hleq, hne⟩ := wellFormedLine_eq identity l (hwf l hl)
  have hline : mkLine c identity (lineContent l) = l := by
    rw [← hlc]
    exact hleq.symm
  have hjoin : joinLines [l] = l ++ ['\n'] := by simp [joinLines]
  rcases codes_split c (hcodes.known c hc) with hp | ha
  · rw [filter_unique c lines l (hcodes.plain c hp) hl hlc, hjoin, ← hline]
    obtain ⟨sS, sT, sU, cS, cT, cU, hSl, hTl, hUl⟩ := chunk_terms identity lines rec inv
    simp only [plainCodes, String.toList, List.mem_cons, List.mem_singleton, List.not_mem_nil,
      or_false] at hp
    rcases hp with rfl | rfl | rfl | rfl | rfl | rfl | rfl | rfl
    · have h2 := (inv.ident l hl hlc).2
      rw [chunk_I rec (by rw [h2]; exact hne), hid, h2]
    · rw [chunk_N, hid, inv.name l hl hlc]
    · rw [chunk_A, hid, inv.author l hl hlc]
    · rw [chunk_O, hid, inv.offset l hl hlc]
    · rw [chunk_K, hid, KeywordsString_eq, inv.keywords l hl hlc]
    · rw [cS, hid, hSl l hl hlc]
    · rw [cT, hid, hTl l hl hlc]
    · rw [cU, hid, hUl l hl hlc]
  · obtain ⟨field, hf⟩ := GetStringListField_annotation c ha
    rw [chunk_field rec c field hf, hid, inv.fields c field hf]
    apply fieldLoop_eq
    intro x hx
    obtain ⟨hx1, hx2⟩ := List.mem_filter.mp hx
    have hxc : lineCode x = c := by simpa using hx2
    rw [← hxc]
    exact (wellFormedLine_eq identity x (hwf x hx1)).1

theorem marshal_parsedFrom (identity : Bytes) (lines : List Bytes) (rec : SequenceRecord)
    (inv : ParsedFrom identity lines rec) (hwf : ∀ l ∈ lines, WellFormedLine identity l)
    (hcodes : CodesOK (lines.map lineCode)) (hI : 'I' ∈ lines.map lineCode) :
    MarshalText rec = .ok (joinLines lines) := by
  rw [MarshalText_ok rec (parsedFrom_countsInRange identity lines rec inv), inv.order,
    flatMap_congr_mem _ _ _ (fun c hc =>
      chunk_lines identity lines rec inv hwf hcodes hI c ((mem_runs _ c).mp hc)),
    runs_flatMap_filter lines (nodup_runs _ hcodes)]

theorem Split_joinLines :
    ∀ lines : List Bytes, (∀ l ∈ lines, '\n' ∉ l) →
      Split (joinLines lines) '\n' = lines ++ [[]] := by
  intro lines
  induction lines with
  | nil => intro _; rfl
  | cons l rest ih =>
    intro h
    have e : joinLines (l :: rest) = l ++ '\n' :: joinLines rest := by simp [joinLines]
    rw [e, Split_append_sep _ _ _ (h l (by simp)),
      ih (fun x hx => h x (List.mem_cons_of_mem _ hx))]
    rfl

theorem UnmarshalText_joinLines (rec : SequenceRecord) (lines : List Bytes)
    (h : ∀ l ∈ lines, '\n' ∉ l) :
    UnmarshalText rec (joinLines lines) = unmarshalLines rec lines := by
  rw [UnmarshalText, Split_joinLines lines h, unmarshalLines_append]
  rcases hres : unmarshalLines rec lines with ⟨rec1, _ | err⟩
  · rfl
  · rfl

/-- The round trip on well-formed record text. -/
theorem roundtrip_core (identity : Bytes) (lines : List Bytes)
    (h : WellFormedRecord identity lines) :
    ∃ rec, UnmarshalText .zero (joinLines lines) = (rec, none) ∧
      MarshalText rec = .ok (joinLines lines) := by
  have hcodes := codesOK_of_wellFormed identity lines h
  obtain ⟨hwf, hI, _⟩ := h
  obtain ⟨rec, hrec, inv⟩ := unmarshalLines_wellFormed identity lines hwf hcodes
  have hImem : 'I' ∈ lines.map lineCode := by
    apply List.count_pos_iff.mp
    omega
  refine ⟨rec, ?_, marshal_parsedFrom identity lines rec inv hwf hcodes hImem⟩
  rw [UnmarshalText_joinLines _ _ (fun l hl => (hwf l hl).1.1), hrec]

/-! ### Parsed records can always be serialized -/

theorem assignFields_countsInRange (rec : SequenceRecord) (code : Char) (line : Bytes)
    (h : CountsInRange rec) : CountsInRange (assignFields rec code line).1 := by
  by_cases hterm : code ∈ termCodes
  · rw [assignFields_term_eq rec code line hterm]
    rcases parseBigs (Split (TrimRight (line.drop pre) ',') ',') with v | bigs
    · exact h
    · obtain ⟨h0, h1, h2, hs⟩ := h
      simp only [termCodes, String.toList, List.mem_cons, List.mem_singleton, List.not_mem_nil,
        or_false] at hterm
      rcases hterm with rfl | rfl | rfl
      · show 0 ≤ (bigs.length : Int) ∧ 0 ≤ rec.STUCounts.c1 ∧ 0 ≤ rec.STUCounts.c2 ∧
          (bigs.length : Int) + rec.STUCounts.c1 + rec.STUCounts.c2
            ≤ ((rec.Sequence ++ bigs).length : Int)
        simp only [List.length_append, Nat.cast_add]
        omega
      · show 0 ≤ rec.STUCounts.c0 ∧ 0 ≤ (bigs.length : Int) ∧ 0 ≤ rec.STUCounts.c2 ∧
          rec.STUCounts.c0 + (bigs.length : Int) + rec.STUCounts.c2
            ≤ ((rec.Sequence ++ bigs).length : Int)
        simp only [List.length_append, Nat.cast_add]
        omega
      · show 0 ≤ rec.STUCounts.c0 ∧ 0 ≤ rec.STUCounts.c1 ∧ 0 ≤ (bigs.length : Int) ∧
          rec.STUCounts.c0 + rec.STUCounts.c1 + (bigs.length : Int)
            ≤ ((rec.Sequence ++ bigs).length : Int)
        simp only [List.length_append, Nat.cast_add]
        omega
  · have hkeep : (assignFields rec code line).1.Sequence = rec.Sequence ∧
        (assignFields rec code line).1.STUCounts = rec.STUCounts := by
      simp only [termCodes, String.toList, List.mem_cons, List.mem_singleton,
        List.not_mem_nil, or_false, not_or] at hterm
      unfold assignFields
      split <;> first
        | exact ⟨rfl, rfl⟩
        | exact absurd rfl hterm.1
        | exact absurd rfl hterm.2.1
        | exact absurd rfl hterm.2.2
        | (simp only []; split <;> first
            | exact ⟨rfl, rfl⟩
            | (split <;> first | exact ⟨rfl, rfl⟩ | (split <;> exact ⟨rfl, rfl⟩)))
    simp only [CountsInRange, hkeep.1, hkeep.2]
    exact h

theorem processLine_countsInRange (rec : SequenceRecord) (line : Bytes)
    (h : CountsInRange rec) : CountsInRange (processLine rec line).1 := by
  unfold processLine
  by_cases hs : skipped line = true
  · simp only [hs, if_true]
    exact h
  · simp only [hs, if_false]
    by_cases hsp : byteAt line 2 ≠ ' ' ∨ byteAt line 10 ≠ ' '
    · simp only [hsp, if_true]
      exact h
    · simp only [hsp, if_false]
      have := assignFields_countsInRange rec (byteAt line 1) line h
      rcases hres : assignFields rec (byteAt line 1) line with ⟨rec1, _ | err⟩
      · rw [hres] at this
        exact this
      · rw [hres] at this
        exact this

theorem unmarshalLines_countsInRange :
    ∀ (lines : List Bytes) (rec : SequenceRecord), CountsInRange rec →
      CountsInRange (unmarshalLines rec lines).1 := by
  intro lines
  induction lines with
  | nil => intro rec h; exact h
  | cons l rest ih =>
    intro rec h
    have h1 := processLine_countsInRange rec l h
    rw [unmarshalLines]
    rcases hres : processLine rec l with ⟨rec1, _ | err⟩
    · rw [hres] at h1
      exact ih rec1 h1
    · rw [hres] at h1
      exact h1

theorem countsInRange_zero : CountsInRange .zero := by
  simp [CountsInRange, SequenceRecord.zero]

theorem UnmarshalText_countsInRange (text : Bytes) :
    CountsInRange (UnmarshalText .zero text).1 :=
  unmarshalLines_countsInRange _ _ countsInRange_zero


/-! ### Round trip theorems -/

theorem canonical_of_digits (digits : Bytes) (h1 : digits ≠ [])
    (h2 : ∀ d ∈ digits, d ∈ asciiDigits) (h3 : digits = ['0'] ∨ digits.head? ≠ some '0') :
    IsCanonicalInteger digits :=
  ⟨digits, h1, h2, Or.inl ⟨rfl, h3⟩⟩

theorem canonical_of_minus (digits : Bytes) (h1 : digits ≠ [])
    (h2 : ∀ d ∈ digits, d ∈ asciiDigits) (h3 : digits.head? ≠ some '0') :
    IsCanonicalInteger ('-' :: digits) :=
  ⟨digits, h1, h2, Or.inr ⟨rfl, h3⟩⟩

theorem wellFormedLine_plain (identity line : Bytes) (hlay : HasLayout line)
    (hcode : lineCode line ∈ "INADHFYEeptoC".toList) (hid : lineIdentity line = identity) :
    WellFormedLine identity line := by
  simp only [String.toList, List.mem_cons, List.mem_singleton, List.not_mem_nil, or_false]
    at hcode
  refine ⟨hlay, ?_, hid, ?_, ?_, ?_⟩
  · rcases hcode with h | h | h | h | h | h | h | h | h | h | h | h | h <;>
      (rw [h]; decide)
  · intro hm
    rcases hcode with h | h | h | h | h | h | h | h | h | h | h | h | h <;>
      (rw [h] at hm; exact absurd hm (by decide))
  · intro hm
    rcases hcode with h | h | h | h | h | h | h | h | h | h | h | h | h <;>
      (rw [h] at hm; exact absurd hm (by decide))
  · intro hm
    rcases hcode with h | h | h | h | h | h | h | h | h | h | h | h | h <;>
      (rw [h] at hm; exact absurd hm (by decide))

theorem hasLayout_of_decide (line : Bytes)
    (h : decide ('\n' ∉ line ∧ 11 < line.length ∧ byteAt line 0 = '%' ∧ byteAt line 2 = ' ' ∧
      byteAt line 10 = ' ') = true) : HasLayout line := by
  unfold HasLayout
  exact of_decide_eq_true h

theorem exampleLines_wellFormed : WellFormedRecord "A000001".toList exampleLines := by
  have c0 : IsCanonicalInteger "0".toList :=
    canonical_of_digits _ (by decide) (by decide) (by decide)
  have c1 : IsCanonicalInteger "1".toList :=
    canonical_of_digits _ (by decide) (by decide) (by decide)
  have cm2 : IsCanonicalInteger "-2".toList :=
    canonical_of_minus "2".toList (by decide) (by decide) (by decide)
  have c3 : IsCanonicalInteger "3".toList :=
    canonical_of_digits _ (by decide) (by decide) (by decide)
  have c40 : IsCanonicalInteger "40".toList :=
    canonical_of_digits _ (by decide) (by decide) (by decide)
  have c5 : IsCanonicalInteger "5".toList :=
    canonical_of_digits _ (by decide) (by decide) (by decide)
  have c60 : IsCanonicalInteger "60".toList :=
    canonical_of_digits _ (by decide) (by decide) (by decide)
  refine ⟨?_, by decide, by decide, by decide, by decide⟩
  intro l hl
  simp only [exampleLines, List.mem_cons, List.mem_singleton, List.not_mem_nil, or_false] at hl
  rcases hl with rfl | rfl | rfl | rfl | rfl | rfl | rfl | rfl | rfl | rfl | rfl
  · exact wellFormedLine_plain _ _ (hasLayout_of_decide _ (by decide)) (by decide) (by decide)
  · refine ⟨hasLayout_of_decide _ (by decide), by decide, by decide, fun _ => ?_,
      fun h => absurd h (by decide), fun h => absurd h (by decide)⟩
    refine ⟨["1".toList, "-2".toList, "3".toList], by decide, ?_, Or.inr ⟨by decide, by decide⟩⟩
    intro t ht
    simp only [List.mem_cons, List.mem_singleton, List.not_mem_nil, or_false] at ht
    rcases ht with rfl | rfl | rfl
    · exact c1
    · exact cm2
    · exact c3
  · refine ⟨hasLayout_of_decide _ (by decide), by decide, by decide, fun _ => ?_,
      fun h => absurd h (by decide), fun h => absurd h (by decide)⟩
    refine ⟨["40".toList, "5".toList], by decide, ?_, Or.inr ⟨by decide, by decide⟩⟩
    intro t ht
    simp only [List.mem_cons, List.mem_singleton, List.not_mem_nil, or_false] at ht
    rcases ht with rfl | rfl
    · exact c40
    · exact c5
  · refine ⟨hasLayout_of_decide _ (by decide), by decide, by decide, fun _ => ?_,
      fun h => absurd h (by decide), fun h => absurd h (by decide)⟩
    refine ⟨["60".toList], by decide, ?_, Or.inl ⟨by decide, by decide⟩⟩
    intro t ht
    simp only [List.mem_singleton] at ht
    subst ht
    exact c60
  · exact wellFormedLine_plain _ _ (hasLayout_of_decide _ (by decide)) (by decide) (by decide)
  · exact wellFormedLine_plain _ _ (hasLayout_of_decide _ (by decide)) (by decide) (by decide)
  · exact wellFormedLine_plain _ _ (hasLayout_of_decide _ (by decide)) (by decide) (by decide)
  · exact wellFormedLine_plain _ _ (hasLayout_of_decide _ (by decide)) (by decide) (by decide)
  · refine ⟨hasLayout_of_decide _ (by decide), by decide, by decide,
      fun h => absurd h (by decide), fun _ => ?_, fun h => absurd h (by decide)⟩
    exact ⟨"0".toList, "1".toList, c0, c1, by decide⟩
  · refine ⟨hasLayout_of_decide _ (by decide), by decide, by decide,
      fun h => absurd h (by decide), fun h => absurd h (by decide), fun _ => ?_⟩
    exact ⟨[KeywordNonn, KeywordNice], by decide, by decide⟩
  · exact wellFormedLine_plain _ _ (hasLayout_of_decide _ (by decide)) (by decide) (by decide)

/-- C1, counterexample: two texts that parse without error and do not come
back: a line without its final newline is written with one, and the bare line
`%I A000001`, being 10 bytes long, is skipped and leaves nothing to write. -/
theorem parsed_text_not_restored :
    UnmarshalText .zero "%I A000001 M0098".toList
      = ({ FieldOrder := ['I'], LineCounts := [('I', 1)], Identity := "A000001".toList,
           IdentityPlus := "M0098".toList }, none) ∧
    MarshalText { FieldOrder := ['I'], LineCounts := [('I', 1)], Identity := "A000001".toList,
                  IdentityPlus := "M0098".toList } = .ok "%I A000001 M0098\n".toList ∧
    "%I A000001 M0098\n".toList ≠ "%I A000001 M0098".toList ∧
    UnmarshalText .zero "%I A000001\n".toList = (.zero, none) ∧
    MarshalText .zero = .ok [] ∧
    ([] : Bytes) ≠ "%I A000001\n".toList := by
  decide

/-- C1 (as amended): for every text on which `UnmarshalText`, applied to a
zero-value record, returns no error, `MarshalText` of the resulting record
returns no error; it returns exactly the text when the text is well-formed
record text (the lines of a well-formed record, each ended by a newline). -/
theorem marshal_of_parsed (text : Bytes) (rec : SequenceRecord)
    (h : UnmarshalText .zero text = (rec, none)) :
    (∃ out, MarshalText rec = .ok out) ∧
    (∀ identity lines, WellFormedRecord identity lines → text = joinLines lines →
      MarshalText rec = .ok text) := by
  constructor
  · have hr := UnmarshalText_countsInRange text
    rw [h] at hr
    exact ⟨_, MarshalText_ok rec hr⟩
  · intro identity lines hwf htext
    obtain ⟨rec2, h1, h2⟩ := roundtrip_core identity lines hwf
    rw [← htext, h] at h1
    have e : rec = rec2 := by
      have := congrArg Prod.fst h1
      exact this
    rw [e, htext]
    exact h2

/-- Witness for C1: the eleven-line example parses without error and the
record is serialized to the same text. -/
theorem marshal_of_parsed_witness :
    UnmarshalText .zero (joinLines exampleLines)
      = ((UnmarshalText .zero (joinLines exampleLines)).1, none) ∧
    MarshalText (UnmarshalText .zero (joinLines exampleLines)).1
      = .ok (joinLines exampleLines) :=
  ⟨by decide,
   (marshal_of_parsed (joinLines exampleLines) (UnmarshalText .zero (joinLines exampleLines)).1
      (by decide)).2 "A000001".toList exampleLines exampleLines_wellFormed rfl⟩

/-- C2: for every well-formed record text (lines ended by newlines, in the
fixed layout, with recognised codes, one I line, one identity token, single
lines for N, A, O, K, S, T, U, one run per annotation code, term lines in the
order S, T, U with canonical integers and the comma rule, an O content of two
canonical integers, a K content of keyword names), `UnmarshalText` on a
zero-value record succeeds and `MarshalText` of the result returns the text. -/
theorem roundtrip_wellFormed (identity : Bytes) (lines : List Bytes)
    (h : WellFormedRecord identity lines) :
    ∃ rec, UnmarshalText .zero (joinLines lines) = (rec, none) ∧
      MarshalText rec = .ok (joinLines lines) :=
  roundtrip_core identity lines h

/-- Witness for C2: the eleven-line example is well formed and makes the round
trip. -/
theorem roundtrip_wellFormed_witness :
    WellFormedRecord "A000001".toList exampleLines ∧
    ∃ rec, UnmarshalText .zero (joinLines exampleLines) = (rec, none) ∧
      MarshalText rec = .ok (joinLines exampleLines) :=
  ⟨exampleLines_wellFormed,
   roundtrip_wellFormed "A000001".toList exampleLines exampleLines_wellFormed⟩

/-- C3, counterexample: an I line followed by a D line, an H line and a D line
again, all in the fixed layout with one identity token.  Parsing succeeds with
`FieldOrder = I, D, H, D`; the serializer writes both D lines at each of the
two D entries, so the text does not come back. -/
theorem interleaved_annotations_not_restored :
    (∀ l ∈ exampleInterleaved, '\n' ∉ l ∧ 11 < l.length ∧ byteAt l 0 = '%' ∧
      byteAt l 2 = ' ' ∧ byteAt l 10 = ' ' ∧ lineIdentity l = "A000001".toList) ∧
    exampleInterleaved.map lineCode = ['I', 'D', 'H', 'D'] ∧
    joinLines exampleInterleaved
      = "%I A000001 x\n%D A000001 a\n%H A000001 b\n%D A000001 c\n".toList ∧
    (UnmarshalText .zero (joinLines exampleInterleaved)).2 = none ∧
    (UnmarshalText .zero (joinLines exampleInterleaved)).1.FieldOrder = ['I', 'D', 'H', 'D'] ∧
    MarshalText (UnmarshalText .zero (joinLines exampleInterleaved)).1
      = .ok ("%I A000001 x\n%D A000001 a\n%D A000001 c\n%H A000001 b\n"
          ++ "%D A000001 a\n%D A000001 c\n").toList ∧
    MarshalText (UnmarshalText .zero (joinLines exampleInterleaved)).1
      ≠ .ok (joinLines exampleInterleaved) := by
  decide

/-- C3 (as amended): for every text made of one I line followed by annotation
lines in any order in which every annotation code occupies a single contiguous
run of lines, where every line ends in a newline, is longer than 11 bytes,
starts with `%`, has spaces at byte indices 2 and 10 and carries the same
identity token, parsing succeeds and serializing the result returns the
text. -/
theorem roundtrip_annotation_runs (identity : Bytes) (first : Bytes) (rest : List Bytes)
    (hfirst : HasLayout first ∧ lineCode first = 'I' ∧ lineIdentity first = identity)
    (hrest : ∀ l ∈ rest, HasLayout l ∧ lineCode l ∈ annotationCodes ∧ lineIdentity l = identity)
    (hruns : ∀ c ∈ annotationCodes, (runs (rest.map lineCode)).count c ≤ 1) :
    ∃ rec, UnmarshalText .zero (joinLines (first :: rest)) = (rec, none) ∧
      MarshalText rec = .ok (joinLines (first :: rest)) := by
  apply roundtrip_core identity
  have hsub : ∀ c ∈ annotationCodes, c ∈ "INADHFYEeptoC".toList := by decide
  have hnotI : 'I' ∉ rest.map lineCode := by
    intro hm
    obtain ⟨l, hl, hc⟩ := List.mem_map.mp hm
    have := (hrest l hl).2.1
    rw [hc] at this
    exact absurd this (by decide)
  have hnotplain : ∀ c ∈ singleLineCodes, c ∉ rest.map lineCode := by
    intro c hc hm
    obtain ⟨l, hl, rfl⟩ := List.mem_map.mp hm
    have := (hrest l hl).2.1
    revert hc
    simp only [annotationCodes, singleLineCodes, String.toList, List.mem_cons,
      List.mem_singleton, List.not_mem_nil, or_false] at this ⊢
    rcases this with h | h | h | h | h | h | h | h | h | h <;> (rw [h]; decide)
  have hhead : (rest.map lineCode).head? ≠ some 'I' := by
    intro h
    exact hnotI (List.mem_of_mem_head? h)
  refine ⟨?_, ?_, ?_, ?_, ?_⟩
  · intro l hl
    rcases List.mem_cons.mp hl with rfl | hl
    · exact wellFormedLine_plain identity l hfirst.1 (by rw [hfirst.2.1]; decide) hfirst.2.2
    · obtain ⟨h1, h2, h3⟩ := hrest l hl
      exact wellFormedLine_plain identity l h1 (hsub _ h2) h3
  · rw [List.map_cons, hfirst.2.1, List.count_cons_self, List.count_eq_zero.mpr hnotI]
  · intro c hc
    have hne : c ≠ 'I' := by
      rintro rfl
      exact absurd hc (by decide)
    rw [List.map_cons, hfirst.2.1, List.count_cons_of_ne hne,
      List.count_eq_zero.mpr (hnotplain c hc)]
    omega
  · intro c hc
    have hne : c ≠ 'I' := by
      rintro rfl
      exact absurd hc (by decide)
    rw [List.map_cons, hfirst.2.1, runs_cons]
    simp only [hhead, if_false]
    rw [List.count_cons_of_ne hne]
    exact hruns c hc
  · have hnil : ((first :: rest).map lineCode).filter (fun c => decide (c ∈ termCodes)) = [] := by
      rw [List.filter_eq_nil_iff]
      intro c hc
      rw [List.map_cons, hfirst.2.1] at hc
      rcases List.mem_cons.mp hc with rfl | hc
      · decide
      · have h1 : c ∉ singleLineCodes := fun h => hnotplain c h hc
        simp only [decide_eq_true_eq]
        intro hterm
        apply h1
        revert hterm
        simp only [termCodes, singleLineCodes, String.toList, List.mem_cons,
          List.mem_singleton, List.not_mem_nil, or_false]
        tauto
    rw [hnil]
    exact List.nil_sublist _

/-- Witness for C3: an I line followed by an H line, two D lines and a C line
makes the round trip. -/
theorem roundtrip_annotation_runs_witness :
    ∃ rec, UnmarshalText .zero (joinLines exampleAnnotations) = (rec, none) ∧
      MarshalText rec = .ok (joinLines exampleAnnotations) :=
  roundtrip_annotation_runs "A000001".toList "%I A000001 x".toList
    ["%H A000001 b".toList, "%D A000001 a".toList, "%D A000001 c".toList,
     "%C A000001 d".toList]
    ⟨hasLayout_of_decide _ (by decide), by decide, by decide⟩
    (by
      intro l hl
      simp only [List.mem_cons, List.mem_singleton, List.not_mem_nil, or_false] at hl
      rcases hl with rfl | rfl | rfl | rfl <;>
        exact ⟨hasLayout_of_decide _ (by decide), by decide, by decide⟩)
    (by decide)

/-! ## Theorems: errors of the parser -/

theorem processLine_cases (rec : SequenceRecord) (line : Bytes) :
    (skipped line = true ∧ processLine rec line = (rec, none)) ∨
    (skipped line = false ∧ (byteAt line 2 ≠ ' ' ∨ byteAt line 10 ≠ ' ') ∧
      processLine rec line = (rec, some (.format line))) ∨
    (skipped line = false ∧ byteAt line 2 = ' ' ∧ byteAt line 10 = ' ' ∧
      ∃ rec1 err, assignFields rec (byteAt line 1) line = (rec1, some err) ∧
        processLine rec line = (rec1, some err)) ∨
    (skipped line = false ∧ byteAt line 2 = ' ' ∧ byteAt line 10 = ' ' ∧
      ∃ rec1, assignFields rec (byteAt line 1) line = (rec1, none) ∧
        processLine rec line = (bookkeeping rec1 (byteAt line 1), none)) := by
  by_cases hs : skipped line = true
  · left
    exact ⟨hs, by simp [processLine, hs]⟩
  · right
    have hs' : skipped line = false := by simpa using hs
    by_cases hsp : byteAt line 2 ≠ ' ' ∨ byteAt line 10 ≠ ' '
    · left
      exact ⟨hs', hsp, by simp [processLine, hs', hsp]⟩
    · right
      have h2 : byteAt line 2 = ' ' := by
        by_contra h
        exact hsp (Or.inl h)
      have h10 : byteAt line 10 = ' ' := by
        by_contra h
        exact hsp (Or.inr h)
      rcases hres : assignFields rec (byteAt line 1) line with ⟨rec1, _ | err⟩
      · right
        exact ⟨hs', h2, h10, rec1, rfl, by simp [processLine, hs', h2, h10, hres]⟩
      · left
        exact ⟨hs', h2, h10, rec1, err, rfl, by simp [processLine, hs', h2, h10, hres]⟩

theorem skipped_eq_not_isProcessed (line : Bytes) : skipped line = !isProcessed line := by
  have hle : line.length ≤ 11 ↔ ¬ 11 < line.length := by omega
  by_cases h1 : 11 < line.length <;> by_cases h2 : byteAt line 0 = '%' <;>
    simp [skipped, isProcessed, pre, hle, h1, h2]

theorem processLine_error_keeps (rec : SequenceRecord) (line : Bytes) (err : Error)
    (h : (processLine rec line).2 = some err) :
    (processLine rec line).1.FieldOrder = rec.FieldOrder ∧
    (processLine rec line).1.LineCounts = rec.LineCounts := by
  rcases processLine_cases rec line with ⟨_, hp⟩ | ⟨_, _, hp⟩ | ⟨_, _, _, rec1, e, ha, hp⟩
    | ⟨_, _, _, rec1, ha, hp⟩
  · rw [hp] at h
    simp at h
  · rw [hp]
    exact ⟨rfl, rfl⟩
  · rw [hp]
    have h1 := assignFields_FieldOrder rec (byteAt line 1) line
    have h2 := assignFields_LineCounts rec (byteAt line 1) line
    rw [ha] at h1 h2
    exact ⟨h1, h2⟩
  · rw [hp] at h
    simp at h

theorem unmarshalLines_error_at (rec0 rec : SequenceRecord) (before after : List Bytes)
    (line : Bytes) (err : Error) (hbefore : unmarshalLines rec0 before = (rec, none))
    (herr : (processLine rec line).2 = some err) :
    unmarshalLines rec0 (before ++ line :: after) = ((processLine rec line).1, some err) := by
  rw [unmarshalLines_append, hbefore]
  simp only [unmarshalLines]
  rcases hres : processLine rec line with ⟨rec1, _ | e⟩
  · rw [hres] at herr
    simp at herr
  · rw [hres] at herr
    simp only [Option.some.injEq] at herr
    rw [herr]

/-- C11: when the earlier lines parse without error and a line that is not
skipped (longer than 11 bytes, starting with `%`) has a byte other than a space
at index 2 or at index 10, `UnmarshalText` returns the format error whose
message is `format: ` followed by that raw line, and the record is the one left
by the earlier lines: the line changes no field, `FieldOrder` and `LineCounts`
included. -/
theorem format_error_carries_line (rec0 rec : SequenceRecord) (before after : List Bytes)
    (line text : Bytes) (htext : Split text '\n' = before ++ line :: after)
    (hbefore : unmarshalLines rec0 before = (rec, none))
    (hlen : 11 < line.length) (hpct : byteAt line 0 = '%')
    (hsp : byteAt line 2 ≠ ' ' ∨ byteAt line 10 ≠ ' ') :
    UnmarshalText rec0 text = (rec, some (.format line)) ∧
    (Error.format line).message = "format: ".toList ++ line ∧
    (UnmarshalText rec0 text).1 = rec := by
  have hs : skipped line = false := by
    simp [skipped, pre, hpct]
    omega
  have hp : processLine rec line = (rec, some (.format line)) := by
    simp [processLine, hs, hsp]
  have hu : UnmarshalText rec0 text = (rec, some (.format line)) := by
    rw [UnmarshalText, htext,
      unmarshalLines_error_at rec0 rec before after line (.format line) hbefore (by rw [hp]),
      hp]
  exact ⟨hu, rfl, by rw [hu]⟩

/-- Witness for C11: the second line of the example has `_` at byte index 2;
the error carries the line and the record is the one left by the first line. -/
theorem format_error_carries_line_witness :
    (Split exampleBadLayout '\n'
        = ["%I A000001 M0098".toList] ++ "%N_A000001 Groups".toList
            :: ["%A A000001 N. Sloane".toList, []]) ∧
    UnmarshalText .zero exampleBadLayout
      = ((unmarshalLines .zero ["%I A000001 M0098".toList]).1,
          some (.format "%N_A000001 Groups".toList)) ∧
    (UnmarshalText .zero exampleBadLayout).1.FieldOrder = ['I'] :=
  ⟨by decide,
   (format_error_carries_line .zero (unmarshalLines .zero ["%I A000001 M0098".toList]).1
      ["%I A000001 M0098".toList] ["%A A000001 N. Sloane".toList, []]
      "%N_A000001 Groups".toList exampleBadLayout (by decide) (by decide) (by decide)
      (by decide) (by decide)).1,
   by decide⟩

/-- C12: parsing stops at the first error.  When the lines before line `k`
parse without error and handling line `k` returns an error, the lines after it
have no effect: the returned error and the resulting record are those of the
text truncated after line `k`; `FieldOrder` and `LineCounts` are as the lines
before line `k` left them. -/
theorem parsing_stops_at_first_error (rec0 rec : SequenceRecord) (before after : List Bytes)
    (line : Bytes) (err : Error) (text truncated : Bytes)
    (htext : Split text '\n' = before ++ line :: after)
    (htrunc : Split truncated '\n' = before ++ [line])
    (hbefore : unmarshalLines rec0 before = (rec, none))
    (herr : (processLine rec line).2 = some err) :
    UnmarshalText rec0 text = UnmarshalText rec0 truncated ∧
    (UnmarshalText rec0 text).2 = some err ∧
    (UnmarshalText rec0 text).1.FieldOrder = rec.FieldOrder ∧
    (UnmarshalText rec0 text).1.LineCounts = rec.LineCounts := by
  have h1 : UnmarshalText rec0 text = ((processLine rec line).1, some err) := by
    rw [UnmarshalText, htext, unmarshalLines_error_at rec0 rec before after line err hbefore herr]
  have h2 : UnmarshalText rec0 truncated = ((processLine rec line).1, some err) := by
    rw [UnmarshalText, htrunc, unmarshalLines_error_at rec0 rec before [] line err hbefore herr]
  obtain ⟨k1, k2⟩ := processLine_error_keeps rec line err herr
  rw [h1, h2]
  exact ⟨rfl, rfl, k1, k2⟩

/-- Witness for C12: the second line of the example has a malformed offset;
the third line has no effect and only the I line is recorded. -/
theorem parsing_stops_at_first_error_witness :
    UnmarshalText .zero exampleBadOffset
      = UnmarshalText .zero "%I A000001 M0098\n%O A000001 0;1".toList ∧
    (UnmarshalText .zero exampleBadOffset).2 = some (.invalidOffset "0;1".toList) ∧
    (UnmarshalText .zero exampleBadOffset).1.FieldOrder = ['I'] ∧
    (UnmarshalText .zero exampleBadOffset).1.LineCounts = [('I', 1)] :=
  parsing_stops_at_first_error .zero (unmarshalLines .zero ["%I A000001 M0098".toList]).1
    ["%I A000001 M0098".toList] ["%A A000001 N. Sloane".toList, []]
    "%O A000001 0;1".toList (.invalidOffset "0;1".toList) exampleBadOffset
    "%I A000001 M0098\n%O A000001 0;1".toList (by decide) (by decide) (by decide) (by decide)

/-! ## Theorems: keywords -/

theorem Keyword_String_lower (k : Keyword) : ∀ c ∈ k.String, isLowerLetter c = true := by
  cases k <;> decide

theorem not_upper_of_lower (c : Char) (h : isLowerLetter c = true) : isUpperLetter c = false := by
  simp only [isLowerLetter, isUpperLetter, Bool.and_eq_true, decide_eq_true_eq,
    Bool.and_eq_false_imp] at h ⊢
  have h1 : 97 ≤ c.toNat := h.1
  intro _
  have : ¬ c.toNat ≤ 90 := by omega
  simpa using this

theorem toLowerByte_eq_iff (a b : Char) (hb : isUpperLetter b = false) :
    toLowerByte a = b ↔ SameLetter a b := by
  have hup : (('A'.toNat ≤ a.toNat ∧ a.toNat ≤ 'Z'.toNat) ↔ isUpperLetter a = true) := by
    simp [isUpperLetter]
  constructor
  · intro h
    by_cases ha : isUpperLetter a = true
    · right; left
      refine ⟨ha, ?_⟩
      rw [← h, toLowerByte, if_pos (hup.mpr ha)]
    · left
      rw [← h, toLowerByte, if_neg (fun hc => ha (hup.mp hc))]
  · rintro (h | ⟨ha, h⟩ | ⟨hb2, _⟩)
    · subst h
      rw [toLowerByte, if_neg]
      intro hc
      rw [hup.mp hc] at hb
      exact absurd hb (by decide)
    · rw [toLowerByte, if_pos (hup.mpr ha), h]
    · rw [hb2] at hb
      exact absurd hb (by decide)

theorem map_toLowerByte_eq_iff :
    ∀ (s t : Bytes), (∀ c ∈ t, isUpperLetter c = false) →
      (s.map toLowerByte = t ↔ EqualUpToCase s t) := by
  intro s
  induction s with
  | nil =>
    intro t _
    cases t with
    | nil => simp [EqualUpToCase]
    | cons b bs => simp [EqualUpToCase]
  | cons a rest ih =>
    intro t ht
    cases t with
    | nil => simp [EqualUpToCase]
    | cons b bs =>
      have hb := ht b (by simp)
      have hrest := ih bs (fun c hc => ht c (List.mem_cons_of_mem _ hc))
      simp only [EqualUpToCase] at hrest ⊢
      rw [List.map_cons, List.cons.injEq, List.forall₂_cons, toLowerByte_eq_iff a b hb, hrest]

theorem keyword_equalUpToCase_iff (s : Bytes) (k : Keyword) :
    s.map toLowerByte = k.String ↔ EqualUpToCase s k.String :=
  map_toLowerByte_eq_iff s k.String
    (fun c hc => not_upper_of_lower c (Keyword_String_lower k c hc))

theorem KeywordString_of_lower (s : Bytes) (k : Keyword) (h : s.map toLowerByte = k.String) :
    KeywordString s = some k := by
  rw [KeywordString, h]
  cases k <;> decide

theorem KeywordString_some (s : Bytes) (k : Keyword) (h : KeywordString s = some k) :
    s.map toLowerByte = k.String := by
  have := List.find?_some h
  simp only [decide_eq_true_eq] at this
  exact this.symm

theorem mem_KeywordValues (k : Keyword) : k ∈ KeywordValues := by
  cases k <;> decide

/-- C13: keyword parsing ignores ASCII letter case and inverts rendering.  For
every keyword `k` and every string `s` that equals `k.String` up to ASCII letter
case, `KeywordString s` returns `k`; in particular the rendering of `k` itself,
and "BAse" as well as "base" give `KeywordBase`.  `KeywordString` returns a
keyword only for such strings, and a string that matches no keyword name up to
case gives the error. -/
theorem keywordString_case_insensitive :
    (∀ (k : Keyword) (s : Bytes), EqualUpToCase s k.String → KeywordString s = some k) ∧
    (∀ k : Keyword, KeywordString k.String = some k) ∧
    (∀ (k : Keyword) (s : Bytes), KeywordString s = some k → EqualUpToCase s k.String) ∧
    (∀ s : Bytes, (∀ k : Keyword, ¬ EqualUpToCase s k.String) → KeywordString s = none) ∧
    KeywordString "BAse".toList = some KeywordBase ∧
    KeywordString "base".toList = some KeywordBase ∧
    KeywordString "bases".toList = none := by
  refine ⟨?_, KeywordString_String, ?_, ?_, by decide, by decide, by decide⟩
  · intro k s h
    exact KeywordString_of_lower s k ((keyword_equalUpToCase_iff s k).mpr h)
  · intro k s h
    exact (keyword_equalUpToCase_iff s k).mp (KeywordString_some s k h)
  · intro s h
    rcases hres : KeywordString s with _ | k
    · rfl
    · exact absurd ((keyword_equalUpToCase_iff s k).mp (KeywordString_some s k hres)) (h k)

/-- C14: `KeywordValues` holds exactly 31 pairwise distinct keywords, every
keyword, in declaration order (the positions are 0, 1, ..., 30; `base` first,
`word` last); the rendering of every keyword is a non-empty string of lower-case
letters, and `KeywordBase` renders as "base". -/
theorem keywordValues_complete :
    KeywordValues.length = 31 ∧ KeywordValues.Nodup ∧
    (∀ k : Keyword, k ∈ KeywordValues) ∧
    KeywordValues.map Keyword.toCtorIdx = List.range 31 ∧
    KeywordValues.head? = some KeywordBase ∧ KeywordValues.getLast? = some KeywordWord ∧
    (∀ k : Keyword, k.String ≠ [] ∧ ∀ c ∈ k.String, isLowerLetter c = true) ∧
    (∀ k : Keyword, k.String.map toLowerByte = k.String) ∧
    KeywordBase.String = "base".toList := by
  refine ⟨by decide, by decide, mem_KeywordValues, by decide, by decide, by decide, ?_, ?_,
    rfl⟩
  · intro k
    exact ⟨by cases k <;> decide, Keyword_String_lower k⟩
  · intro k
    cases k <;> decide

/-! ## Theorems: name and author -/

theorem validate_eq (s : SequenceRecord) (hs : ∀ c ∈ "INAOSTUK".toList, c ∈ s.FieldOrder) :
    Validate s = if matchAnchored identityRe s.Identity then
        (if s.Name = [] then some .missingName
         else if s.Author = [] then some .missingAuthor else none)
      else some (.invalidIdentity s.Identity) := by
  have hn := checkCodes_none s.FieldOrder required hs
  simp only [Validate, CheckRequiredFields, hn]
  by_cases hm : matchAnchored identityRe s.Identity = true
  · simp only [hm, Bool.not_true, Bool.false_eq_true, if_false, if_true]
    by_cases h1 : s.Name = [] <;> by_cases h2 : s.Author = [] <;> simp [h1, h2]
  · simp [hm]

theorem validate_missing_of_absent (s : SequenceRecord)
    (h : ¬ ∀ c ∈ "INAOSTUK".toList, c ∈ s.FieldOrder) :
    ∃ c, Validate s = some (.missingRequiredField c) := by
  have h' : ∃ c ∈ required, c ∉ s.FieldOrder := by
    by_contra hno
    apply h
    intro c hc
    by_contra hc2
    exact hno ⟨c, hc, hc2⟩
  obtain ⟨_, c, _, _, _, _, hr⟩ := checkCodes_first_absent s.FieldOrder required h'
  exact ⟨c, by simp [Validate, CheckRequiredFields, hr]⟩

theorem validate_none_iff (r : SequenceRecord) :
    Validate r = none ↔ (∀ c ∈ "INAOSTUK".toList, c ∈ r.FieldOrder) ∧
      IdentityShape r.Identity ∧ r.Name ≠ [] ∧ r.Author ≠ [] := by
  constructor
  · intro h
    by_cases hs : ∀ c ∈ "INAOSTUK".toList, c ∈ r.FieldOrder
    · rw [validate_eq r hs] at h
      by_cases hm : matchAnchored identityRe r.Identity = true
      · simp only [hm, if_true] at h
        by_cases h1 : r.Name = []
        · simp [h1] at h
        · by_cases h2 : r.Author = []
          · simp [h1, h2] at h
          · exact ⟨hs, (matchAnchored_identityRe _).mp hm, h1, h2⟩
      · simp [hm] at h
    · obtain ⟨c, hc⟩ := validate_missing_of_absent r hs
      rw [hc] at h
      simp at h
  · rintro ⟨hs, hid, h1, h2⟩
    rw [validate_eq r hs, (matchAnchored_identityRe _).mpr hid]
    simp [h1, h2]

/-- C15: when all eight required codes are present and the identity has the
required shape, `Validate` returns the missing-name error if `Name` is empty,
otherwise the missing-author error if `Author` is empty, otherwise nil.  For
every record, `Validate` returns nil exactly when all required codes are
present, the identity has the required shape and `Name` and `Author` are both
non-empty. -/
theorem validate_name_then_author (s : SequenceRecord)
    (hs : ∀ c ∈ "INAOSTUK".toList, c ∈ s.FieldOrder) (hid : IdentityShape s.Identity) :
    (s.Name = [] → Validate s = some .missingName) ∧
    (s.Name ≠ [] → s.Author = [] → Validate s = some .missingAuthor) ∧
    (s.Name ≠ [] → s.Author ≠ [] → Validate s = none) ∧
    (∀ r : SequenceRecord, Validate r = none ↔
      (∀ c ∈ "INAOSTUK".toList, c ∈ r.FieldOrder) ∧ IdentityShape r.Identity ∧
        r.Name ≠ [] ∧ r.Author ≠ []) := by
  have key := validate_eq s hs
  rw [(matchAnchored_identityRe _).mpr hid] at key
  simp only [if_true] at key
  refine ⟨?_, ?_, ?_, validate_none_iff⟩
  · intro h1
    rw [key]
    simp [h1]
  · intro h1 h2
    rw [key]
    simp [h1, h2]
  · intro h1 h2
    rw [key]
    simp [h1, h2]

/-- Witness for C15: a record with all required codes, the identity "A000001"
and a name, but no author, fails with the missing-author error. -/
theorem validate_name_then_author_witness :
    (∀ c ∈ "INAOSTUK".toList, c ∈ exampleNoAuthor.FieldOrder) ∧
    IdentityShape exampleNoAuthor.Identity ∧
    Validate exampleNoAuthor = some .missingAuthor :=
  ⟨by decide, ⟨"000001".toList, by decide, by decide, rfl⟩,
   (validate_name_then_author exampleNoAuthor (by decide)
      ⟨"000001".toList, by decide, by decide, rfl⟩).2.1 (by decide) rfl⟩

/-! ### Name and author of a parsed record -/

theorem assignFields_Name_other (rec : SequenceRecord) (code : Char) (line : Bytes)
    (h : code ≠ 'N') : (assignFields rec code line).1.Name = rec.Name := by
  unfold assignFields
  split <;> first
    | rfl
    | exact absurd rfl h
    | (simp only []; split <;> first
        | rfl
        | (split <;> first | rfl | (split <;> rfl)))

theorem assignFields_Author_other (rec : SequenceRecord) (code : Char) (line : Bytes)
    (h : code ≠ 'A') : (assignFields rec code line).1.Author = rec.Author := by
  unfold assignFields
  split <;> first
    | rfl
    | exact absurd rfl h
    | (simp only []; split <;> first
        | rfl
        | (split <;> first | rfl | (split <;> rfl)))

theorem mem_bookkeeping (rec : SequenceRecord) (d c : Char)
    (h : c ∈ (bookkeeping rec d).FieldOrder) : c ∈ rec.FieldOrder ∨ c = d := by
  simp only [bookkeeping] at h
  split at h
  · simpa using h
  · split at h
    · simpa using h
    · exact Or.inl h

theorem content_ne_nil_of_not_skipped (line : Bytes) (h : skipped line = false) :
    line.drop pre ≠ [] := by
  simp only [skipped, pre, Bool.or_eq_false_iff, decide_eq_false_iff_not, not_le] at h
  intro e
  have := congrArg List.length e
  simp only [List.length_drop, pre, List.length_nil] at this
  omega

theorem assignFields_nameAuthor (rec : SequenceRecord) (line : Bytes) (d : Char)
    (hs : skipped line = false) :
    (d = 'N' → (assignFields rec d line).1.Name ≠ []) ∧
    (d ≠ 'N' → (assignFields rec d line).1.Name = rec.Name) ∧
    (d = 'A' → (assignFields rec d line).1.Author ≠ []) ∧
    (d ≠ 'A' → (assignFields rec d line).1.Author = rec.Author) := by
  have hc := content_ne_nil_of_not_skipped line hs
  refine ⟨?_, assignFields_Name_other rec d line, ?_, assignFields_Author_other rec d line⟩
  · rintro rfl
    exact hc
  · rintro rfl
    exact hc

theorem processLine_nameAuthor (rec : SequenceRecord) (line : Bytes)
    (h : NameAuthorPresent rec) : NameAuthorPresent (processLine rec line).1 := by
  rcases processLine_cases rec line with ⟨_, hp⟩ | ⟨_, _, hp⟩ | ⟨hs, _, _, rec1, e, ha, hp⟩
    | ⟨hs, _, _, rec1, ha, hp⟩
  · rw [hp]; exact h
  · rw [hp]; exact h
  · rw [hp]
    obtain ⟨n1, n2, a1, a2⟩ := assignFields_nameAuthor rec line (byteAt line 1) hs
    have hfo := assignFields_FieldOrder rec (byteAt line 1) line
    rw [ha] at n1 n2 a1 a2 hfo
    simp only at n1 n2 a1 a2 hfo
    constructor
    · intro hm
      by_cases hd : byteAt line 1 = 'N'
      · exact n1 hd
      · rw [n2 hd]
        exact h.1 (by rw [← hfo]; exact hm)
    · intro hm
      by_cases hd : byteAt line 1 = 'A'
      · exact a1 hd
      · rw [a2 hd]
        exact h.2 (by rw [← hfo]; exact hm)
  · rw [hp]
    obtain ⟨n1, n2, a1, a2⟩ := assignFields_nameAuthor rec line (byteAt line 1) hs
    have hfo := assignFields_FieldOrder rec (byteAt line 1) line
    rw [ha] at n1 n2 a1 a2 hfo
    simp only at n1 n2 a1 a2 hfo
    constructor
    · intro hm
      show rec1.Name ≠ []
      by_cases hd : byteAt line 1 = 'N'
      · exact n1 hd
      · rw [n2 hd]
        rcases mem_bookkeeping rec1 _ _ hm with h1 | h1
        · exact h.1 (by rw [← hfo]; exact h1)
        · exact absurd h1.symm hd
    · intro hm
      show rec1.Author ≠ []
      by_cases hd : byteAt line 1 = 'A'
      · exact a1 hd
      · rw [a2 hd]
        rcases mem_bookkeeping rec1 _ _ hm with h1 | h1
        · exact h.2 (by rw [← hfo]; exact h1)
        · exact absurd h1.symm hd

theorem unmarshalLines_invariant (P : SequenceRecord → Prop)
    (hstep : ∀ rec line, P rec → P (processLine rec line).1) :
    ∀ (lines : List Bytes) (rec : SequenceRecord), P rec → P (unmarshalLines rec lines).1 := by
  intro lines
  induction lines with
  | nil => intro rec h; exact h
  | cons l rest ih =>
    intro rec h
    have h1 := hstep rec l h
    rw [unmarshalLines]
    rcases hres : processLine rec l with ⟨rec1, _ | err⟩
    · rw [hres] at h1
      exact ih rec1 h1
    · rw [hres] at h1
      exact h1

/-- C20: on a record parsed from text the missing-name and missing-author
errors of `Validate` cannot occur.  For every text that parses without error
into a zero-value record, `Name` is non-empty if N occurs in `FieldOrder` and
`Author` is non-empty if A occurs in `FieldOrder`; `Validate` on that record
returns nil, a missing-required-field error or an invalid-identity error. -/
theorem parsed_name_author_present (text : Bytes) (rec : SequenceRecord)
    (h : UnmarshalText .zero text = (rec, none)) :
    ('N' ∈ rec.FieldOrder → rec.Name ≠ []) ∧ ('A' ∈ rec.FieldOrder → rec.Author ≠ []) ∧
    Validate rec ≠ some .missingName ∧ Validate rec ≠ some .missingAuthor ∧
    (Validate rec = none ∨ (∃ c, Validate rec = some (.missingRequiredField c)) ∨
      (∃ x, Validate rec = some (.invalidIdentity x))) := by
  have hinv : NameAuthorPresent rec := by
    have := unmarshalLines_invariant NameAuthorPresent processLine_nameAuthor
      (Split text '\n') .zero ⟨by intro hm; simp [SequenceRecord.zero] at hm,
        by intro hm; simp [SequenceRecord.zero] at hm⟩
    rw [UnmarshalText] at h
    rw [h] at this
    exact this
  have hfinal : Validate rec = none ∨ (∃ c, Validate rec = some (.missingRequiredField c)) ∨
      (∃ x, Validate rec = some (.invalidIdentity x)) := by
    by_cases hs : ∀ c ∈ "INAOSTUK".toList, c ∈ rec.FieldOrder
    · have hN := hinv.1 (hs 'N' (by decide))
      have hA := hinv.2 (hs 'A' (by decide))
      rw [validate_eq rec hs]
      by_cases hm : matchAnchored identityRe rec.Identity = true
      · left
        simp [hm, hN, hA]
      · right; right
        exact ⟨rec.Identity, by simp [hm]⟩
    · right; left
      exact validate_missing_of_absent rec hs
  refine ⟨hinv.1, hinv.2, ?_, ?_, hfinal⟩
  · intro hv
    rcases hfinal with h1 | ⟨c, h1⟩ | ⟨x, h1⟩ <;> rw [h1] at hv <;> simp at hv
  · intro hv
    rcases hfinal with h1 | ⟨c, h1⟩ | ⟨x, h1⟩ <;> rw [h1] at hv <;> simp at hv

/-- Witness for C20: the eleven-line example parses without error; its name
and author are present and `Validate` does not report them missing. -/
theorem parsed_name_author_present_witness :
    UnmarshalText .zero (joinLines exampleLines)
      = ((UnmarshalText .zero (joinLines exampleLines)).1, none) ∧
    Validate (UnmarshalText .zero (joinLines exampleLines)).1 ≠ some .missingName ∧
    Validate (UnmarshalText .zero (joinLines exampleLines)).1 ≠ some .missingAuthor :=
  ⟨by decide,
   (parsed_name_author_present (joinLines exampleLines)
      (UnmarshalText .zero (joinLines exampleLines)).1 (by decide)).2.2.1,
   (parsed_name_author_present (joinLines exampleLines)
      (UnmarshalText .zero (joinLines exampleLines)).1 (by decide)).2.2.2.1⟩

/-! ## Theorems: bookkeeping of the parser -/

theorem lookup_incr_other (m : List (Char × Int)) (c d : Char) (h : c ≠ d) :
    lookup (incr m d) c = lookup m c := by
  induction m with
  | nil =>
    have h' : ¬ d = c := fun e => h e.symm
    simp [incr, lookup, h']
  | cons kv m ih =>
    obtain ⟨k, n⟩ := kv
    by_cases hk : k = d
    · subst hk
      have h' : ¬ k = c := fun e => h e.symm
      simp [incr, lookup, h']
    · by_cases hkc : k = c
      · subst hkc
        simp [incr, lookup, h]
      · simp [incr, lookup, hk, hkc, ih]

theorem unmarshalLines_snoc_ok (rec0 rec1 : SequenceRecord) (ls : List Bytes) (l : Bytes)
    (h : unmarshalLines rec0 (ls ++ [l]) = (rec1, none)) :
    ∃ rec, unmarshalLines rec0 ls = (rec, none) ∧ processLine rec l = (rec1, none) := by
  rw [unmarshalLines_append] at h
  rcases hres : unmarshalLines rec0 ls with ⟨rec, _ | err⟩
  · rw [hres] at h
    simp only [unmarshalLines_single] at h
    exact ⟨rec, rfl, h⟩
  · rw [hres] at h
    simp at h

theorem processLine_ok_cases (rec rec1 : SequenceRecord) (l : Bytes)
    (h : processLine rec l = (rec1, none)) :
    (isProcessed l = false ∧ rec1 = rec) ∨
    (isProcessed l = true ∧ ∃ rec2, assignFields rec (lineCode l) l = (rec2, none) ∧
      rec1 = bookkeeping rec2 (lineCode l)) := by
  have hsk := skipped_eq_not_isProcessed l
  rcases processLine_cases rec l with ⟨hs, hp⟩ | ⟨_, _, hp⟩ | ⟨_, _, _, r, e, _, hp⟩
    | ⟨hs, _, _, rec2, ha, hp⟩
  · left
    rw [hp] at h
    rw [hs] at hsk
    exact ⟨by simpa using hsk.symm, (Prod.mk.inj h).1.symm⟩
  · rw [hp] at h
    simp at h
  · rw [hp] at h
    simp at h
  · right
    rw [hp] at h
    rw [hs] at hsk
    exact ⟨by simpa using hsk.symm, rec2, ha, (Prod.mk.inj h).1.symm⟩

theorem runs_chain (cs : List Char) : List.Chain' (fun a b => a ≠ b) (runs cs) := by
  induction cs with
  | nil => exact List.chain'_nil
  | cons c rest ih =>
    rw [runs_cons]
    by_cases h : rest.head? = some c
    · simp only [h, if_true]
      exact ih
    · simp only [h, if_false]
      rw [List.chain'_cons']
      refine ⟨?_, ih⟩
      intro y hy
      rw [runs_head] at hy
      rintro rfl
      exact h hy

theorem unmarshalLines_bookkeeping :
    ∀ (lines : List Bytes) (rec : SequenceRecord), unmarshalLines .zero lines = (rec, none) →
      rec.FieldOrder = runs ((lines.filter isProcessed).map lineCode) ∧
      ∀ c, lookup rec.LineCounts c = (((lines.filter isProcessed).map lineCode).count c : Int) := by
  intro lines
  induction lines using List.reverseRecOn with
  | nil =>
    intro rec h
    have e : rec = .zero := (Prod.mk.inj h).1.symm
    subst e
    exact ⟨rfl, fun c => rfl⟩
  | append_singleton ls l ih =>
    intro rec1 h
    obtain ⟨rec, h1, h2⟩ := unmarshalLines_snoc_ok _ _ _ _ h
    obtain ⟨ihO, ihC⟩ := ih rec h1
    rw [List.filter_append]
    rcases processLine_ok_cases rec rec1 l h2 with ⟨hp, rfl⟩ | ⟨hp, rec2, ha, rfl⟩
    · simp only [List.filter_cons, hp, List.filter_nil, List.append_nil, Bool.false_eq_true,
        if_false]
      exact ⟨ihO, ihC⟩
    · have hfo := assignFields_FieldOrder rec (lineCode l) l
      have hlc := assignFields_LineCounts rec (lineCode l) l
      rw [ha] at hfo hlc
      simp only at hfo hlc
      simp only [List.filter_cons, hp, List.filter_nil, if_true, List.map_append, List.map_cons,
        List.map_nil]
      refine ⟨bookkeeping_order rec2 _ _ (hfo.trans ihO), ?_⟩
      intro c
      show lookup (incr rec2.LineCounts (lineCode l)) c = _
      rw [hlc, List.count_append]
      by_cases hc : c = lineCode l
      · subst hc
        rw [lookup_incr_self, ihC]
        simp
      · rw [lookup_incr_other _ _ _ hc, ihC, List.count_singleton]
        have : ¬ (lineCode l == c) = true := by
          simpa using fun e => hc e.symm
        simp [this]

/-- C17: after a successful `UnmarshalText` on a zero-value record,
`FieldOrder` is the sequence of the codes of the processed lines, in order,
with every run of consecutive equal codes collapsed to one entry; no two
adjacent entries are equal; and for every byte `c`, recognised or not,
`LineCounts[c]` is the number of processed lines whose code is `c`. -/
theorem fieldOrder_and_lineCounts (text : Bytes) (rec : SequenceRecord)
    (h : UnmarshalText .zero text = (rec, none)) :
    rec.FieldOrder = runs ((processedLines text).map lineCode) ∧
    List.Chain' (fun a b => a ≠ b) rec.FieldOrder ∧
    ∀ c, lookup rec.LineCounts c = (((processedLines text).map lineCode).count c : Int) := by
  obtain ⟨h1, h2⟩ := unmarshalLines_bookkeeping (Split text '\n') rec h
  refine ⟨h1, ?_, h2⟩
  rw [h1]
  exact runs_chain _

/-- Witness for C17: on the lines I, D, H, D the code D reappears after H, and
the unrecognised code of a line `%X` is counted. -/
theorem fieldOrder_and_lineCounts_witness :
    UnmarshalText .zero (joinLines exampleInterleaved)
      = ((UnmarshalText .zero (joinLines exampleInterleaved)).1, none) ∧
    (UnmarshalText .zero (joinLines exampleInterleaved)).1.FieldOrder
      = runs ((processedLines (joinLines exampleInterleaved)).map lineCode) ∧
    runs ((processedLines (joinLines exampleInterleaved)).map lineCode) = ['I', 'D', 'H', 'D'] ∧
    lookup (UnmarshalText .zero "%X A000001 foo\n%X A000001 bar\n".toList).1.LineCounts 'X'
      = 2 :=
  ⟨by decide,
   (fieldOrder_and_lineCounts (joinLines exampleInterleaved)
      (UnmarshalText .zero (joinLines exampleInterleaved)).1 (by decide)).1,
   by decide, by decide⟩

/-! ## Theorems: term lines -/

theorem assignFields_term_ok (rec rec1 : SequenceRecord) (d : Char) (line : Bytes)
    (hd : d ∈ termCodes) (h : assignFields rec d line = (rec1, none)) :
    ∃ bigs, parseBigs (Split (TrimRight (line.drop pre) ',') ',') = .ok bigs ∧
      rec1.Sequence = rec.Sequence ++ bigs ∧
      rec1.STUCounts = rec.STUCounts.set (d.toNat - 'S'.toNat) bigs.length := by
  rw [assignFields_term_eq rec d line hd] at h
  rcases hp : parseBigs (Split (TrimRight (line.drop pre) ',') ',') with v | bigs
  · rw [hp] at h
    simp at h
  · rw [hp] at h
    simp only [Prod.mk.injEq, and_true] at h
    subst h
    exact ⟨bigs, rfl, rfl, rfl⟩

theorem assignFields_terms_unchanged (rec : SequenceRecord) (code : Char) (line : Bytes)
    (hterm : code ∉ termCodes) :
    (assignFields rec code line).1.Sequence = rec.Sequence ∧
    (assignFields rec code line).1.STUCounts = rec.STUCounts := by
  simp only [termCodes, String.toList, List.mem_cons, List.mem_singleton,
    List.not_mem_nil, or_false, not_or] at hterm
  unfold assignFields
  split <;> first
    | exact ⟨rfl, rfl⟩
    | exact absurd rfl hterm.1
    | exact absurd rfl hterm.2.1
    | exact absurd rfl hterm.2.2
    | (simp only []; split <;> first
        | exact ⟨rfl, rfl⟩
        | (split <;> first | exact ⟨rfl, rfl⟩ | (split <;> exact ⟨rfl, rfl⟩)))

theorem termsExact_step (codes : List Char) (rec rec2 : SequenceRecord) (l : Bytes)
    (inv : TermsExact codes rec) (ha : assignFields rec (lineCode l) l = (rec2, none))
    (hfresh : lineCode l ∈ termCodes → lineCode l ∉ codes) :
    TermsExact (codes ++ [lineCode l]) (bookkeeping rec2 (lineCode l)) := by
  obtain ⟨hsum, hS, hT, hU⟩ := inv
  by_cases hd : lineCode l ∈ termCodes
  · obtain ⟨bigs, _, hseq, hcnt⟩ := assignFields_term_ok rec rec2 _ l hd ha
    have hnew := hfresh hd
    simp only [termCodes, String.toList, List.mem_cons, List.mem_singleton, List.not_mem_nil,
      or_false] at hd
    have hlen : ((rec.Sequence ++ bigs).length : Int) = rec.Sequence.length + bigs.length := by
      simp
    rcases hd with e | e | e
    · rw [e] at hnew hcnt ⊢
      have h0 := hS hnew
      have hc : rec2.STUCounts = { rec.STUCounts with c0 := (bigs.length : Int) } := hcnt
      refine ⟨?_, fun h => absurd (by simp) h, fun h => ?_, fun h => ?_⟩
      · show rec2.STUCounts.c0 + rec2.STUCounts.c1 + rec2.STUCounts.c2 = (rec2.Sequence.length : Int)
        rw [hc, hseq, hlen]
        show (bigs.length : Int) + rec.STUCounts.c1 + rec.STUCounts.c2 = _
        omega
      · show rec2.STUCounts.c1 = 0
        rw [hc]
        exact hT ((not_mem_append_code _ 'T' 'S' (by decide)).mp h)
      · show rec2.STUCounts.c2 = 0
        rw [hc]
        exact hU ((not_mem_append_code _ 'U' 'S' (by decide)).mp h)
    · rw [e] at hnew hcnt ⊢
      have h0 := hT hnew
      have hc : rec2.STUCounts = { rec.STUCounts with c1 := (bigs.length : Int) } := hcnt
      refine ⟨?_, fun h => ?_, fun h => absurd (by simp) h, fun h => ?_⟩
      · show rec2.STUCounts.c0 + rec2.STUCounts.c1 + rec2.STUCounts.c2 = (rec2.Sequence.length : Int)
        rw [hc, hseq, hlen]
        show rec.STUCounts.c0 + (bigs.length : Int) + rec.STUCounts.c2 = _
        omega
      · show rec2.STUCounts.c0 = 0
        rw [hc]
        exact hS ((not_mem_append_code _ 'S' 'T' (by decide)).mp h)
      · show rec2.STUCounts.c2 = 0
        rw [hc]
        exact hU ((not_mem_append_code _ 'U' 'T' (by decide)).mp h)
    · rw [e] at hnew hcnt ⊢
      have h0 := hU hnew
      have hc : rec2.STUCounts = { rec.STUCounts with c2 := (bigs.length : Int) } := hcnt
      refine ⟨?_, fun h => ?_, fun h => ?_, fun h => absurd (by simp) h⟩
      · show rec2.STUCounts.c0 + rec2.STUCounts.c1 + rec2.STUCounts.c2 = (rec2.Sequence.length : Int)
        rw [hc, hseq, hlen]
        show rec.STUCounts.c0 + rec.STUCounts.c1 + (bigs.length : Int) = _
        omega
      · show rec2.STUCounts.c0 = 0
        rw [hc]
        exact hS ((not_mem_append_code _ 'S' 'U' (by decide)).mp h)
      · show rec2.STUCounts.c1 = 0
        rw [hc]
        exact hT ((not_mem_append_code _ 'T' 'U' (by decide)).mp h)
  · have hk := assignFields_terms_unchanged rec (lineCode l) l hd
    rw [ha] at hk
    obtain ⟨k1, k2⟩ := hk
    simp only at k1 k2
    have hne : ∀ c ∈ termCodes, lineCode l ≠ c := by
      intro c hc e
      rw [e] at hd
      exact hd hc
    refine ⟨?_, fun h => ?_, fun h => ?_, fun h => ?_⟩
    · show rec2.STUCounts.c0 + rec2.STUCounts.c1 + rec2.STUCounts.c2 = (rec2.Sequence.length : Int)
      rw [k1, k2]
      exact hsum
    · show rec2.STUCounts.c0 = 0
      rw [k2]
      exact hS ((not_mem_append_code _ 'S' _ (hne 'S' (by decide))).mp h)
    · show rec2.STUCounts.c1 = 0
      rw [k2]
      exact hT ((not_mem_append_code _ 'T' _ (hne 'T' (by decide))).mp h)
    · show rec2.STUCounts.c2 = 0
      rw [k2]
      exact hU ((not_mem_append_code _ 'U' _ (hne 'U' (by decide))).mp h)

theorem unmarshalLines_termsExact :
    ∀ (lines : List Bytes) (rec : SequenceRecord), unmarshalLines .zero lines = (rec, none) →
      (∀ c ∈ termCodes, ((lines.filter isProcessed).map lineCode).count c ≤ 1) →
      TermsExact ((lines.filter isProcessed).map lineCode) rec := by
  intro lines
  induction lines using List.reverseRecOn with
  | nil =>
    intro rec h _
    have e : rec = .zero := (Prod.mk.inj h).1.symm
    subst e
    exact ⟨rfl, fun _ => rfl, fun _ => rfl, fun _ => rfl⟩
  | append_singleton ls l ih =>
    intro rec1 h hone
    obtain ⟨rec, h1, h2⟩ := unmarshalLines_snoc_ok _ _ _ _ h
    rw [List.filter_append] at hone ⊢
    rcases processLine_ok_cases rec rec1 l h2 with ⟨hp, he⟩ | ⟨hp, rec2, ha, rfl⟩
    · simp only [List.filter_cons, hp, List.filter_nil, List.append_nil, Bool.false_eq_true,
        if_false] at hone ⊢
      rw [he]
      exact ih rec h1 hone
    · simp only [List.filter_cons, hp, List.filter_nil, if_true, List.map_append, List.map_cons,
        List.map_nil] at hone ⊢
      have hprev : ∀ c ∈ termCodes, ((ls.filter isProcessed).map lineCode).count c ≤ 1 := by
        intro c hc
        have := hone c hc
        rw [List.count_append] at this
        omega
      apply termsExact_step _ rec rec2 l (ih rec h1 hprev) ha
      intro hd
      have := hone _ hd
      rw [List.count_append, List.count_singleton_self] at this
      exact List.count_eq_zero.mp (by omega)

/-- C16, counterexample: a text with two S lines parses without error; the
second S line overwrites the S slot, so the counts add up to 1 while there are
three terms. -/
theorem two_S_lines_counts :
    (UnmarshalText .zero exampleTwoS).2 = none ∧
    (UnmarshalText .zero exampleTwoS).1.Sequence = [1, 2, 3] ∧
    (UnmarshalText .zero exampleTwoS).1.STUCounts = { c0 := 1, c1 := 0, c2 := 0 } ∧
    (UnmarshalText .zero exampleTwoS).1.STUCounts.c0
      + (UnmarshalText .zero exampleTwoS).1.STUCounts.c1
      + (UnmarshalText .zero exampleTwoS).1.STUCounts.c2
      ≠ ((UnmarshalText .zero exampleTwoS).1.Sequence.length : Int) := by
  decide

/-- C16 (as amended): for every text that parses without error into a
zero-value record and in which each of the codes S, T, U occurs on at most one
processed line, the three counts add up to the number of terms. -/
theorem counts_sum_exact (text : Bytes) (rec : SequenceRecord)
    (h : UnmarshalText .zero text = (rec, none))
    (hone : ∀ c ∈ "STU".toList, ((processedLines text).map lineCode).count c ≤ 1) :
    rec.STUCounts.c0 + rec.STUCounts.c1 + rec.STUCounts.c2 = (rec.Sequence.length : Int) :=
  (unmarshalLines_termsExact (Split text '\n') rec h hone).1

/-- Witness for C16: the eleven-line example has one line for each of S, T, U
and its counts add up to its six terms. -/
theorem counts_sum_exact_witness :
    (∀ c ∈ "STU".toList,
      ((processedLines (joinLines exampleLines)).map lineCode).count c ≤ 1) ∧
    (UnmarshalText .zero (joinLines exampleLines)).1.STUCounts.c0
      + (UnmarshalText .zero (joinLines exampleLines)).1.STUCounts.c1
      + (UnmarshalText .zero (joinLines exampleLines)).1.STUCounts.c2
      = ((UnmarshalText .zero (joinLines exampleLines)).1.Sequence.length : Int) :=
  ⟨by decide,
   counts_sum_exact (joinLines exampleLines) (UnmarshalText .zero (joinLines exampleLines)).1
     (by decide) (by decide)⟩

/-- C19: for every text, whether parsing succeeds or fails, the record left by
`UnmarshalText` on a zero-value record has counts that are not negative and add
up to at most the number of terms; hence for each of the codes S, T, U the
bounds computed in `MarshalText` satisfy `0 <= begin <= end <= len(Sequence)`,
the slice expression does not panic and the line is written. -/
theorem parsed_slices_in_range (text : Bytes) :
    (UnmarshalText .zero text).1.STUCounts.c0 + (UnmarshalText .zero text).1.STUCounts.c1
      + (UnmarshalText .zero text).1.STUCounts.c2
      ≤ ((UnmarshalText .zero text).1.Sequence.length : Int) ∧
    ∀ code ∈ "STU".toList,
      0 ≤ (stuBounds (UnmarshalText .zero text).1.STUCounts (code.toNat - 'S'.toNat)).1 ∧
      (stuBounds (UnmarshalText .zero text).1.STUCounts (code.toNat - 'S'.toNat)).1
        ≤ (stuBounds (UnmarshalText .zero text).1.STUCounts (code.toNat - 'S'.toNat)).2 ∧
      (stuBounds (UnmarshalText .zero text).1.STUCounts (code.toNat - 'S'.toNat)).2
        ≤ ((UnmarshalText .zero text).1.Sequence.length : Int) ∧
      slice (UnmarshalText .zero text).1.Sequence
        (stuBounds (UnmarshalText .zero text).1.STUCounts (code.toNat - 'S'.toNat)).1
        (stuBounds (UnmarshalText .zero text).1.STUCounts (code.toNat - 'S'.toNat)).2 ≠ none ∧
      ∃ chunk, emitCode (UnmarshalText .zero text).1 code = .ok chunk := by
  have hr := UnmarshalText_countsInRange text
  obtain ⟨h0, h1, h2, hs⟩ := hr
  refine ⟨hs, ?_⟩
  intro code hcode
  have hok := emitCode_isOk _ ⟨h0, h1, h2, hs⟩ code
  simp only [String.toList, List.mem_cons, List.mem_singleton, List.not_mem_nil, or_false]
    at hcode
  have hb : ∀ b e : Int, 0 ≤ b → b ≤ e →
      e ≤ ((UnmarshalText .zero text).1.Sequence.length : Int) →
      0 ≤ b ∧ b ≤ e ∧ e ≤ ((UnmarshalText .zero text).1.Sequence.length : Int) ∧
        slice (UnmarshalText .zero text).1.Sequence b e ≠ none := by
    intro b e hb1 hb2 hb3
    refine ⟨hb1, hb2, hb3, ?_⟩
    simp [slice, hb1, hb2, hb3]
  rcases hcode with rfl | rfl | rfl
  · have e : ('S'.toNat - 'S'.toNat) = 0 := rfl
    rw [e, stuBounds_zero]
    obtain ⟨a1, a2, a3, a4⟩ := hb 0 (UnmarshalText .zero text).1.STUCounts.c0 (le_refl _) h0
      (by omega)
    exact ⟨a1, a2, a3, a4, _, hok⟩
  · have e : ('T'.toNat - 'S'.toNat) = 1 := rfl
    rw [e, stuBounds_one]
    obtain ⟨a1, a2, a3, a4⟩ := hb (0 + (UnmarshalText .zero text).1.STUCounts.c0)
      ((UnmarshalText .zero text).1.STUCounts.c1 + (UnmarshalText .zero text).1.STUCounts.c0)
      (by omega) (by omega) (by omega)
    exact ⟨a1, a2, a3, a4, _, hok⟩
  · have e : ('U'.toNat - 'S'.toNat) = 2 := rfl
    rw [e, stuBounds_two]
    obtain ⟨a1, a2, a3, a4⟩ := hb
      (0 + (UnmarshalText .zero text).1.STUCounts.c0 + (UnmarshalText .zero text).1.STUCounts.c1)
      ((UnmarshalText .zero text).1.STUCounts.c2 + (UnmarshalText .zero text).1.STUCounts.c0
        + (UnmarshalText .zero text).1.STUCounts.c1)
      (by omega) (by omega) (by omega)
    exact ⟨a1, a2, a3, a4, _, hok⟩

theorem parseBigs_base10_ok :
    ∀ toks : List Bytes, (∀ t ∈ toks, IsBase10Integer t) →
      parseBigs toks = .ok (toks.map integerValue) := by
  intro toks
  induction toks with
  | nil => intro _; rfl
  | cons t rest ih =>
    intro hall
    have ht := hall t (by simp)
    have hok := (SetString_ok_iff 0 t).mpr ht
    have hv := SetString_value 0 t ht
    have hrest := ih (fun x hx => hall x (List.mem_cons_of_mem _ hx))
    rw [parseBigs]
    rcases hs : SetString 0 t with ⟨z, ok⟩
    rw [hs] at hok hv
    simp only at hok hv
    subst hok hv
    simp only [hrest, List.map_cons]

theorem parseBigs_base10_err :
    ∀ toks : List Bytes, (∃ t ∈ toks, ¬ IsBase10Integer t) →
      ∃ before t after, toks = before ++ t :: after ∧ (∀ x ∈ before, IsBase10Integer x) ∧
        ¬ IsBase10Integer t ∧ parseBigs toks = .error t := by
  intro toks
  induction toks with
  | nil => rintro ⟨t, ht, _⟩; simp at ht
  | cons t0 rest ih =>
    intro h
    by_cases h0 : IsBase10Integer t0
    · have h' : ∃ t ∈ rest, ¬ IsBase10Integer t := by
        obtain ⟨t, ht, hno⟩ := h
        rcases List.mem_cons.mp ht with rfl | ht
        · exact absurd h0 hno
        · exact ⟨t, ht, hno⟩
      obtain ⟨before, t, after, he, hb, hno, hp⟩ := ih h'
      refine ⟨t0 :: before, t, after, by simp [he], ?_, hno, ?_⟩
      · intro x hx
        rcases List.mem_cons.mp hx with rfl | hx
        · exact h0
        · exact hb x hx
      · have hok := (SetString_ok_iff 0 t0).mpr h0
        rw [parseBigs]
        rcases hs : SetString 0 t0 with ⟨z, ok⟩
        rw [hs] at hok
        simp only at hok
        subst hok
        simp only [hp]
    · refine ⟨[], t0, rest, rfl, by simp, h0, ?_⟩
      have hbad := SetString_not_ok 0 t0 h0
      rw [parseBigs]
      rcases hs : SetString 0 t0 with ⟨z, ok⟩
      rw [hs] at hbad
      simp only at hbad
      subst hbad
      rfl

theorem TrimRight_replicate (body : Bytes) (n : Nat) (hlast : body.getLast? ≠ some ',') :
    TrimRight (body ++ List.replicate n ',') ',' = body := by
  induction n with
  | zero =>
    simp only [List.replicate_zero, List.append_nil, TrimRight]
    rcases List.eq_nil_or_concat body with h | ⟨s, y, h⟩
    · rw [h]
      rfl
    · rw [List.concat_eq_append] at h
      rw [h] at hlast ⊢
      rw [List.rdropWhile_concat_neg]
      simpa using hlast
  | succ k ih =>
    rw [List.replicate_succ', ← List.append_assoc, TrimRight,
      List.rdropWhile_concat_pos _ _ _ (by simp)]
    exact ih

theorem trimOneComma_le_one (body : Bytes) (n : Nat) (hlast : body.getLast? ≠ some ',')
    (hn : n ≤ 1) : trimOneComma (body ++ List.replicate n ',') = body := by
  interval_cases n
  · simp [trimOneComma, hlast]
  · simp [trimOneComma]

theorem counts_get_set (counts : Counts3) (code : Char) (v : Int) (hcode : code ∈ "STU".toList) :
    (counts.set (code.toNat - 'S'.toNat) v).get (code.toNat - 'S'.toNat) = v ∧
    ∀ j, j ≤ 2 → j ≠ code.toNat - 'S'.toNat →
      (counts.set (code.toNat - 'S'.toNat) v).get j = counts.get j := by
  simp only [String.toList, List.mem_cons, List.mem_singleton, List.not_mem_nil, or_false]
    at hcode
  rcases hcode with rfl | rfl | rfl
  · refine ⟨rfl, ?_⟩
    intro j hj hne
    have e : ('S'.toNat - 'S'.toNat) = 0 := rfl
    rw [e] at hne ⊢
    interval_cases j
    · exact absurd rfl hne
    · rfl
    · rfl
  · refine ⟨rfl, ?_⟩
    intro j hj hne
    have e : ('T'.toNat - 'S'.toNat) = 1 := rfl
    rw [e] at hne ⊢
    interval_cases j
    · rfl
    · exact absurd rfl hne
    · rfl
  · refine ⟨rfl, ?_⟩
    intro j hj hne
    have e : ('U'.toNat - 'S'.toNat) = 2 := rfl
    rw [e] at hne ⊢
    interval_cases j
    · rfl
    · rfl
    · exact absurd rfl hne

/-- C18, counterexample: on the content `1,2,,` removing one trailing comma
and splitting gives the tokens `1`, `2` and the empty token, which is not an
integer; the parser removes both trailing commas and accepts the line with the
terms 1 and 2. -/
theorem two_trailing_commas_accepted :
    Split (trimOneComma "1,2,,".toList) ',' = ["1".toList, "2".toList, []] ∧
    ¬ IsBase10Integer [] ∧
    processLine .zero "%S A000001 1,2,,".toList
      = ({ FieldOrder := ['S'], LineCounts := [('S', 1)], STUCounts := { c0 := 2 },
           Sequence := [1, 2] }, none) ∧
    UnmarshalText .zero "%S A000001 1,2,,\n".toList
      = ({ FieldOrder := ['S'], LineCounts := [('S', 1)], STUCounts := { c0 := 2 },
           Sequence := [1, 2] }, none) :=
  ⟨by decide, not_isBase10Integer_nil, by decide, by decide⟩

/-- C18 (as amended): for a processed S, T or U line with content `c`, the
tokens parsed are those obtained by removing every trailing comma from `c` and
splitting the rest on `,` (with at most one trailing comma this is the removal
of one comma).  If a token is not a base-10 integer the error of the first such
token is returned and the record is unchanged; otherwise the integers are
appended in order to `Sequence` and the slot `STUCounts[code - 'S']` is set to
(overwritten with) their number, the other slots being kept. -/
theorem term_line_tokens (rec : SequenceRecord) (code : Char) (identity c body : Bytes)
    (n : Nat) (hcode : code ∈ "STU".toList) (hid : identity.length = 7) (hc : c ≠ [])
    (hbody : c = body ++ List.replicate n ',') (hlast : body.getLast? ≠ some ',') :
    TrimRight c ',' = body ∧
    (n ≤ 1 → trimOneComma c = body) ∧
    ((∃ t ∈ Split body ',', ¬ IsBase10Integer t) →
      ∃ before t after, Split body ',' = before ++ t :: after ∧
        (∀ x ∈ before, IsBase10Integer x) ∧ ¬ IsBase10Integer t ∧
        processLine rec (mkLine code identity c) = (rec, some (.invalidSequenceValue t))) ∧
    ((∀ t ∈ Split body ',', IsBase10Integer t) →
      processLine rec (mkLine code identity c)
        = (bookkeeping
            { rec with Sequence := rec.Sequence ++ (Split body ',').map integerValue,
                       STUCounts := rec.STUCounts.set (code.toNat - 'S'.toNat)
                         ((Split body ',').length : Int) } code, none)) ∧
    ((rec.STUCounts.set (code.toNat - 'S'.toNat) ((Split body ',').length : Int)).get
        (code.toNat - 'S'.toNat) = ((Split body ',').length : Int) ∧
      ∀ j, j ≤ 2 → j ≠ code.toNat - 'S'.toNat →
        (rec.STUCounts.set (code.toNat - 'S'.toNat) ((Split body ',').length : Int)).get j
          = rec.STUCounts.get j) := by
  have htrim : TrimRight c ',' = body := by
    rw [hbody]
    exact TrimRight_replicate body n hlast
  have hp := processLine_mkLine rec code identity c hid hc
  have hdrop := mkLine_drop code identity c hid
  have hassign := assignFields_term_eq rec code (mkLine code identity c) hcode
  rw [hdrop, htrim] at hassign
  refine ⟨htrim, ?_, ?_, ?_, counts_get_set rec.STUCounts code _ hcode⟩
  · intro hn
    rw [hbody]
    exact trimOneComma_le_one body n hlast hn
  · intro hbad
    obtain ⟨before, t, after, he, hb, hno, hparse⟩ := parseBigs_base10_err _ hbad
    refine ⟨before, t, after, he, hb, hno, ?_⟩
    rw [hp, hassign, hparse]
  · intro hall
    rw [hp, hassign, parseBigs_base10_ok _ hall]
    simp only [List.length_map]

/-- Witness for C18: on a record whose S slot holds 5, the S line with content
`7,8,,` has its two trailing commas removed and sets the slot to 2. -/
theorem term_line_tokens_witness :
    TrimRight "7,8,,".toList ',' = "7,8".toList ∧
    (processLine exampleFiveS (mkLine 'S' "A000001".toList "7,8,,".toList)).1.STUCounts
      = { c0 := 2, c1 := 0, c2 := 0 } ∧
    (processLine exampleFiveS (mkLine 'S' "A000001".toList "7,8,,".toList)).1.Sequence
      = [1, 2, 3, 4, 5, 7, 8] :=
  ⟨(term_line_tokens exampleFiveS 'S' "A000001".toList "7,8,,".toList "7,8".toList 2
      (by decide) (by decide) (by decide) (by decide) (by decide)).1,
   by decide, by decide⟩

end Sequence
